import Mathlib

/-!
# Request/ack benchmark pair: wire codec, statistics, sender and responder

A shallow embedding of `bench_protocol.hpp`, `bench_pub_rtt.cpp` and
`bench_echo_ack.cpp`.

Modelling conventions.

* A byte is a `Fin 256`; a buffer (`std::string`, or a `data`/`len` pair) is a
  `List Byte` whose length is `len`.
* `std::uint64_t` values are natural numbers; every increment is written with
  an explicit `% 2 ^ 64`.
* The object representation of a `std::uint64_t` is little-endian (the wire
  format is the raw struct layout of the host, see `#pragma pack(push, 1)`).
* `double` values are rationals and `±infinity` is `none`. The statistics are computed in
  exact arithmetic; the product that decides the index in `percentile_sorted` is rounded
  to binary64 (`round_double`).
* A `steady_clock::time_point` is an integer number of nanoseconds.
-/

set_option autoImplicit false

/-- One octet of a payload. -/
abbrev Byte := Fin 256

/-- Range of `std::uint64_t`. -/
def U64 : Nat := 2 ^ 64

namespace bench

/-- Value of `kPayloadBytes`. -/
def kPayloadBytes : Nat := 1024

/-- Packed struct `ReqHeader` (16 bytes). -/
structure ReqHeader where
  seq : Nat
  client_send_mono_ns : Nat
  deriving DecidableEq, Repr

/-- Packed struct `AckHeader` (24 bytes). -/
structure AckHeader where
  seq : Nat
  server_recv_mono_ns : Nat
  server_send_mono_ns : Nat
  deriving DecidableEq, Repr

/-- Value of `sizeof(ReqHeader)`. -/
def sizeofReqHeader : Nat := 16

/-- Value of `sizeof(AckHeader)`. -/
def sizeofAckHeader : Nat := 24

/-- Object representation of a `std::uint64_t`: eight bytes, least significant first. -/
def u64_bytes (v : Nat) : List Byte :=
  (List.range 8).map (fun i => (⟨v / 256 ^ i % 256, Nat.mod_lt _ (by decide)⟩ : Byte))

/-- Value of a `std::uint64_t` whose object representation is `bs` (least significant first). -/
def u64_value (bs : List Byte) : Nat :=
  bs.foldr (fun b acc => b.val + 256 * acc) 0

/-- Object representation of a `ReqHeader`: `seq` at offset 0, the timestamp at offset 8. -/
def ReqHeader.bytes (h : ReqHeader) : List Byte :=
  u64_bytes h.seq ++ u64_bytes h.client_send_mono_ns

/-- Object representation of an `AckHeader`: three consecutive 8-byte fields. -/
def AckHeader.bytes (h : AckHeader) : List Byte :=
  u64_bytes h.seq ++ u64_bytes h.server_recv_mono_ns ++ u64_bytes h.server_send_mono_ns

/-- The `ReqHeader` whose object representation is the 16 bytes `bs`. -/
def ReqHeader.ofBytes (bs : List Byte) : ReqHeader :=
  { seq := u64_value (bs.take 8), client_send_mono_ns := u64_value ((bs.drop 8).take 8) }

/-- The `AckHeader` whose object representation is the 24 bytes `bs`. -/
def AckHeader.ofBytes (bs : List Byte) : AckHeader :=
  { seq := u64_value (bs.take 8),
    server_recv_mono_ns := u64_value ((bs.drop 8).take 8),
    server_send_mono_ns := u64_value ((bs.drop 16).take 8) }

/-- Effect of `std::memcpy(dst, src, n)` on the destination buffer. -/
def memcpy (dst src : List Byte) (n : Nat) : List Byte :=
  src.take n ++ dst.drop n

/-- Function `make_req_payload(seq, client_send_mono_ns)`: a string of `kPayloadBytes`
zero bytes whose first `sizeof(hdr)` bytes are overwritten by the header. -/
def make_req_payload (seq client_send_mono_ns : Nat) : List Byte :=
  let payload : List Byte := List.replicate kPayloadBytes 0
  let hdr : ReqHeader := { seq := seq, client_send_mono_ns := client_send_mono_ns }
  memcpy payload hdr.bytes sizeofReqHeader

/-- Function `make_ack_payload(seq, server_recv_mono_ns, server_send_mono_ns)`. -/
def make_ack_payload (seq server_recv_mono_ns server_send_mono_ns : Nat) : List Byte :=
  let payload : List Byte := List.replicate sizeofAckHeader 0
  let hdr : AckHeader :=
    { seq := seq, server_recv_mono_ns := server_recv_mono_ns,
      server_send_mono_ns := server_send_mono_ns }
  memcpy payload hdr.bytes sizeofAckHeader

/-- Outcome of a parse call: the returned flag, the out-parameter after the call, and
the offsets of the input buffer that were read, in order. -/
structure Parsed (H : Type) where
  ok : Bool
  out : H
  reads : List Nat

/-- The source side of `std::memcpy(dst, data, n)`: the offsets `0 .. n-1` of `data` are
read in order; each entry is an offset with the byte found there (`0` stands for whatever
lies past the end of the buffer). -/
def memcpy_read (data : List Byte) (n : Nat) : List (Nat × Byte) :=
  (List.range n).map (fun i => (i, data.getD i 0))

/-- Function `parse_req_payload(data, len, out)`; `len` is `data.length`. -/
def parse_req_payload (data : List Byte) (out : ReqHeader) : Parsed ReqHeader :=
  if data.length < sizeofReqHeader then { ok := false, out := out, reads := [] }
  else
    let copied := memcpy_read data sizeofReqHeader
    { ok := true
      out := ReqHeader.ofBytes (copied.map Prod.snd)
      reads := copied.map Prod.fst }

/-- Function `parse_ack_payload(data, len, out)`; `len` is `data.length`. -/
def parse_ack_payload (data : List Byte) (out : AckHeader) : Parsed AckHeader :=
  if data.length < sizeofAckHeader then { ok := false, out := out, reads := [] }
  else
    let copied := memcpy_read data sizeofAckHeader
    { ok := true
      out := AckHeader.ofBytes (copied.map Prod.snd)
      reads := copied.map Prod.fst }

end bench

/-! ## Online statistics (identical in `bench_pub_rtt.cpp` and `bench_echo_ack.cpp`) -/

/-- Struct `OnlineStats`. `min_v = none` is `+infinity`, `max_v = none` is `-infinity`. -/
structure OnlineStats where
  n : Nat := 0
  mean : ℚ := 0
  m2 : ℚ := 0
  min_v : Option ℚ := none
  max_v : Option ℚ := none
  deriving DecidableEq

namespace OnlineStats

/-- Test `x < min_v`, with `none` read as `+infinity`. -/
def lt_min_v (x : ℚ) : Option ℚ → Bool
  | none => true
  | some m => decide (x < m)

/-- Test `x > max_v`, with `none` read as `-infinity`. -/
def gt_max_v (x : ℚ) : Option ℚ → Bool
  | none => true
  | some m => decide (x > m)

/-- Method `OnlineStats::add(x)`. -/
def add (s : OnlineStats) (x : ℚ) : OnlineStats :=
  let n := (s.n + 1) % U64
  let min_v := if lt_min_v x s.min_v then some x else s.min_v
  let max_v := if gt_max_v x s.max_v then some x else s.max_v
  let delta := x - s.mean
  let mean := s.mean + delta / (n : ℚ)
  let delta2 := x - mean
  let m2 := s.m2 + delta * delta2
  { n := n, mean := mean, m2 := m2, min_v := min_v, max_v := max_v }

/-- Method `OnlineStats::variance()`. -/
def variance (s : OnlineStats) : ℚ :=
  if s.n ≥ 2 then s.m2 / ((s.n - 1 : Nat) : ℚ) else 0

/-- The accumulator after `add` has been called on each element of `xs` in order,
starting from the default-initialised accumulator. -/
def feed (xs : List ℚ) : OnlineStats :=
  xs.foldl add {}

end OnlineStats

/-! ## Rounding to binary64 -/

/-- Rounding of a rational to the nearest integer, ties to the even integer. -/
def round_even (x : ℚ) : Int :=
  let f := x.floor
  let r := x - (f : ℚ)
  if r < 1 / 2 then f
  else if 1 / 2 < r then f + 1
  else if f % 2 = 0 then f else f + 1

/-- The binary64 value nearest to a positive rational `q` below the overflow threshold
(round to nearest, ties to even). Around `q` the doubles are the multiples of
`2 ^ (e - 52)`, where `e` is the exponent of `q`, not below the least normal exponent
`-1022` (so the subnormal spacing is `2 ^ (-1074)`). -/
def round_double_pos (q : ℚ) : ℚ :=
  let e : Int := max (Int.log 2 q) (-1022)
  let ulp : ℚ := (2 : ℚ) ^ (e - 52)
  (round_even (q / ulp) : ℚ) * ulp

/-- The binary64 value nearest to a rational `q` of magnitude below the overflow threshold:
the result of a double operation whose exact result is `q`. -/
def round_double (q : ℚ) : ℚ :=
  if q = 0 then 0
  else if q < 0 then - round_double_pos (-q)
  else round_double_pos q

/-! ## Sender (`bench_pub_rtt.cpp`) -/

namespace pub_rtt

/-- Function `percentile_sorted(sorted, p01)` at `T = double`; `p01` is the exact value of
the (finite) double argument. The product `p01 * static_cast<double>(sorted.size() - 1)` is
a double multiplication: both the conversion of the size and the product are rounded to
binary64. The cast `static_cast<std::size_t>(idx)` truncates; it is only reached with
`idx ≥ 0`. The result `none` stands for an element access outside the vector. -/
def percentile_sorted (sorted : List ℚ) (p01 : ℚ) : Option ℚ :=
  if sorted.isEmpty then some 0
  else if p01 ≤ 0 then sorted.head?
  else if p01 ≥ 1 then sorted.getLast?
  else
    let idx : ℚ := round_double (p01 * round_double ((sorted.length - 1 : Nat) : ℚ))
    let i : Nat := idx.floor.toNat
    sorted[i]?

/-- The fields of `Args` that the send loop and the handlers use. -/
structure Args where
  rate_hz : Int := 1000
  payload_bytes : Nat := bench.kPayloadBytes
  count : Nat := 0
  ack_timeout_ms : Int := 100
  deriving DecidableEq

/-- The variables of `main` shared between the send loop and the ack callback, with the
loop counter `sent`. -/
structure Sender where
  args : Args
  send_ts : List Int
  state : List Nat
  inflight : List Nat
  send_map : List (Nat × Int)
  rtt_us_samples : List ℚ
  rtt_us_stats : OnlineStats
  ack_received : Nat
  timeouts : Nat
  out_of_order : Nat
  last_ack_seq : Nat
  have_last_ack_seq : Bool
  sent : Nat
  deriving DecidableEq

/-- Lookup `send_map.find(k)`: the mapped time point, or `none` for `end()`. -/
def map_find (m : List (Nat × Int)) (k : Nat) : Option Int :=
  (m.find? (fun p => p.1 == k)).map (fun p => p.2)

/-- Call `send_map.emplace(k, v)`: inserts only when the key is absent. -/
def map_emplace (m : List (Nat × Int)) (k : Nat) (v : Int) : List (Nat × Int) :=
  if (map_find m k).isSome then m else m ++ [(k, v)]

/-- Call `send_map.erase(it)` for the iterator found at key `k`. -/
def map_erase (m : List (Nat × Int)) (k : Nat) : List (Nat × Int) :=
  m.filter (fun p => p.1 != k)

/-- State of `main` just before the send loop: the vectors are resized to `count` in
count mode and left empty in duration mode. -/
def init (args : Args) : Sender :=
  { args := args
    send_ts := if args.count > 0 then List.replicate args.count 0 else []
    state := if args.count > 0 then List.replicate args.count 0 else []
    inflight := []
    send_map := []
    rtt_us_samples := []
    rtt_us_stats := {}
    ack_received := 0
    timeouts := 0
    out_of_order := 0
    last_ack_seq := 0
    have_last_ack_seq := false
    sent := 0 }

/-- Conversion `duration_cast<duration<double, std::micro>>` of a nanosecond difference. -/
def to_us (ns : Int) : ℚ := (ns : ℚ) / 1000

/-- The ack subscriber callback, called at time `now_tp` with `payload`. -/
def on_ack (s : Sender) (now_tp : Int) (payload : List Byte) : Sender :=
  let r := bench.parse_ack_payload payload { seq := 0, server_recv_mono_ns := 0, server_send_mono_ns := 0 }
  if !r.ok then s
  else
    let ack := r.out
    let s1 : Sender :=
      { s with
        out_of_order :=
          if s.have_last_ack_seq && decide (ack.seq ≤ s.last_ack_seq) then (s.out_of_order + 1) % U64
          else s.out_of_order
        last_ack_seq := ack.seq
        have_last_ack_seq := true }
    if s.args.count > 0 then
      if ack.seq ≥ s.args.count then s1
      else if s.state.getD ack.seq 0 ≠ 1 then s1
      else
        let sent_tp := s.send_ts.getD ack.seq 0
        let rtt := to_us (now_tp - sent_tp)
        { s1 with
          state := s.state.set ack.seq 2
          ack_received := (s.ack_received + 1) % U64
          rtt_us_stats := s.rtt_us_stats.add rtt
          rtt_us_samples := s.rtt_us_samples ++ [rtt] }
    else
      match map_find s.send_map ack.seq with
      | none => s1
      | some sent_tp =>
        let rtt := to_us (now_tp - sent_tp)
        { s1 with
          send_map := map_erase s.send_map ack.seq
          ack_received := (s.ack_received + 1) % U64
          rtt_us_stats := s.rtt_us_stats.add rtt
          rtt_us_samples := s.rtt_us_samples ++ [rtt] }

/-- The bookkeeping of one iteration of the send loop at time `send_tp`. In count mode
the loop condition `sent < args.count` guards the iteration. -/
def on_send (s : Sender) (send_tp : Int) : Sender :=
  if s.args.count > 0 then
    if s.sent < s.args.count then
      let seq := s.sent
      { s with
        sent := (s.sent + 1) % U64
        send_ts := s.send_ts.set seq send_tp
        state := s.state.set seq 1
        inflight := s.inflight ++ [seq] }
    else s
  else
    let seq := s.sent
    { s with
      sent := (s.sent + 1) % U64
      send_map := map_emplace s.send_map seq send_tp
      inflight := s.inflight ++ [seq] }

/-- The value `timeout` in nanoseconds: `std::chrono::milliseconds(args.ack_timeout_ms)`. -/
def timeout_ns (args : Args) : Int := args.ack_timeout_ms * 1000000

/-- The loop `while (!inflight.empty())` of the timeout sweep, run on the queue given as
the list argument; the returned state holds what is left of the queue. -/
def sweep_loop (now : Int) : List Nat → Sender → Sender
  | [], s => { s with inflight := [] }
  | q :: rest, s =>
    if s.args.count > 0 then
      let st := s.state.getD q 0
      if st = 2 ∨ st = 3 then sweep_loop now rest s
      else
        let age := now - s.send_ts.getD q 0
        if age > timeout_ns s.args then
          sweep_loop now rest
            { s with state := s.state.set q 3, timeouts := (s.timeouts + 1) % U64 }
        else { s with inflight := q :: rest }
    else
      match map_find s.send_map q with
      | none => sweep_loop now rest s
      | some ts =>
        let age := now - ts
        if age > timeout_ns s.args then
          sweep_loop now rest
            { s with send_map := map_erase s.send_map q, timeouts := (s.timeouts + 1) % U64 }
        else { s with inflight := q :: rest }

/-- The timeout sweep at time `now` (after a send, and in the drain loop). -/
def sweep (s : Sender) (now : Int) : Sender :=
  if s.args.ack_timeout_ms > 0 then sweep_loop now s.inflight s else s

/-- A step of the sender: a loop iteration sending a request, an ack delivered to the
callback, or a timeout sweep. Each runs under the mutex `mu`. -/
inductive Event where
  | send (send_tp : Int)
  | ack (now_tp : Int) (payload : List Byte)
  | sweep (now : Int)
  deriving DecidableEq

/-- Effect of one event on the sender state. -/
def step (s : Sender) : Event → Sender
  | .send send_tp => on_send s send_tp
  | .ack now_tp payload => on_ack s now_tp payload
  | .sweep now => sweep s now

/-- Effect of a sequence of events, in any interleaving. -/
def run (s : Sender) (es : List Event) : Sender :=
  es.foldl step s

end pub_rtt

/-! ## Responder (`bench_echo_ack.cpp`) -/

namespace echo_ack

/-- The variables of `main` captured by the request callback. -/
structure Responder where
  have_prev : Bool := false
  prev_tp : Int := 0
  interarrival_us : OnlineStats := {}
  recv_count : Nat := 0
  out_of_order : Nat := 0
  last_seq : Nat := 0
  have_last_seq : Bool := false
  deriving DecidableEq

/-- The request subscriber callback, called at time `now_tp` with `payload`;
`srv_recv_ns` and `srv_send_ns` are the two readings of `steady_now_ns()`. Returns the
new state and the payloads published on the ack key. -/
def on_req (s : Responder) (now_tp : Int) (srv_recv_ns srv_send_ns : Nat)
    (payload : List Byte) : Responder × List (List Byte) :=
  let r := bench.parse_req_payload payload { seq := 0, client_send_mono_ns := 0 }
  if !r.ok then (s, [])
  else
    let req := r.out
    let s1 : Responder :=
      { recv_count := (s.recv_count + 1) % U64
        interarrival_us :=
          if s.have_prev then s.interarrival_us.add (pub_rtt.to_us (now_tp - s.prev_tp))
          else s.interarrival_us
        have_prev := true
        prev_tp := now_tp
        out_of_order :=
          if s.have_last_seq && decide (req.seq ≤ s.last_seq) then (s.out_of_order + 1) % U64
          else s.out_of_order
        last_seq := req.seq
        have_last_seq := true }
    (s1, [bench.make_ack_payload req.seq srv_recv_ns srv_send_ns])

end echo_ack

/-! ## Specification-side definitions and traces -/

/-- Specification of the out-of-order count of a stream `s`: the number of positions
`i ≥ 1` with `s[i] ≤ s[i-1]`. -/
def ooo_count (s : List Nat) : Nat :=
  ((List.range s.length).filter
    (fun i => decide (1 ≤ i) && decide (s.getD i 0 ≤ s.getD (i - 1) 0))).length

namespace pub_rtt

/-- The sequence number an ack payload decodes to, when `parse_ack_payload` accepts it. -/
def decode_ack (payload : List Byte) : Option Nat :=
  let r := bench.parse_ack_payload payload
    { seq := 0, server_recv_mono_ns := 0, server_send_mono_ns := 0 }
  if r.ok then some r.out.seq else none

/-- The sequence numbers of the successfully decoded acks of a trace, in delivery order. -/
def decoded_acks (es : List Event) : List Nat :=
  es.filterMap (fun e =>
    match e with
    | .ack _ payload => decode_ack payload
    | _ => none)

end pub_rtt

namespace echo_ack

/-- One call of the request callback: arrival time, the two clock readings, the payload. -/
structure Delivery where
  now_tp : Int
  srv_recv_ns : Nat
  srv_send_ns : Nat
  payload : List Byte
  deriving DecidableEq

/-- The responder state after the callback has handled the deliveries `ds` in order. -/
def run (s : Responder) (ds : List Delivery) : Responder :=
  ds.foldl (fun st d => (on_req st d.now_tp d.srv_recv_ns d.srv_send_ns d.payload).1) s

/-- The sequence number a request payload decodes to, when `parse_req_payload` accepts it. -/
def decode_req (payload : List Byte) : Option Nat :=
  let r := bench.parse_req_payload payload { seq := 0, client_send_mono_ns := 0 }
  if r.ok then some r.out.seq else none

/-- The sequence numbers of the successfully decoded requests, in delivery order. -/
def decoded_reqs (ds : List Delivery) : List Nat :=
  ds.filterMap (fun d => decode_req d.payload)

end echo_ack

/-! ## Invariants of the sender -/

namespace pub_rtt

/-- The state tag of sequence number `q` in count mode (0 unsent, 1 inflight, 2 acked,
3 timed out). -/
def tag (s : Sender) (q : Nat) : Nat := s.state.getD q 0

/-- The changes of a tag that one step may make: none, unsent to inflight, inflight to
acked, inflight to timed out. -/
def TagStep (a b : Nat) : Prop :=
  a = b ∨ (a = 0 ∧ b = 1) ∨ (a = 1 ∧ (b = 2 ∨ b = 3))

/-- The changes of a tag that a timeout sweep may make: none, or inflight to timed out. -/
def SweepTag (a b : Nat) : Prop :=
  a = b ∨ (a = 1 ∧ b = 3)

/-- Invariant of the count-mode tables and counters, the pending queue apart. -/
structure CountCore (s : Sender) : Prop where
  count_pos : 0 < s.args.count
  count_lt : s.args.count < U64
  state_len : s.state.length = s.args.count
  sent_le : s.sent ≤ s.args.count
  unsent : ∀ q, s.sent ≤ q → tag s q = 0
  sent_tag : ∀ q, q < s.sent → tag s q = 1 ∨ tag s q = 2 ∨ tag s q = 3
  acked : s.ack_received = s.state.count 2
  timed : s.timeouts = s.state.count 3

/-- Invariant of a count-mode sender: the core invariant, and the pending queue holds
only sequence numbers that were sent. -/
def CountInv (s : Sender) : Prop :=
  CountCore s ∧ ∀ q ∈ s.inflight, q < s.sent

/-- Invariant of the duration-mode table and counters, the pending queue apart. -/
structure DurCore (s : Sender) : Prop where
  count_zero : s.args.count = 0
  sent_lt : s.sent < U64
  keys_lt : ∀ p ∈ s.send_map, p.1 < s.sent
  keys_nodup : (s.send_map.map Prod.fst).Nodup
  conserve : s.ack_received + s.timeouts + s.send_map.length = s.sent

/-- Invariant of a duration-mode sender. -/
def DurInv (s : Sender) : Prop :=
  DurCore s ∧ ∀ q ∈ s.inflight, q < s.sent

end pub_rtt

/-! ## Send pacing (`bench_pub_rtt.cpp`, the send loop) -/

namespace pub_rtt

/-- The two start-up checks of `main` on the parsed arguments: true when neither makes
`main` return 2. -/
def startup_ok (args : Args) : Bool :=
  !(decide (args.rate_hz ≤ 0)) && !(decide (args.payload_bytes < bench.sizeofReqHeader))

/-- The value `interval`, in microseconds: `static_cast<int>(1000000 / args.rate_hz)`, a
division of two `int`s. -/
def interval_us (args : Args) : Int :=
  Int.tdiv 1000000 args.rate_hz

/-- The clock readings of one iteration of the send loop: `now_tp` before the optional
`sleep_until`, `send_tp` after it. -/
structure Iteration where
  now_tp : Int
  send_tp : Int
  deriving DecidableEq

/-- The value of `next_send` (a time point in nanoseconds) at the end of an iteration that
began with `next_send`: the only write is `next_send += interval`. -/
def iterate_deadline (args : Args) (next_send : Int) (_it : Iteration) : Int :=
  next_send + interval_us args * 1000

/-- The value of `next_send` after the loop body has run once for each element of `its`,
starting from `next_send = start_tp`. -/
def deadline_after (args : Args) (start_tp : Int) (its : List Iteration) : Int :=
  its.foldl (iterate_deadline args) start_tp

end pub_rtt

/-! ## Specification-side views of the queue, the final count and the arrivals -/

namespace pub_rtt

/-- The computation of `pending_inflight` for the final report: a loop over `state` that
counts the entries equal to 1 in count mode, `send_map.size()` in duration mode. -/
def pending_inflight (s : Sender) : Nat :=
  if s.args.count > 0 then
    s.state.foldl (fun acc st => if st = 1 then (acc + 1) % U64 else acc) 0
  else s.send_map.length

/-- The send time of sequence number `q` when `q` is still inflight, `none` otherwise:
in count mode `send_ts[q]` for an entry tagged 1, in duration mode the entry of `send_map`. -/
def pending (s : Sender) (q : Nat) : Option Int :=
  if s.args.count > 0 then
    (if s.state.getD q 0 = 1 then some (s.send_ts.getD q 0) else none)
  else map_find s.send_map q

/-- Whether the send times of `a` and `b` are in non-decreasing order, when both are still
inflight. -/
def times_ordered (s : Sender) (a b : Nat) : Bool :=
  match pending s a, pending s b with
  | some ta, some tb => decide (ta ≤ tb)
  | _, _ => true

/-- A sender state whose pending queue is in send order with non-decreasing send times:
the state satisfies the invariant of its mode, the queue lists sequence numbers in
increasing order, the send times of its inflight entries do not decrease along it, and every
inflight sequence number is in it. -/
structure QueueOrdered (s : Sender) : Prop where
  wf : CountInv s ∨ DurInv s
  send_order : s.inflight.Pairwise (fun a b => a < b)
  times : s.inflight.Pairwise (fun a b => times_ordered s a b = true)
  covers : ∀ q, q < s.sent → (pending s q).isSome = true → q ∈ s.inflight

end pub_rtt

namespace echo_ack

/-- The arrival times of the deliveries whose payload decodes, in delivery order. -/
def decoded_arrivals (ds : List Delivery) : List Int :=
  ds.filterMap (fun d => (decode_req d.payload).map (fun _ => d.now_tp))

/-- The differences between consecutive arrival times, in microseconds: the `i`-th is the
time from the `i`-th to the `(i+1)`-th arrival. -/
def gaps_us (ts : List Int) : List ℚ :=
  List.zipWith (fun a b => pub_rtt.to_us (b - a)) ts ts.tail

end echo_ack

namespace pub_rtt

/-- The clock readings `send_tp` of the send events of a trace, in order. -/
def send_times (es : List Event) : List Int :=
  es.filterMap (fun e =>
    match e with
    | .send send_tp => some send_tp
    | _ => none)

end pub_rtt

/-! ## Codec lemmas -/

namespace bench

theorem u64_bytes_length (v : Nat) : (u64_bytes v).length = 8 := by
  simp [u64_bytes]

theorem u64_value_bytes (v : Nat) : u64_value (u64_bytes v) = v % 2 ^ 64 := by
  have h : List.range 8 = [0, 1, 2, 3, 4, 5, 6, 7] := by decide
  simp only [u64_bytes, u64_value, h, List.map, List.foldr]
  norm_num
  omega

theorem memcpy_read_bytes (data : List Byte) (n : Nat) (h : n ≤ data.length) :
    (memcpy_read data n).map Prod.snd = data.take n := by
  apply List.ext_getElem
  · simp [memcpy_read, h]
  · intro i h1 h2
    simp [memcpy_read] at h1 h2
    simp [memcpy_read, List.getD_eq_getElem?_getD]
    rw [List.getElem?_eq_getElem (by omega)]
    simp

theorem memcpy_read_offsets (data : List Byte) (n : Nat) :
    (memcpy_read data n).map Prod.fst = List.range n := by
  simp [memcpy_read, List.map_map, Function.comp_def]

theorem req_bytes_length (h : ReqHeader) : h.bytes.length = 16 := by
  simp [ReqHeader.bytes, u64_bytes_length]

theorem ack_bytes_length (h : AckHeader) : h.bytes.length = 24 := by
  simp [AckHeader.bytes, u64_bytes_length]

theorem req_ofBytes_fields (a b : Nat) (rest : List Byte) :
    ReqHeader.ofBytes ((u64_bytes a ++ u64_bytes b ++ rest).take 16)
      = { seq := a % 2 ^ 64, client_send_mono_ns := b % 2 ^ 64 } := by
  have h1 : (u64_bytes a ++ u64_bytes b ++ rest).take 16 = u64_bytes a ++ u64_bytes b := by
    rw [List.take_append_of_le_length (by simp [u64_bytes_length])]
    exact List.take_of_length_le (by simp [u64_bytes_length])
  rw [h1]
  simp only [ReqHeader.ofBytes]
  rw [List.take_append_of_le_length (by simp [u64_bytes_length]),
    List.take_of_length_le (by simp [u64_bytes_length]),
    List.drop_append_of_le_length (by simp [u64_bytes_length]),
    List.drop_of_length_le (by simp [u64_bytes_length]), List.nil_append,
    List.take_of_length_le (by simp [u64_bytes_length]),
    u64_value_bytes, u64_value_bytes]

theorem ack_ofBytes_fields (a b c : Nat) (rest : List Byte) :
    AckHeader.ofBytes ((u64_bytes a ++ u64_bytes b ++ u64_bytes c ++ rest).take 24)
      = { seq := a % 2 ^ 64, server_recv_mono_ns := b % 2 ^ 64,
          server_send_mono_ns := c % 2 ^ 64 } := by
  have h1 : (u64_bytes a ++ u64_bytes b ++ u64_bytes c ++ rest).take 24
      = u64_bytes a ++ (u64_bytes b ++ u64_bytes c) := by
    rw [List.take_append_of_le_length (by simp [u64_bytes_length])]
    rw [List.take_of_length_le (by simp [u64_bytes_length])]
    simp
  rw [h1]
  simp only [AckHeader.ofBytes]
  have e8 : ∀ (x : Nat) (t : List Byte), (u64_bytes x ++ t).take 8 = u64_bytes x := by
    intro x t
    rw [List.take_append_of_le_length (by simp [u64_bytes_length]),
      List.take_of_length_le (by simp [u64_bytes_length])]
  have d8 : ∀ (x : Nat) (t : List Byte), (u64_bytes x ++ t).drop 8 = t := by
    intro x t
    rw [List.drop_append_of_le_length (by simp [u64_bytes_length]),
      List.drop_of_length_le (by simp [u64_bytes_length]), List.nil_append]
  have d16 : (u64_bytes a ++ (u64_bytes b ++ u64_bytes c)).drop 16 = u64_bytes c := by
    have : (16 : Nat) = 8 + 8 := rfl
    rw [this, ← List.drop_drop, d8]
    have h := d8 b (u64_bytes c)
    exact h
  rw [e8, d8, e8, d16, List.take_of_length_le (by simp [u64_bytes_length]),
    u64_value_bytes, u64_value_bytes, u64_value_bytes]

theorem make_req_payload_eq (seq ts : Nat) :
    make_req_payload seq ts
      = u64_bytes seq ++ u64_bytes ts ++ List.replicate (kPayloadBytes - 16) 0 := by
  simp only [make_req_payload, memcpy, sizeofReqHeader]
  rw [List.take_of_length_le (by simp [req_bytes_length])]
  simp [ReqHeader.bytes]

theorem make_ack_payload_eq (a b c : Nat) :
    make_ack_payload a b c = u64_bytes a ++ u64_bytes b ++ u64_bytes c ++ [] := by
  simp only [make_ack_payload, memcpy, sizeofAckHeader]
  rw [List.take_of_length_le (by simp [ack_bytes_length])]
  simp [AckHeader.bytes]

theorem make_req_payload_length (seq ts : Nat) :
    (make_req_payload seq ts).length = kPayloadBytes := by
  rw [make_req_payload_eq]
  simp only [List.length_append, List.length_replicate, u64_bytes_length, kPayloadBytes]

theorem make_ack_payload_length (a b c : Nat) : (make_ack_payload a b c).length = 24 := by
  simp [make_ack_payload_eq, u64_bytes_length]

theorem parse_req_payload_ok (data : List Byte) (out : ReqHeader) (h : 16 ≤ data.length) :
    parse_req_payload data out
      = { ok := true, out := ReqHeader.ofBytes (data.take 16), reads := List.range 16 } := by
  simp only [parse_req_payload, sizeofReqHeader]
  rw [if_neg (by omega), memcpy_read_bytes data 16 h, memcpy_read_offsets]

theorem parse_ack_payload_ok (data : List Byte) (out : AckHeader) (h : 24 ≤ data.length) :
    parse_ack_payload data out
      = { ok := true, out := AckHeader.ofBytes (data.take 24), reads := List.range 24 } := by
  simp only [parse_ack_payload, sizeofAckHeader]
  rw [if_neg (by omega), memcpy_read_bytes data 24 h, memcpy_read_offsets]

theorem parse_req_payload_short (data : List Byte) (out : ReqHeader) (h : data.length < 16) :
    parse_req_payload data out = { ok := false, out := out, reads := [] } := by
  simp only [parse_req_payload, sizeofReqHeader]
  rw [if_pos h]

theorem parse_ack_payload_short (data : List Byte) (out : AckHeader) (h : data.length < 24) :
    parse_ack_payload data out = { ok := false, out := out, reads := [] } := by
  simp only [parse_ack_payload, sizeofAckHeader]
  rw [if_pos h]

theorem parse_make_req (seq ts : Nat) (out : ReqHeader) :
    parse_req_payload (make_req_payload seq ts) out
      = { ok := true, out := { seq := seq % 2 ^ 64, client_send_mono_ns := ts % 2 ^ 64 },
          reads := List.range 16 } := by
  rw [parse_req_payload_ok _ _ (by rw [make_req_payload_length]; decide),
    make_req_payload_eq, req_ofBytes_fields]

theorem parse_make_ack (a b c : Nat) (out : AckHeader) :
    parse_ack_payload (make_ack_payload a b c) out
      = { ok := true,
          out := { seq := a % 2 ^ 64, server_recv_mono_ns := b % 2 ^ 64,
                   server_send_mono_ns := c % 2 ^ 64 },
          reads := List.range 24 } := by
  rw [parse_ack_payload_ok _ _ (by rw [make_ack_payload_length]),
    make_ack_payload_eq, ack_ofBytes_fields]

end bench

/-! ## Codec claims -/

/-- C1: codec round trip. For 64-bit `seq` and timestamp, parsing the request payload made
from them returns true and yields exactly that header; for 64-bit ack fields, parsing the ack
payload made from them returns true and yields exactly those three fields, and the ack
payload is exactly 24 bytes long. -/
theorem codec_round_trip (seq client_send_mono_ns : Nat)
    (aseq server_recv_mono_ns server_send_mono_ns : Nat)
    (out_req : bench.ReqHeader) (out_ack : bench.AckHeader)
    (h1 : seq < 2 ^ 64) (h2 : client_send_mono_ns < 2 ^ 64)
    (h3 : aseq < 2 ^ 64) (h4 : server_recv_mono_ns < 2 ^ 64)
    (h5 : server_send_mono_ns < 2 ^ 64) :
    (bench.parse_req_payload (bench.make_req_payload seq client_send_mono_ns) out_req).ok = true ∧
    (bench.parse_req_payload (bench.make_req_payload seq client_send_mono_ns) out_req).out
      = { seq := seq, client_send_mono_ns := client_send_mono_ns } ∧
    (bench.parse_ack_payload
      (bench.make_ack_payload aseq server_recv_mono_ns server_send_mono_ns) out_ack).ok = true ∧
    (bench.parse_ack_payload
      (bench.make_ack_payload aseq server_recv_mono_ns server_send_mono_ns) out_ack).out
      = { seq := aseq, server_recv_mono_ns := server_recv_mono_ns,
          server_send_mono_ns := server_send_mono_ns } ∧
    (bench.make_ack_payload aseq server_recv_mono_ns server_send_mono_ns).length = 24 := by
  rw [bench.parse_make_req, bench.parse_make_ack, Nat.mod_eq_of_lt h1, Nat.mod_eq_of_lt h2,
    Nat.mod_eq_of_lt h3, Nat.mod_eq_of_lt h4, Nat.mod_eq_of_lt h5]
  exact ⟨rfl, rfl, rfl, rfl, bench.make_ack_payload_length _ _ _⟩

/-- C1 at a concrete input: `seq = 7`, the largest 64-bit timestamp, and an ack
`(9, 258, 2 ^ 63)`, parsed into headers that held other values before. -/
theorem codec_round_trip_witness :
    (bench.parse_req_payload (bench.make_req_payload 7 18446744073709551615)
      { seq := 1, client_send_mono_ns := 2 }).ok = true ∧
    (bench.parse_req_payload (bench.make_req_payload 7 18446744073709551615)
      { seq := 1, client_send_mono_ns := 2 }).out
      = { seq := 7, client_send_mono_ns := 18446744073709551615 } ∧
    (bench.parse_ack_payload (bench.make_ack_payload 9 258 9223372036854775808)
      { seq := 1, server_recv_mono_ns := 2, server_send_mono_ns := 3 }).ok = true ∧
    (bench.parse_ack_payload (bench.make_ack_payload 9 258 9223372036854775808)
      { seq := 1, server_recv_mono_ns := 2, server_send_mono_ns := 3 }).out
      = { seq := 9, server_recv_mono_ns := 258, server_send_mono_ns := 9223372036854775808 } ∧
    (bench.make_ack_payload 9 258 9223372036854775808).length = 24 :=
  codec_round_trip 7 18446744073709551615 9 258 9223372036854775808
    { seq := 1, client_send_mono_ns := 2 }
    { seq := 1, server_recv_mono_ns := 2, server_send_mono_ns := 3 }
    (by norm_num) (by norm_num) (by norm_num) (by norm_num) (by norm_num)

/-- C2: truncated input is rejected. `parse_req_payload` returns false exactly when the
buffer is shorter than 16 bytes and `parse_ack_payload` exactly when it is shorter than 24;
on failure nothing is read and the out-parameter keeps its value; on success exactly the
offsets `0 .. 15` (resp. `0 .. 23`) are read and the header is a function of those bytes;
every offset read lies inside the buffer. -/
theorem parse_truncated_rejected (data : List Byte) (out_req : bench.ReqHeader)
    (out_ack : bench.AckHeader) :
    ((bench.parse_req_payload data out_req).ok = false ↔ data.length < 16) ∧
    ((bench.parse_ack_payload data out_ack).ok = false ↔ data.length < 24) ∧
    (data.length < 16 →
      (bench.parse_req_payload data out_req).reads = [] ∧
      (bench.parse_req_payload data out_req).out = out_req) ∧
    (data.length < 24 →
      (bench.parse_ack_payload data out_ack).reads = [] ∧
      (bench.parse_ack_payload data out_ack).out = out_ack) ∧
    (16 ≤ data.length →
      (bench.parse_req_payload data out_req).reads = List.range 16 ∧
      (bench.parse_req_payload data out_req).out = bench.ReqHeader.ofBytes (data.take 16)) ∧
    (24 ≤ data.length →
      (bench.parse_ack_payload data out_ack).reads = List.range 24 ∧
      (bench.parse_ack_payload data out_ack).out = bench.AckHeader.ofBytes (data.take 24)) ∧
    (∀ i ∈ (bench.parse_req_payload data out_req).reads, i < 16 ∧ i < data.length) ∧
    (∀ i ∈ (bench.parse_ack_payload data out_ack).reads, i < 24 ∧ i < data.length) := by
  refine ⟨?_, ?_, ?_, ?_, ?_, ?_, ?_, ?_⟩
  · by_cases h : data.length < 16
    · simp [bench.parse_req_payload_short data out_req h, h]
    · simp [bench.parse_req_payload_ok data out_req (by omega), h]
  · by_cases h : data.length < 24
    · simp [bench.parse_ack_payload_short data out_ack h, h]
    · simp [bench.parse_ack_payload_ok data out_ack (by omega), h]
  · intro h
    simp [bench.parse_req_payload_short data out_req h]
  · intro h
    simp [bench.parse_ack_payload_short data out_ack h]
  · intro h
    simp [bench.parse_req_payload_ok data out_req h]
  · intro h
    simp [bench.parse_ack_payload_ok data out_ack h]
  · intro i hi
    by_cases h : data.length < 16
    · simp [bench.parse_req_payload_short data out_req h] at hi
    · rw [bench.parse_req_payload_ok data out_req (by omega)] at hi
      simp at hi
      omega
  · intro i hi
    by_cases h : data.length < 24
    · simp [bench.parse_ack_payload_short data out_ack h] at hi
    · rw [bench.parse_ack_payload_ok data out_ack (by omega)] at hi
      simp at hi
      omega

/-- C3 (evaluation of the code at the failing input): with a configured payload length of
16 bytes, which the start-up check `payload_bytes >= sizeof(ReqHeader)` accepts,
`make_req_payload` still returns `kPayloadBytes = 1024` bytes: the header followed by 1008
zero bytes. -/
theorem make_req_payload_ignores_payload_bytes :
    ¬ (({ payload_bytes := 16 } : pub_rtt.Args).payload_bytes < bench.sizeofReqHeader) ∧
    (bench.make_req_payload 0 0).length = 1024 ∧
    (bench.make_req_payload 0 0).length
      ≠ ({ payload_bytes := 16 } : pub_rtt.Args).payload_bytes ∧
    (bench.make_req_payload 0 0).take 16
      = (bench.ReqHeader.mk 0 0).bytes ∧
    (bench.make_req_payload 0 0).drop 16 = List.replicate 1008 0 := by
  have hl := bench.make_req_payload_length 0 0
  have he := bench.make_req_payload_eq 0 0
  refine ⟨by decide, hl, ?_, ?_, ?_⟩
  · rw [hl]; decide
  · rw [he, List.take_append_of_le_length (by simp [bench.u64_bytes_length]),
      List.take_of_length_le (by simp [bench.u64_bytes_length])]
    rfl
  · rw [he, List.drop_append_of_le_length (by simp [bench.u64_bytes_length]),
      List.drop_of_length_le (by simp [bench.u64_bytes_length])]
    rfl

/-! ## Statistics lemmas and claims -/

namespace OnlineStats

theorem feed_snoc (xs : List ℚ) (x : ℚ) : feed (xs ++ [x]) = (feed xs).add x := by
  simp [feed, List.foldl_append]

theorem sum_sq_dev (xs : List ℚ) (c : ℚ) :
    (xs.map (fun x => (x - c) ^ 2)).sum
      = (xs.map (fun x => x ^ 2)).sum - 2 * c * xs.sum + (xs.length : ℚ) * c ^ 2 := by
  induction xs with
  | nil => simp
  | cons a t ih =>
    simp only [List.map_cons, List.sum_cons, List.length_cons, ih]
    push_cast
    ring

/-- Welford invariant: count, mean and `m2` after feeding `xs`, with `m2` in the
sum-of-squares form. -/
theorem feed_inv (xs : List ℚ) (hlen : xs.length < 2 ^ 64) :
    (feed xs).n = xs.length ∧
    (xs.length : ℚ) * (feed xs).mean = xs.sum ∧
    (feed xs).m2 = (xs.map (fun x => x ^ 2)).sum - (xs.length : ℚ) * (feed xs).mean ^ 2 := by
  induction xs using List.reverseRecOn with
  | nil => simp [feed]
  | append_singleton xs x ih =>
    have hl : xs.length + 1 < 2 ^ 64 := by simpa using hlen
    obtain ⟨hn, hmean, hm2⟩ := ih (by omega)
    rw [feed_snoc]
    have hn1 : ((feed xs).n + 1) % U64 = xs.length + 1 := by
      rw [hn]
      exact Nat.mod_eq_of_lt hl
    have hpos : ((xs.length : ℚ) + 1) ≠ 0 := by positivity
    simp only [add, hn1, List.length_append, List.length_singleton, List.sum_append,
      List.sum_singleton, List.map_append, List.map_cons, List.map_nil]
    push_cast
    refine ⟨trivial, ?_, ?_⟩
    · rw [← hmean]
      field_simp
      ring
    · rw [hm2]
      field_simp
      ring

end OnlineStats

/-- C4: Welford mean. For a non-empty sequence (shorter than the range of the 64-bit
counter) fed to `add` from the default accumulator, `n` is the number of samples and `mean`
is their sum divided by their number. -/
theorem welford_mean (xs : List ℚ) (hne : xs ≠ []) (hlen : xs.length < 2 ^ 64) :
    (OnlineStats.feed xs).n = xs.length ∧
    (OnlineStats.feed xs).mean = xs.sum / (xs.length : ℚ) := by
  obtain ⟨hn, hmean, _⟩ := OnlineStats.feed_inv xs hlen
  refine ⟨hn, ?_⟩
  have hpos : (xs.length : ℚ) ≠ 0 := by
    have : xs.length ≠ 0 := by simpa using hne
    exact_mod_cast this
  rw [← hmean]
  field_simp

/-- C4 at the samples `3, 5, 10`. -/
theorem welford_mean_witness :
    (OnlineStats.feed [3, 5, 10]).n = 3 ∧ (OnlineStats.feed [3, 5, 10]).mean = 6 := by
  have h := welford_mean [3, 5, 10] (by simp) (by simp)
  norm_num at h
  exact h

/-- C5: Welford variance. For every sequence (shorter than the range of the 64-bit
counter) fed to `add` from the default accumulator, `m2` is the sum of squared deviations
from the arithmetic mean; `variance()` is that sum divided by `k - 1` when `k ≥ 2`, and
is `0` when `k` is `0` or `1`. -/
theorem welford_variance (xs : List ℚ) (hlen : xs.length < 2 ^ 64) :
    (OnlineStats.feed xs).m2
      = (xs.map (fun x => (x - xs.sum / (xs.length : ℚ)) ^ 2)).sum ∧
    (2 ≤ xs.length →
      (OnlineStats.feed xs).variance
        = (xs.map (fun x => (x - xs.sum / (xs.length : ℚ)) ^ 2)).sum
            / ((xs.length : ℚ) - 1)) ∧
    (xs.length ≤ 1 → (OnlineStats.feed xs).variance = 0) := by
  obtain ⟨hn, hmean, hm2⟩ := OnlineStats.feed_inv xs hlen
  have hm2dev : (OnlineStats.feed xs).m2
      = (xs.map (fun x => (x - xs.sum / (xs.length : ℚ)) ^ 2)).sum := by
    rcases Nat.eq_zero_or_pos xs.length with h0 | hpos
    · have : xs = [] := List.length_eq_zero.mp h0
      subst this
      simp [OnlineStats.feed]
    · have hq : (xs.length : ℚ) ≠ 0 := by
        have : xs.length ≠ 0 := by omega
        exact_mod_cast this
      have hmean2 : (OnlineStats.feed xs).mean = xs.sum / (xs.length : ℚ) := by
        rw [← hmean]
        field_simp
      rw [hm2, OnlineStats.sum_sq_dev, ← hmean2, ← hmean]
      ring
  refine ⟨hm2dev, ?_, ?_⟩
  · intro h2
    simp only [OnlineStats.variance, hn]
    rw [if_pos (by omega), hm2dev]
    have : ((xs.length - 1 : Nat) : ℚ) = (xs.length : ℚ) - 1 := by
      rw [Nat.cast_sub (by omega)]
      simp
    rw [this]
  · intro h1
    simp only [OnlineStats.variance, hn]
    rw [if_neg (by omega)]

/-- C5 at the samples `1, 2, 3, 4`: the squared deviations from the mean `5/2` sum to `5`
and the sample variance is `5/3`. -/
theorem welford_variance_witness :
    (OnlineStats.feed [1, 2, 3, 4]).m2 = 5 ∧ (OnlineStats.feed [1, 2, 3, 4]).variance = 5 / 3 := by
  have h := welford_variance [1, 2, 3, 4] (by simp)
  norm_num at h
  exact h

/-! ## Percentile -/

theorem round_even_bounds (x : ℚ) : ⌊x⌋ ≤ round_even x ∧ round_even x ≤ ⌊x⌋ + 1 := by
  have hf : x.floor = ⌊x⌋ := rfl
  simp only [round_even, hf]
  split
  · omega
  · split
    · omega
    · split <;> omega

theorem round_even_intCast (k : Int) : round_even (k : ℚ) = k := by
  have hf : (k : ℚ).floor = ⌊(k : ℚ)⌋ := rfl
  simp only [round_even, hf, Int.floor_intCast, sub_self]
  norm_num

theorem round_even_mono (a b : ℚ) (h : a ≤ b) : round_even a ≤ round_even b := by
  have hfa := round_even_bounds a
  have hfb := round_even_bounds b
  have hfl : ⌊a⌋ ≤ ⌊b⌋ := Int.floor_mono h
  rcases lt_or_eq_of_le hfl with hlt | heq
  · omega
  · have ha : a.floor = ⌊a⌋ := rfl
    have hb : b.floor = ⌊b⌋ := rfl
    have hab : a - (⌊a⌋ : ℚ) ≤ b - (⌊a⌋ : ℚ) := by linarith
    simp only [round_even, ha, hb, ← heq]
    by_cases h1 : a - (⌊a⌋ : ℚ) < 1 / 2
    · rw [if_pos h1]
      split
      · exact le_refl _
      · split
        · omega
        · split <;> omega
    · rw [if_neg h1]
      by_cases h2 : 1 / 2 < a - (⌊a⌋ : ℚ)
      · rw [if_pos h2, if_neg (by linarith), if_pos (by linarith)]
      · rw [if_neg h2]
        by_cases h3 : b - (⌊a⌋ : ℚ) < 1 / 2
        · exfalso
          linarith
        · rw [if_neg h3]
          by_cases h4 : 1 / 2 < b - (⌊a⌋ : ℚ)
          · rw [if_pos h4]
            split <;> omega
          · rw [if_neg h4]

theorem zpow_two_split (e : Int) (k : Nat) :
    (2 : ℚ) ^ (e - 52 + (k : Int)) = (2 : ℚ) ^ (e - 52) * (2 : ℚ) ^ k := by
  rw [zpow_add₀ (by norm_num : (2 : ℚ) ≠ 0), zpow_natCast]

theorem binade_upper (q : ℚ) : q < (2 : ℚ) ^ (max (Int.log 2 q) (-1022) + 1) := by
  have h := Int.lt_zpow_succ_log_self (R := ℚ) (b := 2) (by norm_num) q
  have h2 : (2 : ℚ) ^ (Int.log 2 q + 1) ≤ (2 : ℚ) ^ (max (Int.log 2 q) (-1022) + 1) :=
    zpow_le_zpow_right₀ (by norm_num) (by omega)
  have h3 : ((2 : ℕ) : ℚ) = 2 := by norm_num
  rw [h3] at h
  exact lt_of_lt_of_le h h2

theorem binade_lower (q : ℚ) (hq : 0 < q) : (2 : ℚ) ^ (Int.log 2 q) ≤ q := by
  have h := Int.zpow_log_le_self (R := ℚ) (b := 2) (by norm_num) hq
  have h3 : ((2 : ℕ) : ℚ) = 2 := by norm_num
  rw [h3] at h
  exact h

/-- A positive rational rounds to a value between the ends of its binade. -/
theorem round_double_pos_bounds (q : ℚ) (hq : 0 < q) :
    0 ≤ round_double_pos q ∧
    round_double_pos q ≤ (2 : ℚ) ^ (max (Int.log 2 q) (-1022) + 1) ∧
    (-1022 ≤ Int.log 2 q → (2 : ℚ) ^ (Int.log 2 q) ≤ round_double_pos q) := by
  have hu : (0 : ℚ) < (2 : ℚ) ^ (max (Int.log 2 q) (-1022) - 52) := zpow_pos (by norm_num) _
  have hup := binade_upper q
  have e53 : (2 : ℚ) ^ (max (Int.log 2 q) (-1022) + 1)
      = (2 : ℚ) ^ (max (Int.log 2 q) (-1022) - 52) * (2 : ℚ) ^ 53 := by
    rw [← zpow_two_split]
    congr 1
    omega
  have hdiv : q / (2 : ℚ) ^ (max (Int.log 2 q) (-1022) - 52) ≤ (((2 : Int) ^ 53 : Int) : ℚ) := by
    rw [div_le_iff₀ hu]
    push_cast
    rw [e53] at hup
    linarith
  have hre : round_even (q / (2 : ℚ) ^ (max (Int.log 2 q) (-1022) - 52)) ≤ (2 : Int) ^ 53 := by
    have := round_even_mono _ _ hdiv
    rw [round_even_intCast] at this
    exact this
  have hnn : 0 ≤ round_even (q / (2 : ℚ) ^ (max (Int.log 2 q) (-1022) - 52)) := by
    have h0 : ((0 : Int) : ℚ) ≤ q / (2 : ℚ) ^ (max (Int.log 2 q) (-1022) - 52) := by
      push_cast
      exact le_of_lt (div_pos hq hu)
    have := round_even_mono _ _ h0
    rw [round_even_intCast] at this
    exact this
  refine ⟨?_, ?_, ?_⟩
  · simp only [round_double_pos]
    exact mul_nonneg (by exact_mod_cast hnn) (le_of_lt hu)
  · simp only [round_double_pos]
    rw [e53, mul_comm ((2 : ℚ) ^ (max (Int.log 2 q) (-1022) - 52))]
    apply mul_le_mul_of_nonneg_right _ (le_of_lt hu)
    exact_mod_cast hre
  · intro hnorm
    have hmax : max (Int.log 2 q) (-1022) = Int.log 2 q := max_eq_left hnorm
    have hlo := binade_lower q hq
    have e52 : (2 : ℚ) ^ (Int.log 2 q)
        = (2 : ℚ) ^ (Int.log 2 q - 52) * (2 : ℚ) ^ 52 := by
      rw [← zpow_two_split]
      congr 1
      omega
    have hu2 : (0 : ℚ) < (2 : ℚ) ^ (Int.log 2 q - 52) := zpow_pos (by norm_num) _
    have hdiv2 : (((2 : Int) ^ 52 : Int) : ℚ) ≤ q / (2 : ℚ) ^ (Int.log 2 q - 52) := by
      rw [le_div_iff₀ hu2]
      push_cast
      rw [e52] at hlo
      linarith
    have hre2 : (2 : Int) ^ 52 ≤ round_even (q / (2 : ℚ) ^ (Int.log 2 q - 52)) := by
      have := round_even_mono _ _ hdiv2
      rw [round_even_intCast] at this
      exact this
    simp only [round_double_pos, hmax]
    rw [e52, mul_comm ((2 : ℚ) ^ (Int.log 2 q - 52))]
    apply mul_le_mul_of_nonneg_right _ (le_of_lt hu2)
    exact_mod_cast hre2

theorem round_double_pos_mono (a b : ℚ) (ha : 0 < a) (hab : a ≤ b) :
    round_double_pos a ≤ round_double_pos b := by
  have hb : 0 < b := lt_of_lt_of_le ha hab
  have hlog : Int.log 2 a ≤ Int.log 2 b := Int.log_mono_right ha hab
  by_cases heq : max (Int.log 2 a) (-1022) = max (Int.log 2 b) (-1022)
  · simp only [round_double_pos, heq]
    have hu : (0 : ℚ) < (2 : ℚ) ^ (max (Int.log 2 b) (-1022) - 52) := zpow_pos (by norm_num) _
    apply mul_le_mul_of_nonneg_right _ (le_of_lt hu)
    have : a / (2 : ℚ) ^ (max (Int.log 2 b) (-1022) - 52)
        ≤ b / (2 : ℚ) ^ (max (Int.log 2 b) (-1022) - 52) :=
      div_le_div_of_nonneg_right hab (le_of_lt hu)
    exact_mod_cast round_even_mono _ _ this
  · have hlt : max (Int.log 2 a) (-1022) < Int.log 2 b := by omega
    have hnorm : -1022 ≤ Int.log 2 b := by omega
    obtain ⟨_, h1, _⟩ := round_double_pos_bounds a ha
    obtain ⟨_, _, h2⟩ := round_double_pos_bounds b hb
    have h3 : (2 : ℚ) ^ (max (Int.log 2 a) (-1022) + 1) ≤ (2 : ℚ) ^ (Int.log 2 b) :=
      zpow_le_zpow_right₀ (by norm_num) (by omega)
    exact le_trans h1 (le_trans h3 (h2 hnorm))

/-- Rounding to binary64 is monotone on the non-negative rationals. -/
theorem round_double_mono (a b : ℚ) (ha : 0 ≤ a) (hab : a ≤ b) :
    round_double a ≤ round_double b := by
  rcases eq_or_lt_of_le ha with h0 | hpos
  · have hra : round_double a = 0 := by simp [round_double, ← h0]
    rw [hra]
    rcases eq_or_lt_of_le (le_trans ha hab) with hb0 | hbpos
    · simp [round_double, ← hb0]
    · have : round_double b = round_double_pos b := by
        simp only [round_double]
        rw [if_neg (ne_of_gt hbpos), if_neg (not_lt.mpr (le_of_lt hbpos))]
      rw [this]
      exact (round_double_pos_bounds b hbpos).1
  · have hbpos : 0 < b := lt_of_lt_of_le hpos hab
    have e1 : round_double a = round_double_pos a := by
      simp only [round_double]
      rw [if_neg (ne_of_gt hpos), if_neg (not_lt.mpr (le_of_lt hpos))]
    have e2 : round_double b = round_double_pos b := by
      simp only [round_double]
      rw [if_neg (ne_of_gt hbpos), if_neg (not_lt.mpr (le_of_lt hbpos))]
    rw [e1, e2]
    exact round_double_pos_mono a b hpos hab

/-- Every natural number below `2 ^ 53` is a binary64 value. -/
theorem round_double_natCast (k : Nat) (hk : k < 2 ^ 53) : round_double (k : ℚ) = k := by
  rcases Nat.eq_zero_or_pos k with h0 | hpos
  · subst h0
    simp [round_double]
  · have hq : (0 : ℚ) < (k : ℚ) := by exact_mod_cast hpos
    have e1 : round_double (k : ℚ) = round_double_pos (k : ℚ) := by
      simp only [round_double]
      rw [if_neg (ne_of_gt hq), if_neg (not_lt.mpr (le_of_lt hq))]
    have hlog : Int.log 2 (k : ℚ) = (Nat.log 2 k : Int) := Int.log_natCast 2 k
    have hL : Nat.log 2 k < 53 := Nat.log_lt_of_lt_pow (by omega) hk
    have hmax : max (Int.log 2 (k : ℚ)) (-1022) = (Nat.log 2 k : Int) := by
      rw [hlog]
      omega
    have hexp : ((Nat.log 2 k : Int) - 52) = -((52 - Nat.log 2 k : Nat) : Int) := by omega
    have hulp : (2 : ℚ) ^ ((Nat.log 2 k : Int) - 52) = ((2 : ℚ) ^ (52 - Nat.log 2 k))⁻¹ := by
      rw [hexp, zpow_neg, zpow_natCast]
    have hdiv : (k : ℚ) / (2 : ℚ) ^ ((Nat.log 2 k : Int) - 52)
        = (((k * 2 ^ (52 - Nat.log 2 k) : Nat) : Int) : ℚ) := by
      rw [hulp, div_inv_eq_mul]
      push_cast
      rfl
    rw [e1]
    simp only [round_double_pos, hmax]
    rw [hdiv, round_even_intCast, hulp]
    push_cast
    have hne : ((2 : ℚ) ^ (52 - Nat.log 2 k)) ≠ 0 := pow_ne_zero _ (by norm_num)
    field_simp

theorem round_even_up (x : ℚ) (f : Int) (h1 : (f : ℚ) + 1 / 2 < x) (h2 : x < (f : ℚ) + 1) :
    round_even x = f + 1 := by
  have hfl : ⌊x⌋ = f := by
    rw [Int.floor_eq_iff]
    constructor
    · linarith
    · exact h2
  have hf : x.floor = ⌊x⌋ := rfl
  simp only [round_even, hf, hfl]
  rw [if_neg (by linarith), if_pos (by linarith)]

/-- Evaluation of the rounding on a positive rational whose binade is known. -/
theorem round_double_eval (q : ℚ) (e z : Int) (hlo : (2 : ℚ) ^ e ≤ q)
    (hhi : q < (2 : ℚ) ^ (e + 1)) (he : -1022 ≤ e)
    (hz : round_even (q / (2 : ℚ) ^ (e - 52)) = z) :
    round_double q = (z : ℚ) * (2 : ℚ) ^ (e - 52) := by
  have hq : 0 < q := lt_of_lt_of_le (zpow_pos (by norm_num) e) hlo
  have h3 : ((2 : ℕ) : ℚ) = 2 := by norm_num
  have hlog : Int.log 2 q = e := by
    apply le_antisymm
    · have : Int.log 2 q < e + 1 := by
        rw [← Int.lt_zpow_iff_log_lt (R := ℚ) (b := 2) (by norm_num) hq, h3]
        exact hhi
      omega
    · rw [← Int.zpow_le_iff_le_log (R := ℚ) (b := 2) (by norm_num) hq, h3]
      exact hlo
  have hmax : max (Int.log 2 q) (-1022) = e := by
    rw [hlog]
    exact max_eq_left he
  simp only [round_double]
  rw [if_neg (ne_of_gt hq), if_neg (not_lt.mpr (le_of_lt hq))]
  simp only [round_double_pos, hmax, hz]

namespace pub_rtt

theorem rat_floor_eq (q : ℚ) : q.floor = ⌊q⌋ := rfl

/-- The index computed by `percentile_sorted` for `0 < p < 1` on `n` samples, `n - 1` below
`2 ^ 53`: it is inside the vector and is the floor of the exact product or one more. -/
theorem percentile_index_valid (n : Nat) (p : ℚ) (hn : 0 < n) (hbig : n ≤ 2 ^ 53)
    (h0 : 0 < p) (h1 : p < 1) :
    round_double ((n - 1 : Nat) : ℚ) = ((n - 1 : Nat) : ℚ) ∧
    0 ≤ ⌊round_double (p * ((n - 1 : Nat) : ℚ))⌋ ∧
    ⌊round_double (p * ((n - 1 : Nat) : ℚ))⌋.toNat < n ∧
    (⌊round_double (p * ((n - 1 : Nat) : ℚ))⌋ = ⌊p * ((n - 1 : Nat) : ℚ)⌋ ∨
      ⌊round_double (p * ((n - 1 : Nat) : ℚ))⌋ = ⌊p * ((n - 1 : Nat) : ℚ)⌋ + 1) := by
  have hN : n - 1 < 2 ^ 53 := by omega
  have hk : (0 : ℚ) ≤ ((n - 1 : Nat) : ℚ) := by positivity
  have hx0 : 0 ≤ p * ((n - 1 : Nat) : ℚ) := mul_nonneg h0.le hk
  have hxN : p * ((n - 1 : Nat) : ℚ) ≤ ((n - 1 : Nat) : ℚ) := by
    calc p * ((n - 1 : Nat) : ℚ) ≤ 1 * ((n - 1 : Nat) : ℚ) :=
          mul_le_mul_of_nonneg_right h1.le hk
      _ = ((n - 1 : Nat) : ℚ) := one_mul _
  have hrN := round_double_natCast (n - 1) hN
  have hm0 : 0 ≤ ⌊p * ((n - 1 : Nat) : ℚ)⌋ := Int.floor_nonneg.mpr hx0
  have hmx : (⌊p * ((n - 1 : Nat) : ℚ)⌋ : ℚ) ≤ p * ((n - 1 : Nat) : ℚ) := Int.floor_le _
  have hxm : p * ((n - 1 : Nat) : ℚ) < (⌊p * ((n - 1 : Nat) : ℚ)⌋ : ℚ) + 1 :=
    Int.lt_floor_add_one _
  have hmN : ⌊p * ((n - 1 : Nat) : ℚ)⌋ ≤ ((n - 1 : Nat) : Int) := by
    have h2 : (⌊p * ((n - 1 : Nat) : ℚ)⌋ : ℚ) ≤ ((n - 1 : Nat) : ℚ) := le_trans hmx hxN
    exact_mod_cast h2
  have hmcast : (⌊p * ((n - 1 : Nat) : ℚ)⌋ : ℚ)
      = ((⌊p * ((n - 1 : Nat) : ℚ)⌋.toNat : Nat) : ℚ) := by
    have : (⌊p * ((n - 1 : Nat) : ℚ)⌋.toNat : Int) = ⌊p * ((n - 1 : Nat) : ℚ)⌋ :=
      Int.toNat_of_nonneg hm0
    exact_mod_cast this.symm
  have hlow : (⌊p * ((n - 1 : Nat) : ℚ)⌋ : ℚ) ≤ round_double (p * ((n - 1 : Nat) : ℚ)) := by
    have h3 := round_double_mono _ _ (by rw [hmcast]; positivity) hmx
    rw [hmcast, round_double_natCast _ (by omega), ← hmcast] at h3
    exact h3
  have hupN : round_double (p * ((n - 1 : Nat) : ℚ)) ≤ ((n - 1 : Nat) : ℚ) := by
    have h3 := round_double_mono _ _ hx0 hxN
    rw [hrN] at h3
    exact h3
  have hup1 : round_double (p * ((n - 1 : Nat) : ℚ))
      ≤ (⌊p * ((n - 1 : Nat) : ℚ)⌋ : ℚ) + 1 := by
    rcases lt_or_eq_of_le hmN with hlt | heq
    · have hc : (⌊p * ((n - 1 : Nat) : ℚ)⌋ : ℚ) + 1
          = ((⌊p * ((n - 1 : Nat) : ℚ)⌋.toNat + 1 : Nat) : ℚ) := by
        rw [hmcast]
        push_cast
        rfl
      have h3 := round_double_mono _ _ hx0 (le_of_lt hxm)
      rw [hc, round_double_natCast _ (by omega), ← hc] at h3
      exact h3
    · have h4 : ((n - 1 : Nat) : ℚ) = (⌊p * ((n - 1 : Nat) : ℚ)⌋ : ℚ) := by
        exact_mod_cast heq.symm
      linarith
  have hfl1 : ⌊p * ((n - 1 : Nat) : ℚ)⌋ ≤ ⌊round_double (p * ((n - 1 : Nat) : ℚ))⌋ :=
    Int.le_floor.mpr hlow
  have hfl2 : ⌊round_double (p * ((n - 1 : Nat) : ℚ))⌋ ≤ ⌊p * ((n - 1 : Nat) : ℚ)⌋ + 1 := by
    have h5 : (⌊round_double (p * ((n - 1 : Nat) : ℚ))⌋ : ℚ)
        ≤ ((⌊p * ((n - 1 : Nat) : ℚ)⌋ + 1 : Int) : ℚ) := by
      push_cast
      exact le_trans (Int.floor_le _) hup1
    exact_mod_cast h5
  have hfl3 : ⌊round_double (p * ((n - 1 : Nat) : ℚ))⌋ ≤ ((n - 1 : Nat) : Int) := by
    have h5 : (⌊round_double (p * ((n - 1 : Nat) : ℚ))⌋ : ℚ) ≤ (((n - 1 : Nat) : Int) : ℚ) := by
      push_cast
      exact le_trans (Int.floor_le _) hupN
    exact_mod_cast h5
  refine ⟨hrN, by omega, by omega, by omega⟩

theorem percentile_sorted_cons (a : ℚ) (t : List ℚ) (p : ℚ) :
    percentile_sorted (a :: t) p =
      if p ≤ 0 then some a
      else if p ≥ 1 then some ((a :: t).getLast (List.cons_ne_nil a t))
      else (a :: t)[⌊round_double
        (p * round_double (((a :: t).length - 1 : Nat) : ℚ))⌋.toNat]? := by
  simp only [percentile_sorted, List.isEmpty_cons, Bool.false_eq_true, if_false,
    List.head?_cons, List.getLast?_eq_getLast _ (List.cons_ne_nil a t), rat_floor_eq]

/-- The double product of `0.95` and `20.0`: the double nearest to `0.95` is
`4278419646001971 / 2 ^ 52`, below `0.95`, and its exact product with `20` lies above the
midpoint of the doubles `19 - 2 ^ (-48)` and `19`, so the product rounds up to `19`. -/
theorem double_095_times_20 :
    round_double ((4278419646001971 / 4503599627370496 : ℚ) * 20) = 19 := by
  rw [round_double_eval _ 4 5348024557502464 (by norm_num) (by norm_num) (by norm_num)
    (by
      have h := round_even_up
        ((4278419646001971 / 4503599627370496 : ℚ) * 20 / (2 : ℚ) ^ ((4 : Int) - 52))
        5348024557502463 (by norm_num [zpow_neg]) (by norm_num [zpow_neg])
      rw [h]
      norm_num)]
  norm_num [zpow_neg]

end pub_rtt

/-- C6 (as amended): percentile policy. For a non-empty ascending list and every `p`,
`percentile_sorted` returns the first element, which is the minimum, when `p ≤ 0`; the last
element, which is the maximum, when `p ≥ 1`; and otherwise, for at most `2 ^ 53` samples,
the element at index `floor (fl (p * (n - 1)))`, where `fl` rounds the product to the
nearest double. That index is valid and is `floor (p * (n - 1))` or one more. The P50 of
`[1,2,3,4,5]` is `3`. -/
theorem percentile_policy (sorted : List ℚ) (p : ℚ) (hne : sorted ≠ [])
    (hs : sorted.Sorted (fun a b => a ≤ b)) :
    (p ≤ 0 → pub_rtt.percentile_sorted sorted p = some (sorted.head hne) ∧
      ∀ x ∈ sorted, sorted.head hne ≤ x) ∧
    (1 ≤ p → pub_rtt.percentile_sorted sorted p = some (sorted.getLast hne) ∧
      ∀ x ∈ sorted, x ≤ sorted.getLast hne) ∧
    (0 < p → p < 1 → sorted.length ≤ 2 ^ 53 →
      ∃ i : Nat, (i : Int) = ⌊round_double (p * ((sorted.length : ℚ) - 1))⌋ ∧
        ((i : Int) = ⌊p * ((sorted.length : ℚ) - 1)⌋ ∨
          (i : Int) = ⌊p * ((sorted.length : ℚ) - 1)⌋ + 1) ∧
        ∃ h : i < sorted.length, pub_rtt.percentile_sorted sorted p = some (sorted.get ⟨i, h⟩)) ∧
    pub_rtt.percentile_sorted [1, 2, 3, 4, 5] (1 / 2) = some 3 := by
  cases sorted with
  | nil => exact absurd rfl hne
  | cons a t =>
    have hcast : (((a :: t).length - 1 : Nat) : ℚ) = (((a :: t).length : ℚ) - 1) := by
      simp
    refine ⟨?_, ?_, ?_, ?_⟩
    · intro hp
      rw [pub_rtt.percentile_sorted_cons, if_pos hp]
      refine ⟨rfl, ?_⟩
      intro x hx
      rcases List.mem_cons.mp hx with rfl | hx
      · exact le_refl _
      · exact List.rel_of_sorted_cons hs x hx
    · intro hp
      have hp0 : ¬ p ≤ 0 := by
        intro h
        linarith
      rw [pub_rtt.percentile_sorted_cons, if_neg hp0, if_pos hp]
      refine ⟨rfl, ?_⟩
      intro x hx
      obtain ⟨i, hi, rfl⟩ := List.getElem_of_mem hx
      rw [List.getLast_eq_getElem]
      rcases Nat.lt_or_ge i ((a :: t).length - 1) with hlt | hge
      · exact List.pairwise_iff_getElem.mp hs i ((a :: t).length - 1) hi (by simp) hlt
      · have : i = (a :: t).length - 1 := by omega
        subst this
        exact le_refl _
    · intro h0 h1 hbig
      obtain ⟨hrN, hfl, hlt, hor⟩ :=
        pub_rtt.percentile_index_valid (a :: t).length p (by simp) hbig h0 h1
      refine ⟨⌊round_double (p * (((a :: t).length - 1 : Nat) : ℚ))⌋.toNat, ?_, ?_, hlt, ?_⟩
      · rw [Int.toNat_of_nonneg hfl, hcast]
      · rw [Int.toNat_of_nonneg hfl, ← hcast]
        exact hor
      · rw [pub_rtt.percentile_sorted_cons, if_neg (by linarith), if_neg (by linarith), hrN]
        exact List.getElem?_eq_getElem hlt
    · rw [pub_rtt.percentile_sorted_cons]
      have h4 : round_double (((([1, 2, 3, 4, 5] : List ℚ).length - 1 : Nat) : ℚ)) = 4 := by
        have := round_double_natCast 4 (by norm_num)
        simpa using this
      have h2 : round_double ((1 / 2 : ℚ) * 4) = 2 := by
        have := round_double_natCast 2 (by norm_num)
        have e : ((1 / 2 : ℚ) * 4) = ((2 : Nat) : ℚ) := by norm_num
        rw [e]
        simpa using this
      rw [h4, h2]
      norm_num
      rfl

/-- C6 at the sorted list `[10, 20, 30, 40, 50]`: P0 is `10`, P100 is `50`, and for
`p = 1/2` the product `0.5 * 4` is the double `2`, giving the element `30` at index 2. -/
theorem percentile_policy_witness :
    pub_rtt.percentile_sorted [10, 20, 30, 40, 50] 0 = some 10 ∧
    pub_rtt.percentile_sorted [10, 20, 30, 40, 50] 1 = some 50 ∧
    pub_rtt.percentile_sorted [10, 20, 30, 40, 50] (1 / 2) = some 30 := by
  have hs : ([10, 20, 30, 40, 50] : List ℚ).Sorted (fun a b => a ≤ b) := by
    simp [List.Sorted]
    norm_num
  have hne : ([10, 20, 30, 40, 50] : List ℚ) ≠ [] := by simp
  refine ⟨?_, ?_, ?_⟩
  · have h := (percentile_policy [10, 20, 30, 40, 50] 0 hne hs).1 (le_refl _)
    simpa using h.1
  · have h := (percentile_policy [10, 20, 30, 40, 50] 1 hne hs).2.1 (le_refl _)
    simpa using h.1
  · obtain ⟨i, hi, _, hlt, h⟩ :=
      (percentile_policy [10, 20, 30, 40, 50] (1 / 2) hne hs).2.2.1 (by norm_num) (by norm_num)
        (by simp)
    have hi2 : i = 2 := by
      have e : (1 / 2 : ℚ) * ((([10, 20, 30, 40, 50] : List ℚ).length : ℚ) - 1)
          = ((2 : Nat) : ℚ) := by
        simp
        norm_num
      rw [e, round_double_natCast 2 (by norm_num)] at hi
      have : ⌊((2 : Nat) : ℚ)⌋ = 2 := by simp
      rw [this] at hi
      exact_mod_cast hi
    subst hi2
    simpa using h

/-- C6 fails as stated at `main`'s own P95 call on 21 samples: `p` is the double nearest to
`0.95`, the double product `p * 20.0` rounds to `19.0`, so the code returns the element at
index 19, while `floor (p * 20)` is 18. -/
theorem percentile_policy_counterexample :
    (0 : ℚ) < 4278419646001971 / 4503599627370496 ∧
    (4278419646001971 / 4503599627370496 : ℚ) < 1 ∧
    ([0, 1, 2, 3, 4, 5, 6, 7, 8, 9, 10, 11, 12, 13, 14, 15, 16, 17, 18, 19, 20]
      : List ℚ).Sorted (fun a b => a ≤ b) ∧
    pub_rtt.percentile_sorted
      [0, 1, 2, 3, 4, 5, 6, 7, 8, 9, 10, 11, 12, 13, 14, 15, 16, 17, 18, 19, 20]
      (4278419646001971 / 4503599627370496) = some 19 ∧
    ⌊(4278419646001971 / 4503599627370496 : ℚ) * ((21 : ℚ) - 1)⌋ = 18 ∧
    ([0, 1, 2, 3, 4, 5, 6, 7, 8, 9, 10, 11, 12, 13, 14, 15, 16, 17, 18, 19, 20]
      : List ℚ)[18]? = some 18 := by
  refine ⟨by norm_num, by norm_num, ?_, ?_, ?_, rfl⟩
  · simp [List.Sorted]
    norm_num
  · rw [pub_rtt.percentile_sorted_cons, if_neg (by norm_num), if_neg (by norm_num)]
    have h20 : round_double (((([0, 1, 2, 3, 4, 5, 6, 7, 8, 9, 10, 11, 12, 13, 14, 15, 16, 17,
        18, 19, 20] : List ℚ).length - 1 : Nat) : ℚ)) = 20 := by
      have := round_double_natCast 20 (by norm_num)
      simpa using this
    rw [h20, pub_rtt.double_095_times_20]
    have : ⌊(19 : ℚ)⌋.toNat = 19 := by
      have h19 : ⌊(19 : ℚ)⌋ = 19 := by
        rw [Int.floor_eq_iff]
        norm_num
      rw [h19]
      rfl
    rw [this]
    rfl
  · rw [Int.floor_eq_iff]
    norm_num

/-! ## Out-of-order counting -/

theorem ooo_count_snoc (s : List Nat) (a : Nat) :
    ooo_count (s ++ [a])
      = ooo_count s + (if s.getLast?.isSome && decide (a ≤ s.getLast?.getD 0) then 1 else 0) := by
  unfold ooo_count
  rw [List.length_append, List.length_singleton, List.range_succ, List.filter_append,
    List.length_append]
  congr 1
  · congr 1
    apply List.filter_congr
    intro i hi
    have hi2 : i < s.length := List.mem_range.mp hi
    have e1 : (s ++ [a]).getD i 0 = s.getD i 0 := by
      simp [List.getD_eq_getElem?_getD, List.getElem?_append_left hi2]
    have e2 : (s ++ [a]).getD (i - 1) 0 = s.getD (i - 1) 0 := by
      simp [List.getD_eq_getElem?_getD, List.getElem?_append_left (show i - 1 < s.length by omega)]
    rw [e1, e2]
  · have e1 : (s ++ [a]).getD s.length 0 = a := by
      rw [List.getD_eq_getElem?_getD, List.getElem?_append_right (le_refl _)]
      simp
    rcases List.eq_nil_or_concat s with rfl | ⟨t, b, hs⟩
    · simp
    · rw [List.concat_eq_append] at hs
      subst hs
      have e2 : (t ++ [b] ++ [a]).getD ((t ++ [b]).length - 1) 0 = b := by
        have hl : (t ++ [b]).length - 1 = t.length := by simp
        rw [hl, List.append_assoc, List.getD_eq_getElem?_getD,
          List.getElem?_append_right (le_refl _)]
        simp
      have e3 : (t ++ [b]).getLast? = some b := by simp
      have e4 : decide (1 ≤ (t ++ [b]).length) = true := by simp
      simp only [List.filter_cons, List.filter_nil, e1, e2, e3, e4, Option.isSome_some,
        Option.getD_some, Bool.true_and]
      by_cases h : a ≤ b <;> simp [h]


theorem ooo_count_mod_step (c last a : Nat) (have_last : Bool) (seqs : List Nat)
    (hc : c = ooo_count seqs % U64) (hh : have_last = seqs.getLast?.isSome)
    (hl : last = seqs.getLast?.getD 0) :
    (if have_last && decide (a ≤ last) then (c + 1) % U64 else c)
      = ooo_count (seqs ++ [a]) % U64 := by
  rw [ooo_count_snoc, ← hh, ← hl]
  by_cases h : (have_last && decide (a ≤ last)) = true
  · rw [if_pos h, if_pos h, hc, Nat.mod_add_mod]
  · rw [if_neg h, if_neg h, hc, Nat.add_zero]

theorem ooo_count_lt_length (s : List Nat) : ooo_count s ≤ s.length - 1 := by
  induction s using List.reverseRecOn with
  | nil => simp [ooo_count]
  | append_singleton t a ih =>
    rw [ooo_count_snoc]
    rcases List.eq_nil_or_concat t with rfl | ⟨u, b, hs⟩
    · simp [ooo_count]
    · rw [List.concat_eq_append] at hs
      subst hs
      simp only [List.length_append, List.length_singleton] at ih ⊢
      split <;> omega

namespace pub_rtt

theorem run_snoc (s : Sender) (es : List Event) (e : Event) :
    run s (es ++ [e]) = step (run s es) e := by
  simp [run, List.foldl_append]

/-- The sweep loop only touches `state`, `send_map`, `timeouts` and the queue. -/
theorem sweep_loop_frame (now : Int) (q : List Nat) (s : Sender) :
    (sweep_loop now q s).args = s.args ∧
    (sweep_loop now q s).out_of_order = s.out_of_order ∧
    (sweep_loop now q s).last_ack_seq = s.last_ack_seq ∧
    (sweep_loop now q s).have_last_ack_seq = s.have_last_ack_seq ∧
    (sweep_loop now q s).ack_received = s.ack_received ∧
    (sweep_loop now q s).rtt_us_stats = s.rtt_us_stats ∧
    (sweep_loop now q s).rtt_us_samples = s.rtt_us_samples ∧
    (sweep_loop now q s).sent = s.sent ∧
    (sweep_loop now q s).send_ts = s.send_ts := by
  induction q generalizing s with
  | nil => simp [sweep_loop]
  | cons a t ih =>
    simp only [sweep_loop]
    split
    · split
      · exact ih s
      · split
        · have h := ih { s with state := s.state.set a 3, timeouts := (s.timeouts + 1) % U64 }
          simpa using h
        · simp
    · split
      · exact ih s
      · split
        · have h := ih { s with send_map := map_erase s.send_map a,
                                timeouts := (s.timeouts + 1) % U64 }
          simpa using h
        · simp

theorem sweep_frame (now : Int) (s : Sender) :
    (sweep s now).args = s.args ∧
    (sweep s now).out_of_order = s.out_of_order ∧
    (sweep s now).last_ack_seq = s.last_ack_seq ∧
    (sweep s now).have_last_ack_seq = s.have_last_ack_seq ∧
    (sweep s now).ack_received = s.ack_received ∧
    (sweep s now).rtt_us_stats = s.rtt_us_stats ∧
    (sweep s now).rtt_us_samples = s.rtt_us_samples ∧
    (sweep s now).sent = s.sent ∧
    (sweep s now).send_ts = s.send_ts := by
  unfold sweep
  split
  · exact sweep_loop_frame now s.inflight s
  · simp

theorem on_send_frame (s : Sender) (tp : Int) :
    (on_send s tp).args = s.args ∧
    (on_send s tp).out_of_order = s.out_of_order ∧
    (on_send s tp).last_ack_seq = s.last_ack_seq ∧
    (on_send s tp).have_last_ack_seq = s.have_last_ack_seq ∧
    (on_send s tp).ack_received = s.ack_received ∧
    (on_send s tp).timeouts = s.timeouts ∧
    (on_send s tp).rtt_us_stats = s.rtt_us_stats ∧
    (on_send s tp).rtt_us_samples = s.rtt_us_samples := by
  unfold on_send
  split
  · split <;> simp
  · simp

theorem on_ack_undecoded (s : Sender) (now : Int) (payload : List Byte)
    (h : decode_ack payload = none) : on_ack s now payload = s := by
  unfold decode_ack at h
  unfold on_ack
  simp only at h ⊢
  split at h
  · simp at h
  · rename_i hok
    simp [hok]

theorem on_ack_ooo (s : Sender) (now : Int) (payload : List Byte) (a : Nat)
    (h : decode_ack payload = some a) :
    (on_ack s now payload).out_of_order
      = (if s.have_last_ack_seq && decide (a ≤ s.last_ack_seq)
          then (s.out_of_order + 1) % U64 else s.out_of_order) ∧
    (on_ack s now payload).last_ack_seq = a ∧
    (on_ack s now payload).have_last_ack_seq = true ∧
    (on_ack s now payload).args = s.args := by
  unfold decode_ack at h
  simp only at h
  split at h
  · rename_i hok
    simp only [Option.some.injEq] at h
    unfold on_ack
    simp only [hok, h, Bool.not_true, Bool.false_eq_true, if_false]
    split
    · split
      · simp
      · split <;> simp
    · split <;> simp
  · simp at h

end pub_rtt

namespace pub_rtt

theorem decoded_acks_snoc (es : List Event) (e : Event) :
    decoded_acks (es ++ [e])
      = decoded_acks es ++
        (match e with
          | .ack _ payload => (decode_ack payload).toList
          | _ => []) := by
  unfold decoded_acks
  rw [List.filterMap_append]
  congr 1
  cases e with
  | send tp => simp
  | sweep now => simp
  | ack now payload =>
    cases h : decode_ack payload <;> simp [h]

/-- Along any trace from the initial state the out-of-order counter, the flag and the last
sequence number are determined by the decoded acks alone. -/
theorem run_ooo_inv (args : Args) (es : List Event) :
    (run (init args) es).out_of_order = ooo_count (decoded_acks es) % U64 ∧
    (run (init args) es).have_last_ack_seq = (decoded_acks es).getLast?.isSome ∧
    (run (init args) es).last_ack_seq = (decoded_acks es).getLast?.getD 0 := by
  induction es using List.reverseRecOn with
  | nil => simp [run, init, decoded_acks, ooo_count]
  | append_singleton es e ih =>
    obtain ⟨h1, h2, h3⟩ := ih
    rw [run_snoc, decoded_acks_snoc]
    cases e with
    | send tp =>
      obtain ⟨_, f1, f2, f3, _⟩ := on_send_frame (run (init args) es) tp
      simp only [step, List.append_nil]
      rw [f1, f2, f3]
      exact ⟨h1, h2, h3⟩
    | sweep now =>
      obtain ⟨_, f1, f2, f3, _⟩ := sweep_frame now (run (init args) es)
      simp only [step, List.append_nil]
      rw [f1, f2, f3]
      exact ⟨h1, h2, h3⟩
    | ack now payload =>
      simp only [step]
      cases hd : decode_ack payload with
      | none =>
        rw [on_ack_undecoded _ _ _ hd]
        simp only [Option.toList, List.append_nil]
        exact ⟨h1, h2, h3⟩
      | some a =>
        obtain ⟨g1, g2, g3, _⟩ := on_ack_ooo (run (init args) es) now payload a hd
        simp only [Option.toList]
        rw [g1, g2, g3]
        refine ⟨ooo_count_mod_step _ _ a _ _ h1 h2 h3, ?_, ?_⟩ <;> simp

end pub_rtt

namespace echo_ack

theorem responder_run_snoc (s : Responder) (ds : List Delivery) (d : Delivery) :
    run s (ds ++ [d]) = (on_req (run s ds) d.now_tp d.srv_recv_ns d.srv_send_ns d.payload).1 := by
  simp [run, List.foldl_append]

theorem on_req_undecoded (s : Responder) (now : Int) (r1 r2 : Nat) (payload : List Byte)
    (h : decode_req payload = none) : on_req s now r1 r2 payload = (s, []) := by
  unfold decode_req at h
  unfold on_req
  simp only at h ⊢
  split at h
  · simp at h
  · rename_i hok
    simp [hok]

theorem on_req_decoded (s : Responder) (now : Int) (r1 r2 : Nat) (payload : List Byte)
    (a : Nat) (h : decode_req payload = some a) :
    on_req s now r1 r2 payload =
      ({ recv_count := (s.recv_count + 1) % U64
         interarrival_us :=
           if s.have_prev then s.interarrival_us.add (pub_rtt.to_us (now - s.prev_tp))
           else s.interarrival_us
         have_prev := true
         prev_tp := now
         out_of_order :=
           if s.have_last_seq && decide (a ≤ s.last_seq) then (s.out_of_order + 1) % U64
           else s.out_of_order
         last_seq := a
         have_last_seq := true },
       [bench.make_ack_payload a r1 r2]) := by
  unfold decode_req at h
  simp only at h
  split at h
  · rename_i hok
    simp only [Option.some.injEq] at h
    unfold on_req
    simp only [hok, h, Bool.not_true, Bool.false_eq_true, if_false]
  · simp at h

theorem decoded_reqs_snoc (ds : List Delivery) (d : Delivery) :
    decoded_reqs (ds ++ [d]) = decoded_reqs ds ++ (decode_req d.payload).toList := by
  unfold decoded_reqs
  rw [List.filterMap_append]
  cases h : decode_req d.payload <;> simp [h]

theorem responder_ooo_inv (ds : List Delivery) :
    (run {} ds).out_of_order = ooo_count (decoded_reqs ds) % U64 ∧
    (run {} ds).have_last_seq = (decoded_reqs ds).getLast?.isSome ∧
    (run {} ds).last_seq = (decoded_reqs ds).getLast?.getD 0 := by
  induction ds using List.reverseRecOn with
  | nil => simp [run, decoded_reqs, ooo_count]
  | append_singleton ds d ih =>
    obtain ⟨h1, h2, h3⟩ := ih
    rw [responder_run_snoc, decoded_reqs_snoc]
    cases hd : decode_req d.payload with
    | none =>
      rw [on_req_undecoded _ _ _ _ _ hd]
      simp only [Option.toList, List.append_nil]
      exact ⟨h1, h2, h3⟩
    | some a =>
      rw [on_req_decoded _ _ _ _ _ a hd]
      simp only [Option.toList]
      refine ⟨ooo_count_mod_step _ _ a _ _ h1 h2 h3, ?_, ?_⟩ <;> simp

end echo_ack

namespace bench

theorem u64_value_lt (bs : List Byte) : u64_value bs < 256 ^ bs.length := by
  induction bs with
  | nil => simp [u64_value]
  | cons b t ih =>
    have hb := b.isLt
    simp only [u64_value, List.foldr_cons, List.length_cons, pow_succ] at ih ⊢
    nlinarith

theorem u64_value_take8_lt (bs : List Byte) : u64_value (bs.take 8) < 2 ^ 64 := by
  have h := u64_value_lt (bs.take 8)
  have hl : (bs.take 8).length ≤ 8 := by simp
  calc u64_value (bs.take 8) < 256 ^ (bs.take 8).length := h
    _ ≤ 256 ^ 8 := Nat.pow_le_pow_right (by decide) hl
    _ = 2 ^ 64 := by norm_num

end bench

namespace pub_rtt

theorem decode_ack_make (a b c : Nat) : decode_ack (bench.make_ack_payload a b c) = some (a % 2 ^ 64) := by
  simp [decode_ack, bench.parse_make_ack]

theorem decode_ack_short (payload : List Byte) (h : payload.length < 24) :
    decode_ack payload = none := by
  simp [decode_ack, bench.parse_ack_payload_short payload _ h]

theorem decode_ack_long (payload : List Byte) (h : 24 ≤ payload.length) :
    decode_ack payload = some (bench.AckHeader.ofBytes (payload.take 24)).seq := by
  simp [decode_ack, bench.parse_ack_payload_ok payload _ h]

end pub_rtt

namespace echo_ack

theorem decode_req_make (a b : Nat) : decode_req (bench.make_req_payload a b) = some (a % 2 ^ 64) := by
  simp [decode_req, bench.parse_make_req]

theorem decode_req_short (payload : List Byte) (h : payload.length < 16) :
    decode_req payload = none := by
  simp [decode_req, bench.parse_req_payload_short payload _ h]

theorem decode_req_long (payload : List Byte) (h : 16 ≤ payload.length) :
    decode_req payload = some (bench.ReqHeader.ofBytes (payload.take 16)).seq := by
  simp [decode_req, bench.parse_req_payload_ok payload _ h]

theorem decode_req_lt (payload : List Byte) (a : Nat) (h : decode_req payload = some a) :
    a < 2 ^ 64 := by
  rcases Nat.lt_or_ge payload.length 16 with hl | hl
  · rw [decode_req_short payload hl] at h
    simp at h
  · rw [decode_req_long payload hl] at h
    simp only [Option.some.injEq] at h
    rw [← h]
    simp only [bench.ReqHeader.ofBytes]
    exact bench.u64_value_take8_lt _

end echo_ack

/-- C7: out-of-order counting. Along every trace of the sender from its initial state, and
for every sequence of deliveries to the responder from its initial state, the out-of-order
counter equals (within the 64-bit range of the counter) the number of positions `i ≥ 1` of
the stream of decoded sequence numbers with `s[i] ≤ s[i-1]`; sends, sweeps, undecodable
payloads and the inflight table play no part. The stream `1, 2, 2, 5, 3` gives `2` on both
sides. -/
theorem out_of_order_counting (args : pub_rtt.Args) (es : List pub_rtt.Event)
    (ds : List echo_ack.Delivery) :
    ((pub_rtt.decoded_acks es).length ≤ 2 ^ 64 →
      (pub_rtt.run (pub_rtt.init args) es).out_of_order = ooo_count (pub_rtt.decoded_acks es)) ∧
    ((echo_ack.decoded_reqs ds).length ≤ 2 ^ 64 →
      (echo_ack.run {} ds).out_of_order = ooo_count (echo_ack.decoded_reqs ds)) ∧
    (pub_rtt.run (pub_rtt.init args) es).out_of_order
      = ooo_count (pub_rtt.decoded_acks es) % 2 ^ 64 ∧
    (echo_ack.run {} ds).out_of_order = ooo_count (echo_ack.decoded_reqs ds) % 2 ^ 64 ∧
    (pub_rtt.run (pub_rtt.init args)
      [.ack 10 (bench.make_ack_payload 1 0 0), .ack 20 (bench.make_ack_payload 2 0 0),
       .ack 30 (bench.make_ack_payload 2 0 0), .ack 40 (bench.make_ack_payload 5 0 0),
       .ack 50 (bench.make_ack_payload 3 0 0)]).out_of_order = 2 ∧
    (echo_ack.run {}
      [{ now_tp := 10, srv_recv_ns := 0, srv_send_ns := 0, payload := bench.make_req_payload 1 0 },
       { now_tp := 20, srv_recv_ns := 0, srv_send_ns := 0, payload := bench.make_req_payload 2 0 },
       { now_tp := 30, srv_recv_ns := 0, srv_send_ns := 0, payload := bench.make_req_payload 2 0 },
       { now_tp := 40, srv_recv_ns := 0, srv_send_ns := 0, payload := bench.make_req_payload 5 0 },
       { now_tp := 50, srv_recv_ns := 0, srv_send_ns := 0, payload := bench.make_req_payload 3 0 }]
      ).out_of_order = 2 := by
  have hU : U64 = 2 ^ 64 := rfl
  have h5 : ooo_count [1, 2, 2, 5, 3] = 2 := by decide
  have hs := (pub_rtt.run_ooo_inv args es).1
  have hr := (echo_ack.responder_ooo_inv ds).1
  rw [hU] at hs hr
  refine ⟨?_, ?_, hs, hr, ?_, ?_⟩
  · intro hl
    have := ooo_count_lt_length (pub_rtt.decoded_acks es)
    rw [hs]
    apply Nat.mod_eq_of_lt
    have hp : 0 < 2 ^ 64 := by norm_num
    omega
  · intro hl
    have := ooo_count_lt_length (echo_ack.decoded_reqs ds)
    rw [hr]
    apply Nat.mod_eq_of_lt
    have hp : 0 < 2 ^ 64 := by norm_num
    omega
  · have h := (pub_rtt.run_ooo_inv args
      [.ack 10 (bench.make_ack_payload 1 0 0), .ack 20 (bench.make_ack_payload 2 0 0),
       .ack 30 (bench.make_ack_payload 2 0 0), .ack 40 (bench.make_ack_payload 5 0 0),
       .ack 50 (bench.make_ack_payload 3 0 0)]).1
    rw [h]
    simp only [pub_rtt.decoded_acks, List.filterMap_cons, List.filterMap_nil,
      pub_rtt.decode_ack_make]
    norm_num [h5, U64]
  · have h := (echo_ack.responder_ooo_inv
      [{ now_tp := 10, srv_recv_ns := 0, srv_send_ns := 0, payload := bench.make_req_payload 1 0 },
       { now_tp := 20, srv_recv_ns := 0, srv_send_ns := 0, payload := bench.make_req_payload 2 0 },
       { now_tp := 30, srv_recv_ns := 0, srv_send_ns := 0, payload := bench.make_req_payload 2 0 },
       { now_tp := 40, srv_recv_ns := 0, srv_send_ns := 0, payload := bench.make_req_payload 5 0 },
       { now_tp := 50, srv_recv_ns := 0, srv_send_ns := 0, payload := bench.make_req_payload 3 0 }]).1
    rw [h]
    simp only [echo_ack.decoded_reqs, List.filterMap_cons, List.filterMap_nil,
      echo_ack.decode_req_make]
    norm_num [h5, U64]

/-- Frame of the ack handler on an ack that is not inflight. For every sender state and every decoded ack
whose sequence number is not inflight (count mode: `seq ≥ count` or `state[seq] ≠ 1`, that is
unsent, acked or timed-out; duration mode: absent from `send_map`), the ack handler leaves
`ack_received`, `timeouts`, the RTT accumulator, the RTT sample list, `state`, `send_ts`,
`send_map`, the pending queue and `sent` unchanged. -/
theorem on_ack_stale (s : pub_rtt.Sender) (now_tp : Int) (payload : List Byte) (seq : Nat)
    (hd : pub_rtt.decode_ack payload = some seq)
    (hstale : (0 < s.args.count ∧ (s.args.count ≤ seq ∨ s.state.getD seq 0 ≠ 1)) ∨
      (s.args.count = 0 ∧ pub_rtt.map_find s.send_map seq = none)) :
    (pub_rtt.on_ack s now_tp payload).ack_received = s.ack_received ∧
    (pub_rtt.on_ack s now_tp payload).timeouts = s.timeouts ∧
    (pub_rtt.on_ack s now_tp payload).rtt_us_stats = s.rtt_us_stats ∧
    (pub_rtt.on_ack s now_tp payload).rtt_us_samples = s.rtt_us_samples ∧
    (pub_rtt.on_ack s now_tp payload).state = s.state ∧
    (pub_rtt.on_ack s now_tp payload).send_ts = s.send_ts ∧
    (pub_rtt.on_ack s now_tp payload).send_map = s.send_map ∧
    (pub_rtt.on_ack s now_tp payload).inflight = s.inflight ∧
    (pub_rtt.on_ack s now_tp payload).sent = s.sent := by
  unfold pub_rtt.decode_ack at hd
  simp only at hd
  split at hd
  · rename_i hok
    simp only [Option.some.injEq] at hd
    unfold pub_rtt.on_ack
    simp only [hok, hd, Bool.not_true, Bool.false_eq_true, if_false]
    rcases hstale with ⟨hc, hst⟩ | ⟨hc, hst⟩
    · rw [if_pos hc]
      by_cases hge : seq ≥ s.args.count
      · rw [if_pos hge]
        simp
      · rw [if_neg hge]
        rcases hst with h1 | hne
        · exact absurd h1 hge
        · rw [if_pos hne]
          simp
    · rw [if_neg (by omega), hst]
      simp
  · simp at hd

/-- C9: unknown or stale acks are not counted. For every sender state and every decoded ack
whose sequence number is not inflight (count mode: `seq ≥ count` or `state[seq] ≠ 1`, that is
unsent, acked or timed-out; duration mode: absent from `send_map`), the ack handler leaves
`ack_received`, `timeouts`, the RTT accumulator, the RTT sample list, `state`, `send_ts`,
`send_map`, the pending queue and `sent` unchanged. -/
theorem stale_ack_ignored (s : pub_rtt.Sender) (now_tp : Int) (payload : List Byte) (seq : Nat)
    (hd : pub_rtt.decode_ack payload = some seq)
    (hstale : (0 < s.args.count ∧ (s.args.count ≤ seq ∨ s.state.getD seq 0 ≠ 1)) ∨
      (s.args.count = 0 ∧ pub_rtt.map_find s.send_map seq = none)) :
    (pub_rtt.on_ack s now_tp payload).ack_received = s.ack_received ∧
    (pub_rtt.on_ack s now_tp payload).timeouts = s.timeouts ∧
    (pub_rtt.on_ack s now_tp payload).rtt_us_stats = s.rtt_us_stats ∧
    (pub_rtt.on_ack s now_tp payload).rtt_us_samples = s.rtt_us_samples ∧
    (pub_rtt.on_ack s now_tp payload).state = s.state ∧
    (pub_rtt.on_ack s now_tp payload).send_ts = s.send_ts ∧
    (pub_rtt.on_ack s now_tp payload).send_map = s.send_map ∧
    (pub_rtt.on_ack s now_tp payload).inflight = s.inflight ∧
    (pub_rtt.on_ack s now_tp payload).sent = s.sent :=
  on_ack_stale s now_tp payload seq hd hstale

/-- C9 on a late ack: in count mode with two requests, request 0 is sent at time 0 and timed
out by a sweep at 200 ms (threshold 100 ms); an ack for 0 that arrives afterwards leaves
`ack_received = 0`, `timeouts = 1` and the table as it was. -/
theorem stale_ack_ignored_witness :
    (pub_rtt.run (pub_rtt.init { count := 2 }) [.send 0, .sweep 200000000]).state = [3, 0] ∧
    (pub_rtt.on_ack (pub_rtt.run (pub_rtt.init { count := 2 }) [.send 0, .sweep 200000000])
      200000001 (bench.make_ack_payload 0 5 6)).ack_received = 0 ∧
    (pub_rtt.on_ack (pub_rtt.run (pub_rtt.init { count := 2 }) [.send 0, .sweep 200000000])
      200000001 (bench.make_ack_payload 0 5 6)).timeouts = 1 ∧
    (pub_rtt.on_ack (pub_rtt.run (pub_rtt.init { count := 2 }) [.send 0, .sweep 200000000])
      200000001 (bench.make_ack_payload 0 5 6)).state = [3, 0] := by
  have h := stale_ack_ignored
    (pub_rtt.run (pub_rtt.init { count := 2 }) [.send 0, .sweep 200000000])
    200000001 (bench.make_ack_payload 0 5 6) 0 (pub_rtt.decode_ack_make 0 5 6)
    (Or.inl ⟨by decide, Or.inr (by decide)⟩)
  refine ⟨by decide, ?_, ?_, ?_⟩
  · rw [h.1]; decide
  · rw [h.2.1]; decide
  · rw [h.2.2.2.2.1]; decide

/-- C10: responder ack emission. On a payload shorter than 16 bytes the request handler
publishes nothing and leaves the whole state (so `recv_count`, the inter-arrival accumulator,
`out_of_order` and `last_seq`) unchanged. Otherwise it increments the 64-bit `recv_count` by
one and publishes exactly one ack of 24 bytes, which decodes to the sequence number decoded
from the request. -/
theorem responder_ack_emission (s : echo_ack.Responder) (now_tp : Int)
    (srv_recv_ns srv_send_ns : Nat) (payload : List Byte) :
    (payload.length < 16 →
      (echo_ack.on_req s now_tp srv_recv_ns srv_send_ns payload).2 = [] ∧
      (echo_ack.on_req s now_tp srv_recv_ns srv_send_ns payload).1 = s) ∧
    (16 ≤ payload.length →
      (echo_ack.on_req s now_tp srv_recv_ns srv_send_ns payload).1.recv_count
        = (s.recv_count + 1) % 2 ^ 64 ∧
      (s.recv_count + 1 < 2 ^ 64 →
        (echo_ack.on_req s now_tp srv_recv_ns srv_send_ns payload).1.recv_count
          = s.recv_count + 1) ∧
      ∃ ack : List Byte,
        (echo_ack.on_req s now_tp srv_recv_ns srv_send_ns payload).2 = [ack] ∧
        ack.length = 24 ∧
        (bench.parse_ack_payload ack
          { seq := 0, server_recv_mono_ns := 0, server_send_mono_ns := 0 }).ok = true ∧
        (bench.parse_ack_payload ack
          { seq := 0, server_recv_mono_ns := 0, server_send_mono_ns := 0 }).out.seq
          = (bench.parse_req_payload payload { seq := 0, client_send_mono_ns := 0 }).out.seq) := by
  constructor
  · intro h
    rw [echo_ack.on_req_undecoded s now_tp srv_recv_ns srv_send_ns payload
      (echo_ack.decode_req_short payload h)]
    exact ⟨rfl, rfl⟩
  · intro h
    have hd := echo_ack.decode_req_long payload h
    have hlt := echo_ack.decode_req_lt payload _ hd
    rw [echo_ack.on_req_decoded s now_tp srv_recv_ns srv_send_ns payload _ hd]
    refine ⟨rfl, ?_, _, rfl, bench.make_ack_payload_length _ _ _, ?_, ?_⟩
    · intro hs
      exact Nat.mod_eq_of_lt hs
    · rw [bench.parse_make_ack]
    · rw [bench.parse_make_ack, bench.parse_req_payload_ok payload _ h]
      exact Nat.mod_eq_of_lt hlt

/-- C10 at two concrete payloads: three stray bytes are dropped, a request with `seq = 7` is
counted and acknowledged with `seq = 7`. -/
theorem responder_ack_emission_witness :
    echo_ack.on_req {} 5 1 2 [1, 2, 3] = ({}, []) ∧
    (echo_ack.on_req {} 5 1 2 (bench.make_req_payload 7 9)).1.recv_count = 1 ∧
    (echo_ack.on_req {} 5 1 2 (bench.make_req_payload 7 9)).2 = [bench.make_ack_payload 7 1 2] := by
  have h := responder_ack_emission {} 5 1 2 [1, 2, 3]
  have h2 := responder_ack_emission {} 5 1 2 (bench.make_req_payload 7 9)
  have hl : 16 ≤ (bench.make_req_payload 7 9).length := by
    rw [bench.make_req_payload_length]; decide
  refine ⟨?_, ?_, ?_⟩
  · exact Prod.ext (h.1 (by decide)).2 (h.1 (by decide)).1
  · exact ((h2.2 hl).2.1 (by norm_num))
  · rw [echo_ack.on_req_decoded _ _ _ _ _ 7 (by rw [echo_ack.decode_req_make]; norm_num)]

/-! ## Resolution happens at most once: count mode -/

namespace pub_rtt

theorem getD_set_nat (l : List Nat) (i j v : Nat) :
    (l.set i v).getD j 0 = if i = j ∧ i < l.length then v else l.getD j 0 := by
  simp only [List.getD_eq_getElem?_getD, List.getElem?_set]
  by_cases h : i = j
  · subst h
    by_cases h2 : i < l.length
    · simp [h2]
    · simp [h2, List.getElem?_eq_none (Nat.le_of_not_lt h2)]
  · simp [h]

theorem count_set_nat (l : List Nat) (i a b : Nat) (h : i < l.length) :
    (l.set i a).count b
      = l.count b - (if l.getD i 0 = b then 1 else 0) + (if a = b then 1 else 0) := by
  rw [List.count_set a b l i h]
  have e : l.getD i 0 = l[i] := by
    simp [List.getD_eq_getElem?_getD, List.getElem?_eq_getElem h]
  rw [e]
  simp

theorem count_set_other (l : List Nat) (i a b : Nat) (h : i < l.length)
    (h1 : l.getD i 0 ≠ b) (h2 : a ≠ b) : (l.set i a).count b = l.count b := by
  rw [count_set_nat l i a b h, if_neg h1, if_neg h2]
  omega

theorem count_set_new (l : List Nat) (i b : Nat) (h : i < l.length)
    (h1 : l.getD i 0 ≠ b) : (l.set i b).count b = l.count b + 1 := by
  rw [count_set_nat l i b b h, if_neg h1, if_pos rfl]
  omega

theorem tagStep_of_sweep {a b : Nat} (h : SweepTag a b) : TagStep a b := by
  rcases h with h | ⟨h1, h2⟩
  · exact Or.inl h
  · exact Or.inr (Or.inr ⟨h1, Or.inr h2⟩)

theorem sweepTag_trans {a b c : Nat} (h1 : SweepTag a b) (h2 : SweepTag b c) : SweepTag a c := by
  unfold SweepTag at *
  omega

theorem init_countInv (args : Args) (h1 : 0 < args.count) (h2 : args.count < U64) :
    CountInv (init args) := by
  refine ⟨⟨h1, h2, ?_, ?_, ?_, ?_, ?_, ?_⟩, ?_⟩
  · simp [init, h1]
  · simp [init]
  · intro q _
    simp only [tag, init, if_pos h1, List.getD_eq_getElem?_getD]
    by_cases hq : q < args.count
    · simp [List.getElem?_replicate, hq]
    · simp [List.getElem?_replicate, hq]
  · intro q hq
    simp [init] at hq
  · simp [init, h1, List.count_replicate]
  · simp [init, h1, List.count_replicate]
  · intro q hq
    simp [init] at hq

end pub_rtt

namespace pub_rtt

theorem on_send_count (s : Sender) (tp : Int) (h : CountInv s) :
    CountInv (on_send s tp) ∧ ∀ q, TagStep (tag s q) (tag (on_send s tp) q) := by
  obtain ⟨hc, hq⟩ := h
  unfold on_send
  rw [if_pos hc.count_pos]
  by_cases hs : s.sent < s.args.count
  · rw [if_pos hs]
    have hlen : s.sent < s.state.length := by rw [hc.state_len]; exact hs
    have hmod : (s.sent + 1) % U64 = s.sent + 1 := by
      apply Nat.mod_eq_of_lt
      have := hc.count_lt
      omega
    have h0 : s.state.getD s.sent 0 = 0 := hc.unsent s.sent (le_refl _)
    have htag : ∀ q, (s.state.set s.sent 1).getD q 0
        = if s.sent = q then 1 else s.state.getD q 0 := by
      intro q
      rw [getD_set_nat]
      by_cases e : s.sent = q
      · rw [if_pos ⟨e, hlen⟩, if_pos e]
      · rw [if_neg (fun h => e h.1), if_neg e]
    refine ⟨⟨⟨hc.count_pos, hc.count_lt, ?_, ?_, ?_, ?_, ?_, ?_⟩, ?_⟩, ?_⟩
    · simpa using hc.state_len
    · simp only [hmod]
      omega
    · intro q hq2
      simp only [hmod] at hq2
      simp only [tag, htag]
      rw [if_neg (by omega)]
      exact hc.unsent q (by omega)
    · intro q hq2
      simp only [hmod] at hq2
      simp only [tag, htag]
      by_cases e : s.sent = q
      · simp [e]
      · rw [if_neg e]
        exact hc.sent_tag q (by omega)
    · simp only
      rw [count_set_other _ _ _ _ hlen (by rw [h0]; decide) (by decide)]
      exact hc.acked
    · simp only
      rw [count_set_other _ _ _ _ hlen (by rw [h0]; decide) (by decide)]
      exact hc.timed
    · intro q hq2
      simp only [hmod]
      simp only [List.mem_append, List.mem_singleton] at hq2
      rcases hq2 with h1 | h1
      · have := hq q h1
        omega
      · omega
    · intro q
      simp only [tag, htag]
      by_cases e : s.sent = q
      · rw [if_pos e, ← e, h0]
        exact Or.inr (Or.inl ⟨rfl, rfl⟩)
      · rw [if_neg e]
        exact Or.inl rfl
  · rw [if_neg hs]
    exact ⟨⟨hc, hq⟩, fun q => Or.inl rfl⟩

/-- The ack handler on an ack that matches an inflight request in count mode. -/
theorem on_ack_count_hit (s : Sender) (now : Int) (payload : List Byte) (a : Nat)
    (hd : decode_ack payload = some a) (hc : 0 < s.args.count) (ha : a < s.args.count)
    (h1 : s.state.getD a 0 = 1) :
    (on_ack s now payload).state = s.state.set a 2 ∧
    (on_ack s now payload).ack_received = (s.ack_received + 1) % U64 ∧
    (on_ack s now payload).timeouts = s.timeouts ∧
    (on_ack s now payload).sent = s.sent ∧
    (on_ack s now payload).inflight = s.inflight ∧
    (on_ack s now payload).send_ts = s.send_ts ∧
    (on_ack s now payload).send_map = s.send_map ∧
    (on_ack s now payload).rtt_us_samples
      = s.rtt_us_samples ++ [to_us (now - s.send_ts.getD a 0)] ∧
    (on_ack s now payload).rtt_us_stats
      = s.rtt_us_stats.add (to_us (now - s.send_ts.getD a 0)) := by
  unfold decode_ack at hd
  simp only at hd
  split at hd
  · rename_i hok
    simp only [Option.some.injEq] at hd
    unfold on_ack
    simp only [hok, hd, Bool.not_true, Bool.false_eq_true, if_false]
    rw [if_pos hc, if_neg (by omega), if_neg (fun h => h h1)]
    simp
  · simp at hd

theorem on_ack_count (s : Sender) (now : Int) (payload : List Byte) (h : CountInv s) :
    CountInv (on_ack s now payload) ∧ ∀ q, TagStep (tag s q) (tag (on_ack s now payload) q) := by
  obtain ⟨hc, hq⟩ := h
  cases hd : decode_ack payload with
  | none =>
    rw [on_ack_undecoded s now payload hd]
    exact ⟨⟨hc, hq⟩, fun q => Or.inl rfl⟩
  | some a =>
    have hargs := (on_ack_ooo s now payload a hd).2.2.2
    by_cases hit : a < s.args.count ∧ s.state.getD a 0 = 1
    · obtain ⟨ha, h1⟩ := hit
      obtain ⟨e1, e2, e3, e4, e5, _⟩ := on_ack_count_hit s now payload a hd hc.count_pos ha h1
      have hlen : a < s.state.length := by rw [hc.state_len]; exact ha
      have htag : ∀ q, (s.state.set a 2).getD q 0 = if a = q then 2 else s.state.getD q 0 := by
        intro q
        rw [getD_set_nat]
        by_cases e : a = q
        · rw [if_pos ⟨e, hlen⟩, if_pos e]
        · rw [if_neg (fun h => e h.1), if_neg e]
      have hasent : a < s.sent := by
        by_contra hns
        have := hc.unsent a (by omega)
        simp only [tag] at this
        omega
      have hcnt : (s.state.set a 2).count 2 = s.state.count 2 + 1 :=
        count_set_new _ _ _ hlen (by rw [h1]; decide)
      have hle : (s.state.set a 2).count 2 ≤ s.args.count := by
        have := List.count_le_length 2 (s.state.set a 2)
        rw [List.length_set, hc.state_len] at this
        exact this
      refine ⟨⟨⟨?_, ?_, ?_, ?_, ?_, ?_, ?_, ?_⟩, ?_⟩, ?_⟩
      · rw [hargs]; exact hc.count_pos
      · rw [hargs]; exact hc.count_lt
      · rw [hargs, e1, List.length_set]; exact hc.state_len
      · rw [hargs, e4]; exact hc.sent_le
      · intro q hq2
        rw [e4] at hq2
        simp only [tag, e1, htag]
        rw [if_neg (by omega)]
        exact hc.unsent q hq2
      · intro q hq2
        rw [e4] at hq2
        simp only [tag, e1, htag]
        by_cases e : a = q
        · simp [e]
        · rw [if_neg e]
          exact hc.sent_tag q hq2
      · rw [e2, e1, hcnt, hc.acked]
        apply Nat.mod_eq_of_lt
        have := hc.count_lt
        omega
      · rw [e3, e1, count_set_other _ _ _ _ hlen (by rw [h1]; decide) (by decide)]
        exact hc.timed
      · intro q hq2
        rw [e5] at hq2
        rw [e4]
        exact hq q hq2
      · intro q
        simp only [tag, e1, htag]
        by_cases e : a = q
        · rw [if_pos e, ← e, h1]
          exact Or.inr (Or.inr ⟨rfl, Or.inl rfl⟩)
        · rw [if_neg e]
          exact Or.inl rfl
    · have hst : (0 < s.args.count ∧ (s.args.count ≤ a ∨ s.state.getD a 0 ≠ 1)) ∨
          (s.args.count = 0 ∧ map_find s.send_map a = none) := by
        refine Or.inl ⟨hc.count_pos, ?_⟩
        by_cases ha : a < s.args.count
        · exact Or.inr (fun h1 => hit ⟨ha, h1⟩)
        · exact Or.inl (by omega)
      obtain ⟨e1, e2, _, _, e5, _, _, e8, e9⟩ := on_ack_stale s now payload a hd hst
      refine ⟨⟨⟨?_, ?_, ?_, ?_, ?_, ?_, ?_, ?_⟩, ?_⟩, ?_⟩
      · rw [hargs]; exact hc.count_pos
      · rw [hargs]; exact hc.count_lt
      · rw [hargs, e5]; exact hc.state_len
      · rw [hargs, e9]; exact hc.sent_le
      · intro q hq2
        rw [e9] at hq2
        simp only [tag, e5]
        exact hc.unsent q hq2
      · intro q hq2
        rw [e9] at hq2
        simp only [tag, e5]
        exact hc.sent_tag q hq2
      · rw [e1, e5]; exact hc.acked
      · rw [e2, e5]; exact hc.timed
      · intro q hq2
        rw [e8] at hq2
        rw [e9]
        exact hq q hq2
      · intro q
        simp only [tag, e5]
        exact Or.inl rfl

end pub_rtt

namespace pub_rtt

theorem countCore_congr (s r : Sender) (h : CountCore s) (ha : r.args = s.args)
    (hst : r.state = s.state) (hsent : r.sent = s.sent)
    (hack : r.ack_received = s.ack_received) (ht : r.timeouts = s.timeouts) : CountCore r := by
  refine ⟨?_, ?_, ?_, ?_, ?_, ?_, ?_, ?_⟩
  · rw [ha]; exact h.count_pos
  · rw [ha]; exact h.count_lt
  · rw [ha, hst]; exact h.state_len
  · rw [ha, hsent]; exact h.sent_le
  · intro q hq
    rw [hsent] at hq
    simp only [tag, hst]
    exact h.unsent q hq
  · intro q hq
    rw [hsent] at hq
    simp only [tag, hst]
    exact h.sent_tag q hq
  · rw [hack, hst]; exact h.acked
  · rw [ht, hst]; exact h.timed

/-- Marking an inflight entry timed out keeps the core invariant. -/
theorem countCore_timeout (s : Sender) (a : Nat) (hc : CountCore s) (ha : a < s.sent)
    (h1 : tag s a = 1) :
    CountCore { s with state := s.state.set a 3, timeouts := (s.timeouts + 1) % U64 } ∧
    ∀ q, SweepTag (tag s q)
      (tag { s with state := s.state.set a 3, timeouts := (s.timeouts + 1) % U64 } q) := by
  have hlen : a < s.state.length := by
    rw [hc.state_len]
    have := hc.sent_le
    omega
  have h1s : s.state.getD a 0 = 1 := h1
  have htag : ∀ q, (s.state.set a 3).getD q 0 = if a = q then 3 else s.state.getD q 0 := by
    intro q
    rw [getD_set_nat]
    by_cases e : a = q
    · rw [if_pos ⟨e, hlen⟩, if_pos e]
    · rw [if_neg (fun h => e h.1), if_neg e]
  have hcnt : (s.state.set a 3).count 3 = s.state.count 3 + 1 :=
    count_set_new _ _ _ hlen (by rw [h1s]; decide)
  have hle : (s.state.set a 3).count 3 ≤ s.args.count := by
    have := List.count_le_length 3 (s.state.set a 3)
    rw [List.length_set, hc.state_len] at this
    exact this
  refine ⟨⟨hc.count_pos, hc.count_lt, ?_, hc.sent_le, ?_, ?_, ?_, ?_⟩, ?_⟩
  · simp only [List.length_set]
    exact hc.state_len
  · intro q hq
    simp only [tag, htag]
    rw [if_neg (by simp only at hq; omega)]
    exact hc.unsent q hq
  · intro q hq
    simp only [tag, htag]
    by_cases e : a = q
    · rw [if_pos e]
      exact Or.inr (Or.inr rfl)
    · rw [if_neg e]
      exact hc.sent_tag q hq
  · simp only
    rw [count_set_other _ _ _ _ hlen (by rw [h1s]; decide) (by decide)]
    exact hc.acked
  · simp only
    rw [hcnt, hc.timed]
    apply Nat.mod_eq_of_lt
    have := hc.count_lt
    omega
  · intro q
    simp only [tag, htag]
    by_cases e : a = q
    · rw [if_pos e, ← e, h1s]
      exact Or.inr ⟨rfl, rfl⟩
    · rw [if_neg e]
      exact Or.inl rfl

theorem sweep_loop_count (now : Int) (l : List Nat) (s : Sender) (hc : CountCore s)
    (hl : ∀ q ∈ l, q < s.sent) :
    CountInv (sweep_loop now l s) ∧
    ∀ q, SweepTag (tag s q) (tag (sweep_loop now l s) q) := by
  induction l generalizing s with
  | nil =>
    simp only [sweep_loop]
    refine ⟨⟨countCore_congr s _ hc rfl rfl rfl rfl rfl, ?_⟩, fun q => Or.inl rfl⟩
    intro q hq
    simp at hq
  | cons a t ih =>
    have ha : a < s.sent := hl a (List.mem_cons_self a t)
    have ht : ∀ q ∈ t, q < s.sent := fun q hq => hl q (List.mem_cons_of_mem a hq)
    simp only [sweep_loop]
    rw [if_pos hc.count_pos]
    split
    · exact ih s hc ht
    · rename_i hst
      have h1 : tag s a = 1 := by
        rcases hc.sent_tag a ha with h | h | h
        · exact h
        · exact absurd (Or.inl h) hst
        · exact absurd (Or.inr h) hst
      split
      · obtain ⟨hc2, hstep⟩ := countCore_timeout s a hc ha h1
        obtain ⟨hinv, hrest⟩ := ih _ hc2 ht
        exact ⟨hinv, fun q => sweepTag_trans (hstep q) (hrest q)⟩
      · refine ⟨⟨countCore_congr s _ hc rfl rfl rfl rfl rfl, ?_⟩, fun q => Or.inl rfl⟩
        intro q hq
        exact hl q hq

theorem sweep_count (s : Sender) (now : Int) (h : CountInv s) :
    CountInv (sweep s now) ∧ ∀ q, TagStep (tag s q) (tag (sweep s now) q) := by
  unfold sweep
  split
  · obtain ⟨h1, h2⟩ := sweep_loop_count now s.inflight s h.1 h.2
    exact ⟨h1, fun q => tagStep_of_sweep (h2 q)⟩
  · exact ⟨h, fun q => Or.inl rfl⟩

theorem step_count (s : Sender) (e : Event) (h : CountInv s) :
    CountInv (step s e) ∧ ∀ q, TagStep (tag s q) (tag (step s e) q) := by
  cases e with
  | send tp => exact on_send_count s tp h
  | ack now payload => exact on_ack_count s now payload h
  | sweep now => exact sweep_count s now h

theorem run_count (s : Sender) (es : List Event) (h : CountInv s) : CountInv (run s es) := by
  induction es generalizing s with
  | nil => exact h
  | cons e t ih => exact ih (step s e) (step_count s e h).1

/-- Acked and timed-out tags are never changed by later events. -/
theorem run_resolved_stays (s : Sender) (es : List Event) (h : CountInv s) (q : Nat) :
    (tag s q = 2 → tag (run s es) q = 2) ∧ (tag s q = 3 → tag (run s es) q = 3) := by
  induction es generalizing s with
  | nil => exact ⟨id, id⟩
  | cons e t ih =>
    obtain ⟨hinv, hstep⟩ := step_count s e h
    obtain ⟨i2, i3⟩ := ih (step s e) hinv
    have hs := hstep q
    unfold TagStep at hs
    constructor
    · intro h2
      apply i2
      omega
    · intro h3
      apply i3
      omega

end pub_rtt

/-! ## Resolution happens at most once: duration mode -/

namespace pub_rtt

theorem map_find_none_iff (m : List (Nat × Int)) (k : Nat) :
    map_find m k = none ↔ ∀ p ∈ m, p.1 ≠ k := by
  unfold map_find
  rw [Option.map_eq_none', List.find?_eq_none]
  constructor
  · intro h p hp e
    exact h p hp (by simp [e])
  · intro h p hp
    simpa using h p hp

theorem map_find_some_mem (m : List (Nat × Int)) (k : Nat) (v : Int)
    (h : map_find m k = some v) : ∃ p ∈ m, p.1 = k := by
  by_contra hne
  have : map_find m k = none := (map_find_none_iff m k).mpr (fun p hp e => hne ⟨p, hp, e⟩)
  rw [this] at h
  exact Option.noConfusion h

theorem mem_map_erase (m : List (Nat × Int)) (k : Nat) (p : Nat × Int) :
    p ∈ map_erase m k ↔ p ∈ m ∧ p.1 ≠ k := by
  simp [map_erase, List.mem_filter]

theorem map_erase_nodup (m : List (Nat × Int)) (k : Nat) (h : (m.map Prod.fst).Nodup) :
    ((map_erase m k).map Prod.fst).Nodup :=
  List.Nodup.sublist (List.Sublist.map Prod.fst (List.filter_sublist m)) h

theorem map_erase_length (m : List (Nat × Int)) (k : Nat) (hn : (m.map Prod.fst).Nodup)
    (hk : ∃ p ∈ m, p.1 = k) : (map_erase m k).length + 1 = m.length := by
  induction m with
  | nil =>
    obtain ⟨p, hp, _⟩ := hk
    simp at hp
  | cons p t ih =>
    rw [List.map_cons, List.nodup_cons] at hn
    obtain ⟨hnot, hnt⟩ := hn
    by_cases e : p.1 = k
    · have hfil : map_erase t k = t := by
        unfold map_erase
        rw [List.filter_eq_self]
        intro x hx
        have : x.1 ≠ k := by
          intro hx2
          apply hnot
          rw [e, ← hx2]
          exact List.mem_map_of_mem Prod.fst hx
        simpa using this
      have : map_erase (p :: t) k = map_erase t k := by
        simp [map_erase, List.filter_cons, e]
      rw [this, hfil, List.length_cons]
    · have hk2 : ∃ x ∈ t, x.1 = k := by
        obtain ⟨x, hx, hxk⟩ := hk
        rcases List.mem_cons.mp hx with rfl | hx
        · exact absurd hxk e
        · exact ⟨x, hx, hxk⟩
      have : map_erase (p :: t) k = p :: map_erase t k := by
        simp [map_erase, List.filter_cons, e]
      rw [this, List.length_cons, List.length_cons, ih hnt hk2]

theorem map_emplace_fresh (m : List (Nat × Int)) (k : Nat) (v : Int)
    (h : ∀ p ∈ m, p.1 ≠ k) : map_emplace m k v = m ++ [(k, v)] := by
  unfold map_emplace
  rw [(map_find_none_iff m k).mpr h]
  simp

theorem init_durInv (args : Args) (h : args.count = 0) : DurInv (init args) := by
  refine ⟨⟨h, ?_, ?_, ?_, ?_⟩, ?_⟩
  · simp [init, U64]
  · intro p hp
    simp [init] at hp
  · simp [init]
  · simp [init]
  · intro q hq
    simp [init] at hq

theorem on_send_dur (s : Sender) (tp : Int) (h : DurInv s) (hb : s.sent + 1 < U64) :
    DurInv (on_send s tp) ∧ (on_send s tp).sent = s.sent + 1 ∧
    ∀ j, j < s.sent → map_find s.send_map j = none →
      map_find (on_send s tp).send_map j = none := by
  obtain ⟨hc, hq⟩ := h
  have hfresh : ∀ p ∈ s.send_map, p.1 ≠ s.sent := by
    intro p hp
    have := hc.keys_lt p hp
    omega
  have hmod : (s.sent + 1) % U64 = s.sent + 1 := Nat.mod_eq_of_lt hb
  unfold on_send
  rw [if_neg (by rw [hc.count_zero]; decide)]
  dsimp only
  rw [map_emplace_fresh _ _ _ hfresh, hmod]
  refine ⟨⟨⟨hc.count_zero, hb, ?_, ?_, ?_⟩, ?_⟩, rfl, ?_⟩
  · intro p hp
    simp only [List.mem_append, List.mem_singleton] at hp
    rcases hp with hp | hp
    · have := hc.keys_lt p hp
      simp only
      omega
    · rw [hp]
      simp
  · simp only [List.map_append, List.map_cons, List.map_nil]
    rw [List.nodup_append]
    refine ⟨hc.keys_nodup, List.nodup_singleton _, ?_⟩
    intro a ha hb2
    simp only [List.mem_singleton] at hb2
    obtain ⟨p, hp, hpa⟩ := List.mem_map.mp ha
    exact hfresh p hp (by rw [hpa, hb2])
  · simp only [List.length_append, List.length_singleton]
    have := hc.conserve
    omega
  · intro q hq2
    simp only [List.mem_append, List.mem_singleton] at hq2
    rcases hq2 with h1 | h1
    · have := hq q h1
      simp only
      omega
    · simp only
      omega
  · intro j hj hnone
    rw [map_find_none_iff] at hnone ⊢
    intro p hp
    simp only [List.mem_append, List.mem_singleton] at hp
    rcases hp with hp | hp
    · exact hnone p hp
    · rw [hp]
      show s.sent ≠ j
      omega

end pub_rtt

namespace pub_rtt

/-- The ack handler on an ack that matches an inflight request in duration mode. -/
theorem on_ack_dur_hit (s : Sender) (now : Int) (payload : List Byte) (a : Nat) (ts : Int)
    (hd : decode_ack payload = some a) (hc : s.args.count = 0)
    (h1 : map_find s.send_map a = some ts) :
    (on_ack s now payload).send_map = map_erase s.send_map a ∧
    (on_ack s now payload).ack_received = (s.ack_received + 1) % U64 ∧
    (on_ack s now payload).timeouts = s.timeouts ∧
    (on_ack s now payload).sent = s.sent ∧
    (on_ack s now payload).inflight = s.inflight ∧
    (on_ack s now payload).send_ts = s.send_ts ∧
    (on_ack s now payload).state = s.state ∧
    (on_ack s now payload).rtt_us_samples = s.rtt_us_samples ++ [to_us (now - ts)] ∧
    (on_ack s now payload).rtt_us_stats = s.rtt_us_stats.add (to_us (now - ts)) := by
  unfold decode_ack at hd
  simp only at hd
  split at hd
  · rename_i hok
    simp only [Option.some.injEq] at hd
    unfold on_ack
    simp only [hok, hd, Bool.not_true, Bool.false_eq_true, if_false]
    rw [if_neg (by omega), h1]
    simp
  · simp at hd

/-- Removing a key that is present, together with one more count, keeps the core
invariant of duration mode. -/
theorem durCore_erase (s r : Sender) (a : Nat) (hc : DurCore s)
    (hk : ∃ p ∈ s.send_map, p.1 = a)
    (hargs : r.args = s.args) (hsent : r.sent = s.sent)
    (hmap : r.send_map = map_erase s.send_map a)
    (hcnt : r.ack_received + r.timeouts = s.ack_received + s.timeouts + 1) :
    DurCore r ∧ ∀ j, map_find s.send_map j = none → map_find r.send_map j = none := by
  have hlen := map_erase_length s.send_map a hc.keys_nodup hk
  refine ⟨⟨?_, ?_, ?_, ?_, ?_⟩, ?_⟩
  · rw [hargs]; exact hc.count_zero
  · rw [hsent]; exact hc.sent_lt
  · intro p hp
    rw [hmap, mem_map_erase] at hp
    rw [hsent]
    exact hc.keys_lt p hp.1
  · rw [hmap]
    exact map_erase_nodup _ _ hc.keys_nodup
  · rw [hmap, hsent]
    have := hc.conserve
    omega
  · intro j hnone
    rw [map_find_none_iff] at hnone ⊢
    intro p hp
    rw [hmap, mem_map_erase] at hp
    exact hnone p hp.1

theorem durCore_congr (s r : Sender) (hc : DurCore s) (hargs : r.args = s.args)
    (hsent : r.sent = s.sent) (hmap : r.send_map = s.send_map)
    (hack : r.ack_received = s.ack_received) (ht : r.timeouts = s.timeouts) : DurCore r := by
  refine ⟨?_, ?_, ?_, ?_, ?_⟩
  · rw [hargs]; exact hc.count_zero
  · rw [hsent]; exact hc.sent_lt
  · rw [hmap, hsent]; exact hc.keys_lt
  · rw [hmap]; exact hc.keys_nodup
  · rw [hmap, hsent, hack, ht]; exact hc.conserve

/-- With a key present the counters are strictly below `sent`, so one more count cannot
wrap. -/
theorem dur_count_room (s : Sender) (a : Nat) (hc : DurCore s)
    (hk : ∃ p ∈ s.send_map, p.1 = a) : s.ack_received + s.timeouts + 1 < U64 := by
  have hpos : 0 < s.send_map.length := by
    obtain ⟨p, hp, _⟩ := hk
    exact List.length_pos_of_mem hp
  have := hc.conserve
  have := hc.sent_lt
  omega

theorem on_ack_dur (s : Sender) (now : Int) (payload : List Byte) (h : DurInv s) :
    DurInv (on_ack s now payload) ∧ (on_ack s now payload).sent = s.sent ∧
    ∀ j, map_find s.send_map j = none → map_find (on_ack s now payload).send_map j = none := by
  obtain ⟨hc, hq⟩ := h
  cases hd : decode_ack payload with
  | none =>
    rw [on_ack_undecoded s now payload hd]
    exact ⟨⟨hc, hq⟩, rfl, fun j hj => hj⟩
  | some a =>
    have hargs := (on_ack_ooo s now payload a hd).2.2.2
    cases hf : map_find s.send_map a with
    | none =>
      obtain ⟨e1, e2, _, _, _, _, e7, e8, e9⟩ :=
        on_ack_stale s now payload a hd (Or.inr ⟨hc.count_zero, hf⟩)
      refine ⟨⟨durCore_congr s _ hc hargs e9 e7 e1 e2, ?_⟩, e9, ?_⟩
      · intro q hq2
        rw [e8] at hq2
        rw [e9]
        exact hq q hq2
      · intro j hj
        rw [e7]
        exact hj
    | some ts =>
      obtain ⟨e1, e2, e3, e4, e5, _⟩ := on_ack_dur_hit s now payload a ts hd hc.count_zero hf
      have hk := map_find_some_mem _ _ _ hf
      have hroom := dur_count_room s a hc hk
      have hcnt : (on_ack s now payload).ack_received + (on_ack s now payload).timeouts
          = s.ack_received + s.timeouts + 1 := by
        rw [e2, e3, Nat.mod_eq_of_lt (by omega)]
        omega
      obtain ⟨hcore, hkeep⟩ := durCore_erase s _ a hc hk hargs e4 e1 hcnt
      refine ⟨⟨hcore, ?_⟩, e4, hkeep⟩
      intro q hq2
      rw [e5] at hq2
      rw [e4]
      exact hq q hq2

theorem sweep_loop_dur (now : Int) (l : List Nat) (s : Sender) (hc : DurCore s)
    (hl : ∀ q ∈ l, q < s.sent) :
    DurInv (sweep_loop now l s) ∧ (sweep_loop now l s).sent = s.sent ∧
    ∀ j, map_find s.send_map j = none → map_find (sweep_loop now l s).send_map j = none := by
  induction l generalizing s with
  | nil =>
    simp only [sweep_loop]
    refine ⟨⟨durCore_congr s _ hc rfl rfl rfl rfl rfl, ?_⟩, trivial, fun j hj => hj⟩
    intro q hq
    simp at hq
  | cons a t ih =>
    have ht : ∀ q ∈ t, q < s.sent := fun q hq => hl q (List.mem_cons_of_mem a hq)
    simp only [sweep_loop]
    rw [if_neg (by rw [hc.count_zero]; decide)]
    split
    · exact ih s hc ht
    · rename_i ts hf
      split
      · have hk := map_find_some_mem _ _ _ hf
        have hroom := dur_count_room s a hc hk
        obtain ⟨hcore, hkeep⟩ := durCore_erase s
          { s with send_map := map_erase s.send_map a, timeouts := (s.timeouts + 1) % U64 }
          a hc hk rfl rfl rfl
          (by
            show s.ack_received + (s.timeouts + 1) % U64 = s.ack_received + s.timeouts + 1
            rw [Nat.mod_eq_of_lt (by omega)]
            omega)
        obtain ⟨hinv, hsent, hrest⟩ := ih _ hcore ht
        exact ⟨hinv, hsent, fun j hj => hrest j (hkeep j hj)⟩
      · refine ⟨⟨durCore_congr s _ hc rfl rfl rfl rfl rfl, ?_⟩, rfl, fun j hj => hj⟩
        intro q hq
        exact hl q hq

theorem sweep_dur (s : Sender) (now : Int) (h : DurInv s) :
    DurInv (sweep s now) ∧ (sweep s now).sent = s.sent ∧
    ∀ j, map_find s.send_map j = none → map_find (sweep s now).send_map j = none := by
  unfold sweep
  split
  · exact sweep_loop_dur now s.inflight s h.1 h.2
  · exact ⟨h, rfl, fun j hj => hj⟩

theorem step_dur (s : Sender) (e : Event) (h : DurInv s) (hb : s.sent + 1 < U64) :
    DurInv (step s e) ∧ s.sent ≤ (step s e).sent ∧ (step s e).sent ≤ s.sent + 1 ∧
    ∀ j, j < s.sent → map_find s.send_map j = none →
      map_find (step s e).send_map j = none := by
  cases e with
  | send tp =>
    obtain ⟨h1, h2, h3⟩ := on_send_dur s tp h hb
    exact ⟨h1, by simp only [step]; omega, by simp only [step]; omega, h3⟩
  | ack now payload =>
    obtain ⟨h1, h2, h3⟩ := on_ack_dur s now payload h
    exact ⟨h1, by simp only [step]; omega, by simp only [step]; omega, fun j _ hj => h3 j hj⟩
  | sweep now =>
    obtain ⟨h1, h2, h3⟩ := sweep_dur s now h
    exact ⟨h1, by simp only [step]; omega, by simp only [step]; omega, fun j _ hj => h3 j hj⟩

/-- Along a run that stays inside the 64-bit range of `sent`, the invariant holds and a
sequence number that was sent and is absent from `send_map` stays sent and absent. -/
theorem run_dur (s : Sender) (es : List Event) (h : DurInv s) (hb : s.sent + es.length < U64) :
    DurInv (run s es) ∧ s.sent ≤ (run s es).sent ∧ (run s es).sent ≤ s.sent + es.length ∧
    ∀ j, j < s.sent → map_find s.send_map j = none →
      map_find (run s es).send_map j = none := by
  induction es generalizing s with
  | nil => exact ⟨h, le_refl _, le_refl _, fun j _ hj => hj⟩
  | cons e t ih =>
    simp only [List.length_cons] at hb
    obtain ⟨h1, h2, h3, h4⟩ := step_dur s e h (by omega)
    obtain ⟨i1, i2, i3, i4⟩ := ih (step s e) h1 (by omega)
    refine ⟨i1, ?_, ?_, ?_⟩
    · show s.sent ≤ (run (step s e) t).sent
      omega
    · show (run (step s e) t).sent ≤ s.sent + (t.length + 1)
      omega
    · intro j hj hnone
      exact i4 j (by omega) (h4 j hj hnone)

end pub_rtt

/-- C8: resolution happens at most once. Let `s1` be the state after any trace `es1` from
the initial state and `s2` the state after any further trace `es2`. In count mode a tag that
is acked (2) or timed out (3) in `s1` is the same in `s2`; one step changes a tag only from
unsent to inflight or from inflight to acked or timed out; and `ack_received` and `timeouts`
are the numbers of entries tagged 2 and 3, so every sequence number is counted by at most one
of them, once. In duration mode (traces inside the 64-bit range of `sent`) a sequence number
that was sent and is absent from `send_map` in `s1` is still sent and absent in `s2`; the
keys of `send_map` are distinct sent sequence numbers, and the two counters together count
exactly the sent sequence numbers that are absent from the map. -/
theorem resolution_at_most_once (args : pub_rtt.Args) (es1 es2 : List pub_rtt.Event)
    (e : pub_rtt.Event) (q : Nat) (hcount : args.count < 2 ^ 64) :
    (0 < args.count →
      (pub_rtt.tag (pub_rtt.run (pub_rtt.init args) es1) q = 2 →
        pub_rtt.tag (pub_rtt.run (pub_rtt.run (pub_rtt.init args) es1) es2) q = 2) ∧
      (pub_rtt.tag (pub_rtt.run (pub_rtt.init args) es1) q = 3 →
        pub_rtt.tag (pub_rtt.run (pub_rtt.run (pub_rtt.init args) es1) es2) q = 3) ∧
      (pub_rtt.tag (pub_rtt.run (pub_rtt.init args) es1) q
          = pub_rtt.tag (pub_rtt.step (pub_rtt.run (pub_rtt.init args) es1) e) q ∨
        (pub_rtt.tag (pub_rtt.run (pub_rtt.init args) es1) q = 0 ∧
          pub_rtt.tag (pub_rtt.step (pub_rtt.run (pub_rtt.init args) es1) e) q = 1) ∨
        (pub_rtt.tag (pub_rtt.run (pub_rtt.init args) es1) q = 1 ∧
          (pub_rtt.tag (pub_rtt.step (pub_rtt.run (pub_rtt.init args) es1) e) q = 2 ∨
           pub_rtt.tag (pub_rtt.step (pub_rtt.run (pub_rtt.init args) es1) e) q = 3))) ∧
      (pub_rtt.run (pub_rtt.init args) es1).ack_received
        = (pub_rtt.run (pub_rtt.init args) es1).state.count 2 ∧
      (pub_rtt.run (pub_rtt.init args) es1).timeouts
        = (pub_rtt.run (pub_rtt.init args) es1).state.count 3) ∧
    (args.count = 0 → es1.length + es2.length < 2 ^ 64 →
      (q < (pub_rtt.run (pub_rtt.init args) es1).sent →
        pub_rtt.map_find (pub_rtt.run (pub_rtt.init args) es1).send_map q = none →
        q < (pub_rtt.run (pub_rtt.run (pub_rtt.init args) es1) es2).sent ∧
        pub_rtt.map_find (pub_rtt.run (pub_rtt.run (pub_rtt.init args) es1) es2).send_map q
          = none) ∧
      ((pub_rtt.run (pub_rtt.init args) es1).send_map.map Prod.fst).Nodup ∧
      (∀ p ∈ (pub_rtt.run (pub_rtt.init args) es1).send_map,
        p.1 < (pub_rtt.run (pub_rtt.init args) es1).sent) ∧
      (pub_rtt.run (pub_rtt.init args) es1).ack_received
        + (pub_rtt.run (pub_rtt.init args) es1).timeouts
        + (pub_rtt.run (pub_rtt.init args) es1).send_map.length
        = (pub_rtt.run (pub_rtt.init args) es1).sent) := by
  have hU : U64 = 2 ^ 64 := rfl
  constructor
  · intro hpos
    have hinv := pub_rtt.run_count _ es1 (pub_rtt.init_countInv args hpos (by rw [hU]; exact hcount))
    obtain ⟨h2, h3⟩ := pub_rtt.run_resolved_stays _ es2 hinv q
    exact ⟨h2, h3, (pub_rtt.step_count _ e hinv).2 q, hinv.1.acked, hinv.1.timed⟩
  · intro hzero hlen
    have h0 : (pub_rtt.init args).sent = 0 := rfl
    obtain ⟨hinv, _, hle, _⟩ := pub_rtt.run_dur (pub_rtt.init args) es1
      (pub_rtt.init_durInv args hzero) (by rw [h0, hU]; omega)
    rw [h0] at hle
    obtain ⟨_, hmono, _, hkeep⟩ := pub_rtt.run_dur _ es2 hinv (by rw [hU]; omega)
    refine ⟨?_, hinv.1.keys_nodup, hinv.1.keys_lt, hinv.1.conserve⟩
    intro hq hnone
    exact ⟨by omega, hkeep q hq hnone⟩

/-- C8 on concrete traces. Count mode with two requests: after request 0 timed out and
request 1 was acked, late acks for both and another sweep leave the tags `3` and `2` and the
counters at one each. Duration mode: request 0 is removed by a timeout; a late ack and a
further send do not bring it back. -/
theorem resolution_at_most_once_witness :
    pub_rtt.tag (pub_rtt.run (pub_rtt.run (pub_rtt.init { count := 2 })
        [.send 0, .send 150000000, .ack 150000007 (bench.make_ack_payload 1 0 0),
         .sweep 200000000])
        [.ack 200000001 (bench.make_ack_payload 0 0 0),
         .ack 200000002 (bench.make_ack_payload 1 0 0), .sweep 900000000]) 0 = 3 ∧
    (pub_rtt.run (pub_rtt.init { count := 2 })
        [.send 0, .send 150000000, .ack 150000007 (bench.make_ack_payload 1 0 0),
         .sweep 200000000]).ack_received = 1 ∧
    pub_rtt.map_find (pub_rtt.run (pub_rtt.run (pub_rtt.init { count := 0 })
        [.send 0, .sweep 200000000])
        [.ack 200000001 (bench.make_ack_payload 0 0 0), .send 200000002]).send_map 0 = none := by
  have hc := resolution_at_most_once { count := 2 }
    [.send 0, .send 150000000, .ack 150000007 (bench.make_ack_payload 1 0 0),
     .sweep 200000000]
    [.ack 200000001 (bench.make_ack_payload 0 0 0),
     .ack 200000002 (bench.make_ack_payload 1 0 0), .sweep 900000000]
    (.sweep 0) 0 (by norm_num)
  have hd := resolution_at_most_once { count := 0 }
    [.send 0, .sweep 200000000]
    [.ack 200000001 (bench.make_ack_payload 0 0 0), .send 200000002]
    (.sweep 0) 0 (by norm_num)
  obtain ⟨_, h3, _, hack, _⟩ := hc.1 (by decide)
  refine ⟨h3 (by decide), ?_, ?_⟩
  · rw [hack]; decide
  · exact ((hd.2 rfl (by norm_num)).1 (by decide) (by decide)).2

/-! ## Minimum and maximum tracking -/

namespace OnlineStats

theorem add_min_max (s : OnlineStats) (x : ℚ) :
    (s.add x).min_v = (if lt_min_v x s.min_v then some x else s.min_v) ∧
    (s.add x).max_v = (if gt_max_v x s.max_v then some x else s.max_v) :=
  ⟨rfl, rfl⟩

/-- After feeding a non-empty sequence `min_v` and `max_v` hold its least and greatest
element; before the first sample both are infinite. -/
theorem feed_min_max (xs : List ℚ) :
    (xs = [] → (feed xs).min_v = none ∧ (feed xs).max_v = none) ∧
    (xs ≠ [] → ∃ m M, (feed xs).min_v = some m ∧ (feed xs).max_v = some M ∧
      m ∈ xs ∧ M ∈ xs ∧ ∀ x ∈ xs, m ≤ x ∧ x ≤ M) := by
  induction xs using List.reverseRecOn with
  | nil =>
    refine ⟨fun _ => ⟨rfl, rfl⟩, fun h => absurd rfl h⟩
  | append_singleton xs x ih =>
    refine ⟨fun h => absurd h (by simp), fun _ => ?_⟩
    rw [feed_snoc]
    obtain ⟨hmin, hmax⟩ := add_min_max (feed xs) x
    rw [hmin, hmax]
    rcases List.eq_nil_or_concat xs with hnil | ⟨t, b, hs⟩
    · obtain ⟨e1, e2⟩ := ih.1 hnil
      rw [e1, e2, hnil]
      refine ⟨x, x, ?_, ?_, by simp, by simp, ?_⟩
      · simp [lt_min_v]
      · simp [gt_max_v]
      · intro y hy
        simp at hy
        rw [hy]
        exact ⟨le_refl _, le_refl _⟩
    · have hne : xs ≠ [] := by
        rw [hs]
        simp
      obtain ⟨m, M, e1, e2, hm, hM, hall⟩ := ih.2 hne
      rw [e1, e2]
      simp only [lt_min_v, gt_max_v, decide_eq_true_eq]
      refine ⟨if x < m then x else m, if x > M then x else M, ?_, ?_, ?_, ?_, ?_⟩
      · split <;> rfl
      · split <;> rfl
      · split
        · simp
        · exact List.mem_append_left _ hm
      · split
        · simp
        · exact List.mem_append_left _ hM
      · intro y hy
        rcases List.mem_append.mp hy with hy | hy
        · obtain ⟨h1, h2⟩ := hall y hy
          constructor
          · split
            · linarith
            · exact h1
          · split
            · linarith
            · exact h2
        · simp at hy
          rw [hy]
          constructor
          · split
            · exact le_refl _
            · linarith
          · split
            · exact le_refl _
            · linarith

theorem length_mul_le_sum (xs : List ℚ) (m : ℚ) (h : ∀ x ∈ xs, m ≤ x) :
    (xs.length : ℚ) * m ≤ xs.sum := by
  induction xs with
  | nil => simp
  | cons a t ih =>
    have h1 := h a (List.mem_cons_self a t)
    have h2 := ih (fun x hx => h x (List.mem_cons_of_mem a hx))
    simp only [List.length_cons, List.sum_cons]
    push_cast
    linarith

theorem sum_le_length_mul (xs : List ℚ) (M : ℚ) (h : ∀ x ∈ xs, x ≤ M) :
    xs.sum ≤ (xs.length : ℚ) * M := by
  induction xs with
  | nil => simp
  | cons a t ih =>
    have h1 := h a (List.mem_cons_self a t)
    have h2 := ih (fun x hx => h x (List.mem_cons_of_mem a hx))
    simp only [List.length_cons, List.sum_cons]
    push_cast
    linarith

end OnlineStats

/-- C11: min/max tracking. For every non-empty sequence fed to `add` from the default
accumulator, `min_v` is the smallest sample and `max_v` the largest; and, for sequences
inside the range of the 64-bit counter, `min_v ≤ mean ≤ max_v`. -/
theorem min_max_tracking (xs : List ℚ) (hne : xs ≠ []) :
    ∃ m M, (OnlineStats.feed xs).min_v = some m ∧ (OnlineStats.feed xs).max_v = some M ∧
      m ∈ xs ∧ (∀ x ∈ xs, m ≤ x) ∧ M ∈ xs ∧ (∀ x ∈ xs, x ≤ M) ∧
      (xs.length < 2 ^ 64 → m ≤ (OnlineStats.feed xs).mean ∧ (OnlineStats.feed xs).mean ≤ M) := by
  obtain ⟨m, M, e1, e2, hm, hM, hall⟩ := (OnlineStats.feed_min_max xs).2 hne
  refine ⟨m, M, e1, e2, hm, fun x hx => (hall x hx).1, hM, fun x hx => (hall x hx).2, ?_⟩
  intro hlen
  obtain ⟨_, hmean, _⟩ := OnlineStats.feed_inv xs hlen
  have hpos : (0 : ℚ) < (xs.length : ℚ) := by
    have : 0 < xs.length := List.length_pos.mpr hne
    exact_mod_cast this
  have h1 := OnlineStats.length_mul_le_sum xs m (fun x hx => (hall x hx).1)
  have h2 := OnlineStats.sum_le_length_mul xs M (fun x hx => (hall x hx).2)
  rw [← hmean] at h1 h2
  exact ⟨le_of_mul_le_mul_left h1 hpos, le_of_mul_le_mul_left h2 hpos⟩

/-- C11 at the samples `5, 2, 9, 2`: the minimum is `2`, the maximum `9`. -/
theorem min_max_tracking_witness :
    (OnlineStats.feed [5, 2, 9, 2]).min_v = some 2 ∧
    (OnlineStats.feed [5, 2, 9, 2]).max_v = some 9 := by
  obtain ⟨m, M, e1, e2, hm, hmin, hM, hmax, _⟩ := min_max_tracking [5, 2, 9, 2] (by simp)
  have h2 : m = 2 := by
    have := hmin 2 (by simp)
    simp at hm
    rcases hm with h | h | h | h <;> subst h <;> first | rfl | (exfalso; norm_num at this)
  have h9 : M = 9 := by
    have := hmax 9 (by simp)
    simp at hM
    rcases hM with h | h | h | h <;> subst h <;> first | rfl | (exfalso; norm_num at this)
  rw [e1, e2, h2, h9]
  exact ⟨rfl, rfl⟩

/-! ## Send pacing -/

namespace pub_rtt

theorem deadline_after_eq (args : Args) (start_tp : Int) (its : List Iteration) :
    deadline_after args start_tp its
      = start_tp + (its.length : Int) * (interval_us args * 1000) := by
  induction its generalizing start_tp with
  | nil => simp [deadline_after]
  | cons it t ih =>
    have h : deadline_after args start_tp (it :: t)
        = deadline_after args (iterate_deadline args start_tp it) t := rfl
    rw [h, ih]
    simp only [iterate_deadline, List.length_cons]
    push_cast
    ring

theorem interval_us_bounds (args : Args) (h : 0 < args.rate_hz) :
    0 ≤ interval_us args ∧
    interval_us args * args.rate_hz ≤ 1000000 ∧
    1000000 < (interval_us args + 1) * args.rate_hz := by
  have e : interval_us args = 1000000 / args.rate_hz := by
    unfold interval_us
    exact Int.tdiv_eq_ediv (by norm_num) (le_of_lt h)
  rw [e]
  refine ⟨Int.ediv_nonneg (by norm_num) (le_of_lt h), ?_, ?_⟩
  · exact Int.ediv_mul_le _ (ne_of_gt h)
  · have := Int.lt_ediv_add_one_mul_self 1000000 h
    linarith

theorem interval_us_pos (args : Args) (h : 0 < args.rate_hz) (h2 : args.rate_hz ≤ 1000000) :
    0 < interval_us args := by
  obtain ⟨h0, _, hlt⟩ := interval_us_bounds args h
  by_contra hn
  have hz : interval_us args = 0 := by omega
  rw [hz] at hlt
  omega

theorem interval_us_zero (args : Args) (h : 1000000 < args.rate_hz) : interval_us args = 0 := by
  obtain ⟨h0, hle, _⟩ := interval_us_bounds args (by omega)
  by_contra hn
  have h1 : 1 ≤ interval_us args := by omega
  nlinarith

theorem startup_ok_rate (args : Args) (h : startup_ok args = true) : 0 < args.rate_hz := by
  simp only [startup_ok, Bool.and_eq_true, Bool.not_eq_true', decide_eq_false_iff_not] at h
  omega

end pub_rtt

/-- C13 (as amended): drift-free scheduling. For a positive rate the deadline at the end of
an iteration does not depend on the clock readings of that iteration; after `k` iterations
it is `start + k * interval`, where `interval` is `1000000 / rate_hz` rounded down to whole
microseconds. The scheduled time of `k` sends is `k / rate_hz` seconds when `rate_hz`
divides `1000000`; in general it is at most that and short of it by less than one
microsecond per send. -/
theorem drift_free_schedule (args : pub_rtt.Args) (start_tp : Int)
    (its : List pub_rtt.Iteration) (hrate : 0 < args.rate_hz) :
    (∀ (ns : Int) (it1 it2 : pub_rtt.Iteration),
      pub_rtt.iterate_deadline args ns it1 = pub_rtt.iterate_deadline args ns it2 ∧
      pub_rtt.iterate_deadline args ns it1 = ns + pub_rtt.interval_us args * 1000) ∧
    pub_rtt.deadline_after args start_tp its
      = start_tp + (its.length : Int) * (pub_rtt.interval_us args * 1000) ∧
    (pub_rtt.interval_us args * args.rate_hz ≤ 1000000 ∧
      1000000 < (pub_rtt.interval_us args + 1) * args.rate_hz) ∧
    (args.rate_hz ∣ 1000000 →
      ((pub_rtt.deadline_after args start_tp its - start_tp : Int) : ℚ) / 1000000000
        = (its.length : ℚ) / (args.rate_hz : ℚ)) ∧
    ((pub_rtt.deadline_after args start_tp its - start_tp) * args.rate_hz
        ≤ (its.length : Int) * 1000000000 ∧
      (its.length : Int) * 1000000000
        ≤ (pub_rtt.deadline_after args start_tp its - start_tp) * args.rate_hz
          + (its.length : Int) * 1000 * (args.rate_hz - 1)) := by
  obtain ⟨h0, hle, hlt⟩ := pub_rtt.interval_us_bounds args hrate
  have hD := pub_rtt.deadline_after_eq args start_tp its
  have hk : (0 : Int) ≤ (its.length : Int) := Int.natCast_nonneg _
  refine ⟨fun ns it1 it2 => ⟨rfl, rfl⟩, hD, ⟨hle, hlt⟩, ?_, ?_, ?_⟩
  · intro hdvd
    obtain ⟨c, hc⟩ := hdvd
    have hi : pub_rtt.interval_us args = c := by
      have h1 : pub_rtt.interval_us args * args.rate_hz ≤ args.rate_hz * c := by rw [← hc]; exact hle
      have h2 : args.rate_hz * c < (pub_rtt.interval_us args + 1) * args.rate_hz := by
        rw [← hc]; exact hlt
      have h3 : pub_rtt.interval_us args ≤ c := by nlinarith
      have h4 : c < pub_rtt.interval_us args + 1 := by nlinarith
      omega
    have hq : (args.rate_hz : ℚ) ≠ 0 := by
      have : args.rate_hz ≠ 0 := ne_of_gt hrate
      exact_mod_cast this
    have hcq : (1000000 : ℚ) = (args.rate_hz : ℚ) * (c : ℚ) := by exact_mod_cast hc
    rw [hD, hi, div_eq_div_iff (by norm_num) hq]
    push_cast
    linear_combination (-(1000 : ℚ) * (its.length : ℚ)) * hcq
  · rw [hD]
    have : start_tp + (its.length : Int) * (pub_rtt.interval_us args * 1000) - start_tp
        = (its.length : Int) * (pub_rtt.interval_us args * 1000) := by ring
    rw [this]
    nlinarith
  · rw [hD]
    have : start_tp + (its.length : Int) * (pub_rtt.interval_us args * 1000) - start_tp
        = (its.length : Int) * (pub_rtt.interval_us args * 1000) := by ring
    rw [this]
    have h5 : 1000000 ≤ pub_rtt.interval_us args * args.rate_hz + (args.rate_hz - 1) := by
      linarith
    nlinarith

/-- C13 at 100 sends with `rate_hz = 1000` from `start = 5`, each iteration running late:
the deadline is `5 ns + 100 ms`. -/
theorem drift_free_schedule_witness :
    pub_rtt.deadline_after { rate_hz := 1000 } 5
      (List.replicate 100 { now_tp := 999999999, send_tp := 999999999 }) = 5 + 100000000 := by
  have h := (drift_free_schedule { rate_hz := 1000 } 5
    (List.replicate 100 { now_tp := 999999999, send_tp := 999999999 }) (by decide)).2.1
  rw [h]
  have hi : pub_rtt.interval_us { rate_hz := 1000 } = 1000 := by decide
  rw [hi, List.length_replicate]
  norm_num

/-- C13 fails as stated at `rate_hz = 3`, which the start-up checks accept: three sends are
scheduled over `999999` microseconds, not over `3 / 3` seconds. -/
theorem drift_free_counterexample :
    pub_rtt.startup_ok { rate_hz := 3 } = true ∧
    pub_rtt.deadline_after { rate_hz := 3 } 0
      [{ now_tp := 0, send_tp := 0 }, { now_tp := 0, send_tp := 0 },
       { now_tp := 0, send_tp := 0 }] - 0 = 999999000 ∧
    (((pub_rtt.deadline_after { rate_hz := 3 } 0
      [{ now_tp := 0, send_tp := 0 }, { now_tp := 0, send_tp := 0 },
       { now_tp := 0, send_tp := 0 }] - 0 : Int) : ℚ) / 1000000000 ≠ (3 : ℚ) / (3 : ℚ)) := by
  have hd : pub_rtt.deadline_after { rate_hz := 3 } 0
      [{ now_tp := 0, send_tp := 0 }, { now_tp := 0, send_tp := 0 },
       { now_tp := 0, send_tp := 0 }] - 0 = 999999000 := by decide
  refine ⟨by decide, hd, ?_⟩
  rw [hd]
  norm_num

/-- C14 (as amended): strictly advancing deadline. For every rate that the start-up checks
accept and that is at most `1000000`, the interval is at least one microsecond and the
deadline is strictly greater after each iteration. For every accepted rate the interval is
non-negative and the deadline never moves back; above `1000000` the interval is zero. -/
theorem strictly_advancing_deadline (args : pub_rtt.Args)
    (hok : pub_rtt.startup_ok args = true) :
    (args.rate_hz ≤ 1000000 →
      0 < pub_rtt.interval_us args ∧
      ∀ (ns : Int) (it : pub_rtt.Iteration), ns < pub_rtt.iterate_deadline args ns it) ∧
    (0 ≤ pub_rtt.interval_us args ∧
      ∀ (ns : Int) (it : pub_rtt.Iteration), ns ≤ pub_rtt.iterate_deadline args ns it) ∧
    (1000000 < args.rate_hz → pub_rtt.interval_us args = 0) := by
  have hrate := pub_rtt.startup_ok_rate args hok
  obtain ⟨h0, _, _⟩ := pub_rtt.interval_us_bounds args hrate
  refine ⟨?_, ⟨h0, ?_⟩, pub_rtt.interval_us_zero args⟩
  · intro hmax
    have hpos := pub_rtt.interval_us_pos args hrate hmax
    refine ⟨hpos, ?_⟩
    intro ns it
    simp only [pub_rtt.iterate_deadline]
    omega
  · intro ns it
    simp only [pub_rtt.iterate_deadline]
    omega

/-- C14 at the default rate `1000`: the interval is positive and an iteration moves the
deadline from `5` to `1000005` nanoseconds. -/
theorem strictly_advancing_deadline_witness :
    0 < pub_rtt.interval_us { rate_hz := 1000 } ∧
    (5 : Int) < pub_rtt.iterate_deadline { rate_hz := 1000 } 5 { now_tp := 0, send_tp := 9 } :=
  ⟨((strictly_advancing_deadline { rate_hz := 1000 } (by decide)).1 (by decide)).1,
   ((strictly_advancing_deadline { rate_hz := 1000 } (by decide)).1 (by decide)).2 5
     { now_tp := 0, send_tp := 9 }⟩

/-- C14 fails as stated at `rate_hz = 2000000`, which the start-up checks accept: the
interval is zero and the deadline is the same after an iteration. -/
theorem strictly_advancing_counterexample :
    pub_rtt.startup_ok { rate_hz := 2000000 } = true ∧
    ¬ (0 < pub_rtt.interval_us { rate_hz := 2000000 }) ∧
    ¬ ((7 : Int) < pub_rtt.iterate_deadline { rate_hz := 2000000 } 7
        { now_tp := 7, send_tp := 8 }) := by
  decide

/-! ## Inter-arrival sampling of the responder -/

namespace echo_ack

theorem gaps_us_snoc (ts : List Int) (t : Int) :
    gaps_us (ts ++ [t])
      = gaps_us ts ++
        (match ts.getLast? with
          | some l => [pub_rtt.to_us (t - l)]
          | none => []) := by
  induction ts with
  | nil => simp [gaps_us]
  | cons a rest ih =>
    cases rest with
    | nil => simp [gaps_us]
    | cons b r =>
      have h1 : gaps_us (a :: b :: r ++ [t])
          = pub_rtt.to_us (b - a) :: gaps_us (b :: r ++ [t]) := by
        simp [gaps_us]
      have h2 : gaps_us (a :: b :: r) = pub_rtt.to_us (b - a) :: gaps_us (b :: r) := by
        simp [gaps_us]
      have h3 : (a :: b :: r).getLast? = (b :: r).getLast? := by
        simp [List.getLast?_cons_cons]
      rw [h1, h2, h3, ih, List.cons_append]

theorem gaps_us_length (ts : List Int) : (gaps_us ts).length = ts.length - 1 := by
  simp [gaps_us, List.length_zipWith]

theorem gaps_us_get (ts : List Int) (i : Nat) (h : i + 1 < ts.length) :
    (gaps_us ts)[i]? = some (pub_rtt.to_us (ts.getD (i + 1) 0 - ts.getD i 0)) := by
  have h1 : ts[i]? = some (ts.getD i 0) := by
    rw [List.getD_eq_getElem?_getD, List.getElem?_eq_getElem (by omega)]
    rfl
  have h2 : ts.tail[i]? = some (ts.getD (i + 1) 0) := by
    rw [List.getD_eq_getElem?_getD, List.getElem?_tail, List.getElem?_eq_getElem (by omega)]
    rfl
  simp only [gaps_us, List.getElem?_zipWith, h1, h2]

theorem decoded_arrivals_snoc (ds : List Delivery) (d : Delivery) :
    decoded_arrivals (ds ++ [d])
      = decoded_arrivals ds ++ ((decode_req d.payload).map (fun _ => d.now_tp)).toList := by
  unfold decoded_arrivals
  rw [List.filterMap_append]
  cases h : decode_req d.payload <;> simp [h]

/-- Along any sequence of deliveries the receive counter, the reference point and the
inter-arrival accumulator are determined by the arrival times of the decoded requests. -/
theorem responder_arrival_inv (ds : List Delivery) :
    (run {} ds).recv_count = (decoded_arrivals ds).length % U64 ∧
    (run {} ds).have_prev = (decoded_arrivals ds).getLast?.isSome ∧
    (run {} ds).prev_tp = (decoded_arrivals ds).getLast?.getD 0 ∧
    (run {} ds).interarrival_us = OnlineStats.feed (gaps_us (decoded_arrivals ds)) := by
  induction ds using List.reverseRecOn with
  | nil => simp [run, decoded_arrivals, gaps_us, OnlineStats.feed]
  | append_singleton ds d ih =>
    obtain ⟨h1, h2, h3, h4⟩ := ih
    rw [responder_run_snoc, decoded_arrivals_snoc]
    cases hd : decode_req d.payload with
    | none =>
      rw [on_req_undecoded _ _ _ _ _ hd]
      simp only [Option.map_none', Option.toList, List.append_nil]
      exact ⟨h1, h2, h3, h4⟩
    | some a =>
      rw [on_req_decoded _ _ _ _ _ a hd]
      simp only [Option.map_some', Option.toList]
      refine ⟨?_, ?_, ?_, ?_⟩
      · simp only [h1, List.length_append, List.length_singleton]
        exact Nat.mod_add_mod _ _ _
      · simp
      · simp
      · rw [gaps_us_snoc, h2, h3, h4]
        cases hl : (decoded_arrivals ds).getLast? with
        | none => simp
        | some l =>
          simp only [Option.isSome_some, if_true, Option.getD_some]
          rw [OnlineStats.feed_snoc]

end echo_ack

/-- C15: inter-arrival sampling skips the first message. After any sequence of deliveries
of which `k ≥ 1` decode (with `k` inside the range of the 64-bit counter), `recv_count` is
`k` and the inter-arrival accumulator is the result of feeding exactly `k - 1` samples, the
`i`-th being the time in microseconds from the `i`-th to the `(i+1)`-th decoded arrival; a
delivery that does not decode leaves the whole state, reference point included, unchanged. -/
theorem interarrival_sampling (ds : List echo_ack.Delivery)
    (hk : 1 ≤ (echo_ack.decoded_arrivals ds).length)
    (hlt : (echo_ack.decoded_arrivals ds).length < 2 ^ 64) :
    (echo_ack.run {} ds).recv_count = (echo_ack.decoded_arrivals ds).length ∧
    (echo_ack.run {} ds).interarrival_us
      = OnlineStats.feed (echo_ack.gaps_us (echo_ack.decoded_arrivals ds)) ∧
    (echo_ack.gaps_us (echo_ack.decoded_arrivals ds)).length
      = (echo_ack.decoded_arrivals ds).length - 1 ∧
    (echo_ack.run {} ds).interarrival_us.n = (echo_ack.decoded_arrivals ds).length - 1 ∧
    (∀ i, i + 1 < (echo_ack.decoded_arrivals ds).length →
      (echo_ack.gaps_us (echo_ack.decoded_arrivals ds))[i]?
        = some (pub_rtt.to_us ((echo_ack.decoded_arrivals ds).getD (i + 1) 0
            - (echo_ack.decoded_arrivals ds).getD i 0))) ∧
    (∀ (s : echo_ack.Responder) (d : echo_ack.Delivery),
      echo_ack.decode_req d.payload = none →
        echo_ack.run s [d] = s ∧ echo_ack.decoded_arrivals (ds ++ [d]) = echo_ack.decoded_arrivals ds) := by
  obtain ⟨h1, _, _, h4⟩ := echo_ack.responder_arrival_inv ds
  have hU : U64 = 2 ^ 64 := rfl
  have hlen := echo_ack.gaps_us_length (echo_ack.decoded_arrivals ds)
  refine ⟨?_, h4, hlen, ?_, ?_, ?_⟩
  · rw [h1, hU]
    exact Nat.mod_eq_of_lt hlt
  · rw [h4, (OnlineStats.feed_inv _ (by rw [hlen]; omega)).1, hlen]
  · intro i hi
    exact echo_ack.gaps_us_get _ i hi
  · intro s d hd
    constructor
    · simp only [echo_ack.run, List.foldl_cons, List.foldl_nil]
      rw [echo_ack.on_req_undecoded _ _ _ _ _ hd]
    · rw [echo_ack.decoded_arrivals_snoc, hd]
      simp

/-- C15 on four deliveries, the second malformed: requests arrive at 1000 ns, 4000 ns and
9000 ns, so `recv_count = 3` and the accumulator has been fed the two gaps `3` and `5`
microseconds. -/
theorem interarrival_sampling_witness :
    (echo_ack.run {}
      [{ now_tp := 1000, srv_recv_ns := 0, srv_send_ns := 0, payload := bench.make_req_payload 1 0 },
       { now_tp := 2500, srv_recv_ns := 0, srv_send_ns := 0, payload := [1, 2, 3] },
       { now_tp := 4000, srv_recv_ns := 0, srv_send_ns := 0, payload := bench.make_req_payload 2 0 },
       { now_tp := 9000, srv_recv_ns := 0, srv_send_ns := 0, payload := bench.make_req_payload 3 0 }]
      ).recv_count = 3 ∧
    (echo_ack.run {}
      [{ now_tp := 1000, srv_recv_ns := 0, srv_send_ns := 0, payload := bench.make_req_payload 1 0 },
       { now_tp := 2500, srv_recv_ns := 0, srv_send_ns := 0, payload := [1, 2, 3] },
       { now_tp := 4000, srv_recv_ns := 0, srv_send_ns := 0, payload := bench.make_req_payload 2 0 },
       { now_tp := 9000, srv_recv_ns := 0, srv_send_ns := 0, payload := bench.make_req_payload 3 0 }]
      ).interarrival_us = OnlineStats.feed [3, 5] := by
  have hts : echo_ack.decoded_arrivals
      [{ now_tp := 1000, srv_recv_ns := 0, srv_send_ns := 0, payload := bench.make_req_payload 1 0 },
       { now_tp := 2500, srv_recv_ns := 0, srv_send_ns := 0, payload := [1, 2, 3] },
       { now_tp := 4000, srv_recv_ns := 0, srv_send_ns := 0, payload := bench.make_req_payload 2 0 },
       { now_tp := 9000, srv_recv_ns := 0, srv_send_ns := 0, payload := bench.make_req_payload 3 0 }]
      = [1000, 4000, 9000] := by
    simp [echo_ack.decoded_arrivals, echo_ack.decode_req_make,
      echo_ack.decode_req_short [1, 2, 3] (by decide)]
  have hg : echo_ack.gaps_us [1000, 4000, 9000] = [3, 5] := by
    simp [echo_ack.gaps_us, pub_rtt.to_us]
    norm_num
  have h := interarrival_sampling _ (by rw [hts]; decide) (by rw [hts]; norm_num)
  rw [hts, hg] at h
  exact ⟨h.1, h.2.1⟩

/-! ## Accounting conservation -/

namespace pub_rtt

theorem step_args (s : Sender) (e : Event) : (step s e).args = s.args := by
  cases e with
  | send tp => exact (on_send_frame s tp).1
  | sweep now => exact (sweep_frame now s).1
  | ack now payload =>
    simp only [step]
    cases hd : decode_ack payload with
    | none => rw [on_ack_undecoded s now payload hd]
    | some a => exact (on_ack_ooo s now payload a hd).2.2.2

theorem run_args (s : Sender) (es : List Event) : (run s es).args = s.args := by
  induction es generalizing s with
  | nil => rfl
  | cons e t ih =>
    have h : run s (e :: t) = run (step s e) t := rfl
    rw [h, ih, step_args]

/-- A table whose first `n` tags are 1, 2 or 3 and whose other tags are 0 has `n` entries
tagged 1, 2 or 3 in total. -/
theorem tag_partition (l : List Nat) (n : Nat) (hn : n ≤ l.length)
    (h1 : ∀ q, q < n → l.getD q 0 = 1 ∨ l.getD q 0 = 2 ∨ l.getD q 0 = 3)
    (h0 : ∀ q, n ≤ q → l.getD q 0 = 0) :
    l.count 1 + l.count 2 + l.count 3 = n := by
  induction l generalizing n with
  | nil =>
    simp at hn
    simp [hn]
  | cons x t ih =>
    cases n with
    | zero =>
      have hx : x = 0 := h0 0 (le_refl _)
      have ht := ih 0 (Nat.zero_le _) (fun q hq => absurd hq (Nat.not_lt_zero q))
        (fun q _ => h0 (q + 1) (Nat.zero_le _))
      subst hx
      simp only [List.count_cons]
      simp
      omega
    | succ m =>
      have hx : x = 1 ∨ x = 2 ∨ x = 3 := h1 0 (Nat.succ_pos m)
      have ht := ih m (by simpa using hn)
        (fun q hq => h1 (q + 1) (by omega))
        (fun q hq => h0 (q + 1) (by omega))
      simp only [List.count_cons]
      rcases hx with hx | hx | hx <;> subst hx <;> simp <;> omega

theorem foldl_count_one (l : List Nat) (acc : Nat) (h : acc + l.count 1 < U64) :
    l.foldl (fun a st => if st = 1 then (a + 1) % U64 else a) acc = acc + l.count 1 := by
  induction l generalizing acc with
  | nil => simp
  | cons x t ih =>
    simp only [List.foldl_cons, List.count_cons] at h ⊢
    by_cases hx : x = 1
    · subst hx
      simp only [if_true, beq_self_eq_true] at h ⊢
      rw [Nat.mod_eq_of_lt (by omega), ih _ (by omega)]
      omega
    · have hb : (x == 1) = false := by simpa using hx
      simp only [hx, hb, if_false, Bool.false_eq_true, Nat.add_zero] at h ⊢
      exact ih _ h

theorem pending_inflight_count (s : Sender) (h : CountCore s) :
    pending_inflight s = s.state.count 1 ∧
    s.sent = s.ack_received + s.timeouts + s.state.count 1 := by
  have hle : s.state.count 1 ≤ s.args.count := by
    have := List.count_le_length 1 s.state
    rw [h.state_len] at this
    exact this
  constructor
  · unfold pending_inflight
    rw [if_pos h.count_pos, foldl_count_one _ _ (by have := h.count_lt; omega)]
    omega
  · have hp := tag_partition s.state s.sent (by rw [h.state_len]; exact h.sent_le)
      h.sent_tag h.unsent
    rw [h.acked, h.timed]
    omega

theorem pending_inflight_dur (s : Sender) (h : DurCore s) :
    pending_inflight s = s.send_map.length ∧
    s.sent = s.ack_received + s.timeouts + s.send_map.length := by
  constructor
  · unfold pending_inflight
    rw [if_neg (by rw [h.count_zero]; decide)]
  · exact h.conserve.symm

end pub_rtt

namespace pub_rtt

/-- The ack handler either leaves the RTT data and `ack_received` alone, or counts one ack
and feeds one sample to both the accumulator and the sample list. -/
theorem on_ack_rtt (s : Sender) (now : Int) (payload : List Byte)
    (hroom : ∀ a, decode_ack payload = some a → pending s a ≠ none →
      s.ack_received + 1 < U64) :
    ((on_ack s now payload).ack_received = s.ack_received ∧
      (on_ack s now payload).rtt_us_samples = s.rtt_us_samples ∧
      (on_ack s now payload).rtt_us_stats = s.rtt_us_stats) ∨
    (∃ r, (on_ack s now payload).ack_received = s.ack_received + 1 ∧
      (on_ack s now payload).rtt_us_samples = s.rtt_us_samples ++ [r] ∧
      (on_ack s now payload).rtt_us_stats = s.rtt_us_stats.add r) := by
  cases hd : decode_ack payload with
  | none =>
    rw [on_ack_undecoded s now payload hd]
    exact Or.inl ⟨rfl, rfl, rfl⟩
  | some a =>
    by_cases hc : 0 < s.args.count
    · by_cases hit : a < s.args.count ∧ s.state.getD a 0 = 1
      · obtain ⟨_, e2, _, _, _, _, _, e8, e9⟩ :=
          on_ack_count_hit s now payload a hd hc hit.1 hit.2
        have hp : pending s a ≠ none := by
          simp only [pending]
          rw [if_pos hc, if_pos hit.2]
          exact Option.some_ne_none _
        refine Or.inr ⟨_, ?_, e8, e9⟩
        rw [e2, Nat.mod_eq_of_lt (hroom a hd hp)]
      · have hst : (0 < s.args.count ∧ (s.args.count ≤ a ∨ s.state.getD a 0 ≠ 1)) ∨
            (s.args.count = 0 ∧ map_find s.send_map a = none) := by
          refine Or.inl ⟨hc, ?_⟩
          by_cases ha : a < s.args.count
          · exact Or.inr (fun h1 => hit ⟨ha, h1⟩)
          · exact Or.inl (by omega)
        obtain ⟨e1, _, e3, e4, _⟩ := on_ack_stale s now payload a hd hst
        exact Or.inl ⟨e1, e4, e3⟩
    · have hz : s.args.count = 0 := by omega
      cases hf : map_find s.send_map a with
      | none =>
        obtain ⟨e1, _, e3, e4, _⟩ := on_ack_stale s now payload a hd (Or.inr ⟨hz, hf⟩)
        exact Or.inl ⟨e1, e4, e3⟩
      | some ts =>
        obtain ⟨_, e2, _, _, _, _, _, e8, e9⟩ := on_ack_dur_hit s now payload a ts hd hz hf
        have hp : pending s a ≠ none := by
          simp only [pending]
          rw [if_neg hc, hf]
          exact Option.some_ne_none _
        refine Or.inr ⟨_, ?_, e8, e9⟩
        rw [e2, Nat.mod_eq_of_lt (hroom a hd hp)]

/-- In a well-formed state an inflight entry leaves room for one more ack in the 64-bit
counter. -/
theorem ack_room (s : Sender) (h : CountInv s ∨ DurInv s) (a : Nat)
    (hp : pending s a ≠ none) : s.ack_received + 1 < U64 := by
  rcases h with h | h
  · have hc := h.1
    simp only [pending] at hp
    rw [if_pos hc.count_pos] at hp
    have h1 : s.state.getD a 0 = 1 := by
      by_contra hne
      rw [if_neg hne] at hp
      exact hp rfl
    have hlen : a < s.state.length := by
      by_contra hn
      have : s.state.getD a 0 = 0 := by
        rw [List.getD_eq_getElem?_getD, List.getElem?_eq_none (by omega)]
        rfl
      omega
    have hcnt : (s.state.set a 2).count 2 = s.state.count 2 + 1 :=
      count_set_new _ _ _ hlen (by rw [h1]; decide)
    have hle := List.count_le_length 2 (s.state.set a 2)
    rw [List.length_set, hc.state_len] at hle
    have := hc.count_lt
    rw [hc.acked]
    omega
  · have hc := h.1
    simp only [pending] at hp
    rw [if_neg (by rw [hc.count_zero]; decide)] at hp
    cases hf : map_find s.send_map a with
    | none => exact absurd hf hp
    | some ts =>
      have := dur_count_room s a hc (map_find_some_mem _ _ _ hf)
      omega

theorem step_rtt (s : Sender) (e : Event) (h : CountInv s ∨ DurInv s)
    (hr : s.rtt_us_stats = OnlineStats.feed s.rtt_us_samples ∧
      s.rtt_us_samples.length = s.ack_received) :
    (step s e).rtt_us_stats = OnlineStats.feed (step s e).rtt_us_samples ∧
    (step s e).rtt_us_samples.length = (step s e).ack_received := by
  obtain ⟨hr1, hr2⟩ := hr
  cases e with
  | send tp =>
    obtain ⟨_, _, _, _, f5, _, f7, f8⟩ := on_send_frame s tp
    simp only [step]
    rw [f5, f7, f8]
    exact ⟨hr1, hr2⟩
  | sweep now =>
    obtain ⟨_, _, _, _, f5, f6, f7, _⟩ := sweep_frame now s
    simp only [step]
    rw [f5, f6, f7]
    exact ⟨hr1, hr2⟩
  | ack now payload =>
    simp only [step]
    rcases on_ack_rtt s now payload (fun a _ hp => ack_room s h a hp) with
      ⟨e1, e2, e3⟩ | ⟨r, e1, e2, e3⟩
    · rw [e1, e2, e3]
      exact ⟨hr1, hr2⟩
    · rw [e1, e2, e3, hr1, OnlineStats.feed_snoc, List.length_append, List.length_singleton, hr2]
      exact ⟨rfl, rfl⟩

theorem run_rtt_count (s : Sender) (es : List Event) (h : CountInv s)
    (hr : s.rtt_us_stats = OnlineStats.feed s.rtt_us_samples ∧
      s.rtt_us_samples.length = s.ack_received) :
    (run s es).rtt_us_stats = OnlineStats.feed (run s es).rtt_us_samples ∧
    (run s es).rtt_us_samples.length = (run s es).ack_received := by
  induction es generalizing s with
  | nil => exact hr
  | cons e t ih =>
    exact ih (step s e) (step_count s e h).1 (step_rtt s e (Or.inl h) hr)

theorem run_rtt_dur (s : Sender) (es : List Event) (h : DurInv s)
    (hb : s.sent + es.length < U64)
    (hr : s.rtt_us_stats = OnlineStats.feed s.rtt_us_samples ∧
      s.rtt_us_samples.length = s.ack_received) :
    (run s es).rtt_us_stats = OnlineStats.feed (run s es).rtt_us_samples ∧
    (run s es).rtt_us_samples.length = (run s es).ack_received := by
  induction es generalizing s with
  | nil => exact hr
  | cons e t ih =>
    simp only [List.length_cons] at hb
    obtain ⟨h1, _, h3, _⟩ := step_dur s e h (by omega)
    exact ih (step s e) h1 (by omega) (step_rtt s e (Or.inr h) hr)

/-- Every state reached from the initial state (inside the 64-bit range of `sent` in
duration mode) satisfies the invariant of its mode and keeps the RTT accumulator equal to
the accumulator fed with the retained samples, one per counted ack. -/
theorem reachable_inv (args : Args) (es : List Event) (hcount : args.count < U64)
    (hlen : args.count = 0 → es.length < U64) :
    (CountInv (run (init args) es) ∨ DurInv (run (init args) es)) ∧
    (run (init args) es).rtt_us_stats = OnlineStats.feed (run (init args) es).rtt_us_samples ∧
    (run (init args) es).rtt_us_samples.length = (run (init args) es).ack_received := by
  have hr0 : (init args).rtt_us_stats = OnlineStats.feed (init args).rtt_us_samples ∧
      (init args).rtt_us_samples.length = (init args).ack_received := ⟨rfl, rfl⟩
  by_cases hc : 0 < args.count
  · have hinv := init_countInv args hc hcount
    exact ⟨Or.inl (run_count _ es hinv), run_rtt_count _ es hinv hr0⟩
  · have hz : args.count = 0 := by omega
    have hinv := init_durInv args hz
    have hb : (init args).sent + es.length < U64 := by
      have h0 : (init args).sent = 0 := rfl
      have := hlen hz
      omega
    exact ⟨Or.inr (run_dur _ es hinv hb).1, run_rtt_dur _ es hinv hb hr0⟩

end pub_rtt

/-- C16: accounting conservation. In every state reached from the initial state by send,
ack and sweep steps (inside the 64-bit range of `sent` in duration mode),
`sent = ack_received + timeouts + pending_inflight`, where `pending_inflight` is the number
of entries tagged 1 in count mode and the size of `send_map` in duration mode; the retained
RTT sample list has `ack_received` elements and the RTT accumulator has `n = ack_received`. -/
theorem accounting_conservation (args : pub_rtt.Args) (es : List pub_rtt.Event)
    (hcount : args.count < 2 ^ 64) (hlen : args.count = 0 → es.length < 2 ^ 64) :
    (pub_rtt.run (pub_rtt.init args) es).sent
      = (pub_rtt.run (pub_rtt.init args) es).ack_received
        + (pub_rtt.run (pub_rtt.init args) es).timeouts
        + pub_rtt.pending_inflight (pub_rtt.run (pub_rtt.init args) es) ∧
    (0 < args.count →
      pub_rtt.pending_inflight (pub_rtt.run (pub_rtt.init args) es)
        = (pub_rtt.run (pub_rtt.init args) es).state.count 1) ∧
    (args.count = 0 →
      pub_rtt.pending_inflight (pub_rtt.run (pub_rtt.init args) es)
        = (pub_rtt.run (pub_rtt.init args) es).send_map.length) ∧
    (pub_rtt.run (pub_rtt.init args) es).rtt_us_samples.length
      = (pub_rtt.run (pub_rtt.init args) es).ack_received ∧
    (pub_rtt.run (pub_rtt.init args) es).rtt_us_stats.n
      = (pub_rtt.run (pub_rtt.init args) es).ack_received := by
  obtain ⟨hinv, hstats, hsamples⟩ := pub_rtt.reachable_inv args es hcount hlen
  have hargs : (pub_rtt.run (pub_rtt.init args) es).args = args :=
    pub_rtt.run_args (pub_rtt.init args) es
  have hackLt : (pub_rtt.run (pub_rtt.init args) es).ack_received < 2 ^ 64 := by
    rcases hinv with h | h
    · have h1 := h.1.acked
      have h2 := List.count_le_length 2 (pub_rtt.run (pub_rtt.init args) es).state
      rw [h.1.state_len, hargs] at h2
      omega
    · have h1 := h.1.conserve
      have h2 := h.1.sent_lt
      have hU : U64 = 2 ^ 64 := rfl
      omega
  have hn : (pub_rtt.run (pub_rtt.init args) es).rtt_us_stats.n
      = (pub_rtt.run (pub_rtt.init args) es).ack_received := by
    rw [hstats, (OnlineStats.feed_inv _ (by rw [hsamples]; exact hackLt)).1, hsamples]
  rcases hinv with h | h
  · obtain ⟨hp, hcons⟩ := pub_rtt.pending_inflight_count _ h.1
    refine ⟨by rw [hp]; exact hcons, fun _ => hp, ?_, hsamples, hn⟩
    intro hz
    have := h.1.count_pos
    rw [hargs] at this
    omega
  · obtain ⟨hp, hcons⟩ := pub_rtt.pending_inflight_dur _ h.1
    refine ⟨by rw [hp]; exact hcons, ?_, fun _ => hp, hsamples, hn⟩
    intro hpos
    have := h.1.count_zero
    rw [hargs] at this
    omega

/-- C16 on a count-mode run of three requests: one acked, one timed out, one still
inflight, with a late ack ignored. -/
theorem accounting_conservation_witness :
    (pub_rtt.run (pub_rtt.init { count := 3 })
      [.send 0, .send 150000000, .ack 150000007 (bench.make_ack_payload 1 0 0),
       .sweep 200000000, .send 250000000, .ack 250000001 (bench.make_ack_payload 0 0 0)]).sent
      = 1 + 1 + 1 ∧
    (pub_rtt.run (pub_rtt.init { count := 3 })
      [.send 0, .send 150000000, .ack 150000007 (bench.make_ack_payload 1 0 0),
       .sweep 200000000, .send 250000000, .ack 250000001 (bench.make_ack_payload 0 0 0)]
      ).rtt_us_stats.n = 1 := by
  have h := accounting_conservation { count := 3 }
    [.send 0, .send 150000000, .ack 150000007 (bench.make_ack_payload 1 0 0),
     .sweep 200000000, .send 250000000, .ack 250000001 (bench.make_ack_payload 0 0 0)]
    (by norm_num) (by intro h; exact absurd h (by decide))
  obtain ⟨h1, _, _, _, h5⟩ := h
  refine ⟨?_, ?_⟩
  · rw [h1]; decide
  · rw [h5]; decide

/-! ## Timeout sweep postcondition -/

namespace pub_rtt

theorem tag_after_timeout (s : Sender) (a q t : Nat) (hlen : a < s.state.length) :
    tag { s with state := s.state.set a 3, timeouts := t } q
      = if a = q then 3 else tag s q := by
  simp only [tag]
  rw [getD_set_nat]
  by_cases e : a = q
  · rw [if_pos ⟨e, hlen⟩, if_pos e]
  · rw [if_neg (fun h => e h.1), if_neg e]

theorem sweep_loop_post_count (now : Int) (l : List Nat) (s : Sender) (hc : CountCore s)
    (hl : ∀ q ∈ l, q < s.sent) (hnd : l.Nodup) :
    ∃ popped, l = popped ++ (sweep_loop now l s).inflight ∧
      (∀ q ∈ popped, tag s q = 1 → timeout_ns s.args < now - s.send_ts.getD q 0) ∧
      (∀ q, tag (sweep_loop now l s) q
        = if q ∈ popped ∧ tag s q = 1 then 3 else tag s q) ∧
      (sweep_loop now l s).timeouts
        = s.timeouts + (popped.filter (fun q => decide (tag s q = 1))).length ∧
      ((sweep_loop now l s).inflight = [] ∨
        ∃ f rest, (sweep_loop now l s).inflight = f :: rest ∧ tag s f = 1 ∧
          now - s.send_ts.getD f 0 ≤ timeout_ns s.args) := by
  induction l generalizing s with
  | nil =>
    refine ⟨[], ?_, ?_, ?_, ?_, Or.inl ?_⟩
    · simp [sweep_loop]
    · intro q hq
      simp at hq
    · intro q
      simp [sweep_loop, tag]
    · simp [sweep_loop]
    · simp [sweep_loop]
  | cons a t ih =>
    have ha : a < s.sent := hl a (List.mem_cons_self a t)
    have ht : ∀ q ∈ t, q < s.sent := fun q hq => hl q (List.mem_cons_of_mem a hq)
    have hat : a ∉ t := (List.nodup_cons.mp hnd).1
    have hndt : t.Nodup := (List.nodup_cons.mp hnd).2
    have hlen : a < s.state.length := by
      rw [hc.state_len]
      have := hc.sent_le
      omega
    simp only [sweep_loop]
    rw [if_pos hc.count_pos]
    by_cases hst : s.state.getD a 0 = 2 ∨ s.state.getD a 0 = 3
    · rw [if_pos hst]
      have hne1 : ¬ tag s a = 1 := by
        simp only [tag]
        omega
      obtain ⟨popped, h1, h2, h3, h4, h5⟩ := ih s hc ht hndt
      refine ⟨a :: popped, ?_, ?_, ?_, ?_, h5⟩
      · rw [List.cons_append, ← h1]
      · intro q hq hq1
        rcases List.mem_cons.mp hq with e | hq
        · rw [e] at hq1
          exact absurd hq1 hne1
        · exact h2 q hq hq1
      · intro q
        rw [h3 q]
        by_cases e : q = a
        · subst e
          rw [if_neg (fun h => hne1 h.2), if_neg (fun h => hne1 h.2)]
        · simp only [List.mem_cons, e, false_or]
      · rw [h4, List.filter_cons_of_neg (by simpa using hne1)]
    · rw [if_neg hst]
      have h1a : tag s a = 1 := by
        rcases hc.sent_tag a ha with h | h | h
        · exact h
        · exact absurd (Or.inl h) hst
        · exact absurd (Or.inr h) hst
      by_cases hage : now - s.send_ts.getD a 0 > timeout_ns s.args
      · rw [if_pos hage]
        have hc2 := (countCore_timeout s a hc ha h1a).1
        generalize hs2 : ({ s with state := s.state.set a 3, timeouts := (s.timeouts + 1) % U64 } : Sender) = s2 at hc2 ⊢
        have hstate : s2.state = s.state.set a 3 := by rw [← hs2]
        have hts : s2.send_ts = s.send_ts := by rw [← hs2]
        have hargs : s2.args = s.args := by rw [← hs2]
        have hsent : s2.sent = s.sent := by rw [← hs2]
        have hto : s2.timeouts = s.timeouts + 1 := by
          have e1 := hc2.timed
          have e2 : (s.state.set a 3).count 3 = s.state.count 3 + 1 :=
            count_set_new _ _ _ hlen (by have : s.state.getD a 0 = 1 := h1a; rw [this]; decide)
          have e3 := hc.timed
          rw [hstate] at e1
          omega
        obtain ⟨popped, h1, h2, h3, h4, h5⟩ := ih s2 hc2 (by rw [hsent]; exact ht) hndt
        have hap : a ∉ popped := by
          intro hmem
          apply hat
          rw [h1]
          exact List.mem_append_left _ hmem
        have htag : ∀ q, tag s2 q = if a = q then 3 else tag s q := by
          intro q
          rw [← hs2]
          exact tag_after_timeout s a q _ hlen
        refine ⟨a :: popped, ?_, ?_, ?_, ?_, ?_⟩
        · rw [List.cons_append, ← h1]
        · intro q hq hq1
          rcases List.mem_cons.mp hq with e | hq
          · rw [e]
            exact hage
          · have hqa : a ≠ q := fun e => hap (e ▸ hq)
            have := h2 q hq (by rw [htag, if_neg hqa]; exact hq1)
            rw [hargs, hts] at this
            exact this
        · intro q
          rw [h3 q, htag]
          by_cases e : a = q
          · subst e
            simp [h1a, hap]
          · rw [if_neg e]
            have e2 : q ≠ a := fun h => e h.symm
            simp only [List.mem_cons, e2, false_or]
        · rw [h4, List.filter_cons_of_pos (by simpa using h1a), List.length_cons]
          have hf : popped.filter (fun q => decide (tag s2 q = 1))
              = popped.filter (fun q => decide (tag s q = 1)) := by
            apply List.filter_congr
            intro q hq
            have hqa : a ≠ q := fun e => hap (e ▸ hq)
            rw [htag, if_neg hqa]
          rw [hf, hto]
          omega
        · rcases h5 with h5 | ⟨f, rest, e1, e2, e3⟩
          · exact Or.inl h5
          · refine Or.inr ⟨f, rest, e1, ?_, ?_⟩
            · rw [htag] at e2
              by_cases e : a = f
              · rw [if_pos e] at e2
                omega
              · rw [if_neg e] at e2
                exact e2
            · rw [hargs, hts] at e3
              exact e3
      · rw [if_neg hage]
        refine ⟨[], rfl, ?_, ?_, ?_, Or.inr ⟨a, t, rfl, h1a, by omega⟩⟩
        · intro q hq
          simp at hq
        · intro q
          simp [tag]
        · simp

end pub_rtt

namespace pub_rtt

theorem map_find_cons (p : Nat × Int) (m : List (Nat × Int)) (j : Nat) :
    map_find (p :: m) j = if p.1 = j then some p.2 else map_find m j := by
  unfold map_find
  by_cases h : p.1 = j
  · simp [List.find?_cons, h]
  · simp [List.find?_cons, h]

theorem map_find_erase (m : List (Nat × Int)) (k j : Nat) :
    map_find (map_erase m k) j = if j = k then none else map_find m j := by
  induction m with
  | nil =>
    have : map_find [] j = none := rfl
    simp [map_erase, this]
  | cons p t ih =>
    by_cases hp : p.1 = k
    · have e : map_erase (p :: t) k = map_erase t k := by
        simp [map_erase, List.filter_cons, hp]
      rw [e, ih, map_find_cons]
      by_cases hj : j = k
      · rw [if_pos hj, if_pos hj]
      · rw [if_neg hj, if_neg hj, if_neg (by rw [hp]; exact fun h => hj h.symm)]
    · have e : map_erase (p :: t) k = p :: map_erase t k := by
        simp [map_erase, List.filter_cons, hp]
      rw [e, map_find_cons, ih, map_find_cons]
      by_cases hj : j = k
      · rw [if_pos hj, if_pos hj, if_neg (by rw [hj]; exact hp)]
      · rw [if_neg hj, if_neg hj]

theorem sweep_loop_post_dur (now : Int) (l : List Nat) (s : Sender) (hc : DurCore s)
    (hnd : l.Nodup) :
    ∃ popped, l = popped ++ (sweep_loop now l s).inflight ∧
      (∀ q ∈ popped, ∀ t, map_find s.send_map q = some t → timeout_ns s.args < now - t) ∧
      (∀ q, map_find (sweep_loop now l s).send_map q
        = if q ∈ popped then none else map_find s.send_map q) ∧
      (sweep_loop now l s).timeouts
        = s.timeouts + (popped.filter (fun q => (map_find s.send_map q).isSome)).length ∧
      ((sweep_loop now l s).inflight = [] ∨
        ∃ f rest t, (sweep_loop now l s).inflight = f :: rest ∧
          map_find s.send_map f = some t ∧ now - t ≤ timeout_ns s.args) := by
  induction l generalizing s with
  | nil =>
    refine ⟨[], ?_, ?_, ?_, ?_, Or.inl ?_⟩
    · simp [sweep_loop]
    · intro q hq
      simp at hq
    · intro q
      simp [sweep_loop]
    · simp [sweep_loop]
    · simp [sweep_loop]
  | cons a t ih =>
    have hat : a ∉ t := (List.nodup_cons.mp hnd).1
    have hndt : t.Nodup := (List.nodup_cons.mp hnd).2
    simp only [sweep_loop]
    rw [if_neg (by rw [hc.count_zero]; decide)]
    cases hf : map_find s.send_map a with
    | none =>
      simp only
      obtain ⟨popped, h1, h2, h3, h4, h5⟩ := ih s hc hndt
      refine ⟨a :: popped, ?_, ?_, ?_, ?_, h5⟩
      · rw [List.cons_append, ← h1]
      · intro q hq ts hts
        rcases List.mem_cons.mp hq with e | hq
        · rw [e, hf] at hts
          exact Option.noConfusion hts
        · exact h2 q hq ts hts
      · intro q
        rw [h3 q]
        by_cases e : q = a
        · subst e
          simp [hf]
        · simp only [List.mem_cons, e, false_or]
      · rw [h4, List.filter_cons_of_neg (by simp [hf])]
    | some ts =>
      simp only
      by_cases hage : now - ts > timeout_ns s.args
      · rw [if_pos hage]
        have hk := map_find_some_mem _ _ _ hf
        have hroom := dur_count_room s a hc hk
        generalize hs2 : ({ s with send_map := map_erase s.send_map a, timeouts := (s.timeouts + 1) % U64 } : Sender) = s2
        have hmap : s2.send_map = map_erase s.send_map a := by rw [← hs2]
        have hargs : s2.args = s.args := by rw [← hs2]
        have hsent : s2.sent = s.sent := by rw [← hs2]
        have hto : s2.timeouts = s.timeouts + 1 := by
          rw [← hs2]
          show (s.timeouts + 1) % U64 = s.timeouts + 1
          exact Nat.mod_eq_of_lt (by omega)
        have hack : s2.ack_received = s.ack_received := by rw [← hs2]
        have hc2 : DurCore s2 :=
          (durCore_erase s s2 a hc hk hargs hsent hmap (by rw [hack, hto]; omega)).1
        obtain ⟨popped, h1, h2, h3, h4, h5⟩ := ih s2 hc2 hndt
        have hap : a ∉ popped := by
          intro hmem
          apply hat
          rw [h1]
          exact List.mem_append_left _ hmem
        have hfind : ∀ q, map_find s2.send_map q
            = if q = a then none else map_find s.send_map q := by
          intro q
          rw [hmap, map_find_erase]
        refine ⟨a :: popped, ?_, ?_, ?_, ?_, ?_⟩
        · rw [List.cons_append, ← h1]
        · intro q hq t2 ht2
          rcases List.mem_cons.mp hq with e | hq
          · rw [e, hf] at ht2
            simp only [Option.some.injEq] at ht2
            rw [← ht2]
            exact hage
          · have hqa : q ≠ a := fun e => hap (e ▸ hq)
            have := h2 q hq t2 (by rw [hfind, if_neg hqa]; exact ht2)
            rw [hargs] at this
            exact this
        · intro q
          rw [h3 q, hfind]
          by_cases e : q = a
          · subst e
            simp
          · rw [if_neg e]
            simp only [List.mem_cons, e, false_or]
        · rw [h4, List.filter_cons_of_pos (by simp [hf]), List.length_cons]
          have hfl : popped.filter (fun q => (map_find s2.send_map q).isSome)
              = popped.filter (fun q => (map_find s.send_map q).isSome) := by
            apply List.filter_congr
            intro q hq
            have hqa : q ≠ a := fun e => hap (e ▸ hq)
            rw [hfind, if_neg hqa]
          rw [hfl, hto]
          omega
        · rcases h5 with h5 | ⟨f, rest, t2, e1, e2, e3⟩
          · exact Or.inl h5
          · refine Or.inr ⟨f, rest, t2, e1, ?_, ?_⟩
            · rw [hfind] at e2
              by_cases e : f = a
              · rw [if_pos e] at e2
                exact Option.noConfusion e2
              · rw [if_neg e] at e2
                exact e2
            · rw [hargs] at e3
              exact e3
      · rw [if_neg hage]
        refine ⟨[], rfl, ?_, ?_, ?_, Or.inr ⟨a, t, ts, rfl, hf, by omega⟩⟩
        · intro q hq
          simp at hq
        · intro q
          simp
        · simp

end pub_rtt

namespace pub_rtt

theorem pending_count (s : Sender) (q : Nat) (hc : 0 < s.args.count) :
    pending s q = if tag s q = 1 then some (s.send_ts.getD q 0) else none := by
  simp only [pending, tag]
  rw [if_pos hc]

theorem pending_dur (s : Sender) (q : Nat) (hz : s.args.count = 0) :
    pending s q = map_find s.send_map q := by
  simp only [pending]
  rw [if_neg (by rw [hz]; decide)]

theorem times_ordered_le (s : Sender) (a b : Nat) (ta tb : Int)
    (h : times_ordered s a b = true) (ha : pending s a = some ta) (hb : pending s b = some tb) :
    ta ≤ tb := by
  simp only [times_ordered, ha, hb, decide_eq_true_eq] at h
  exact h

theorem pending_lt_sent (s : Sender) (h : CountInv s ∨ DurInv s) (q : Nat) (t : Int)
    (hp : pending s q = some t) : q < s.sent := by
  rcases h with h | h
  · rw [pending_count s q h.1.count_pos] at hp
    by_contra hn
    have := h.1.unsent q (by omega)
    rw [if_neg (by omega)] at hp
    exact Option.noConfusion hp
  · rw [pending_dur s q h.1.count_zero] at hp
    obtain ⟨p, hp1, hp2⟩ := map_find_some_mem _ _ _ hp
    have := h.1.keys_lt p hp1
    omega

/-- The postcondition of the sweep loop, stated with `pending` for both modes. -/
theorem sweep_loop_post (now : Int) (s : Sender) (h : CountInv s ∨ DurInv s)
    (hnd : s.inflight.Nodup) :
    ∃ popped, s.inflight = popped ++ (sweep_loop now s.inflight s).inflight ∧
      (∀ q ∈ popped, ∀ t, pending s q = some t → timeout_ns s.args < now - t) ∧
      (∀ q, pending (sweep_loop now s.inflight s) q
        = if q ∈ popped then none else pending s q) ∧
      (0 < s.args.count → ∀ q, tag (sweep_loop now s.inflight s) q
        = if q ∈ popped ∧ tag s q = 1 then 3 else tag s q) ∧
      (sweep_loop now s.inflight s).timeouts
        = s.timeouts + (popped.filter (fun q => (pending s q).isSome)).length ∧
      ((sweep_loop now s.inflight s).inflight = [] ∨
        ∃ f rest t, (sweep_loop now s.inflight s).inflight = f :: rest ∧
          pending s f = some t ∧ now - t ≤ timeout_ns s.args) := by
  obtain ⟨fargs, _, _, _, _, _, _, _, fts⟩ := sweep_loop_frame now s.inflight s
  rcases h with h | h
  · have hpos := h.1.count_pos
    obtain ⟨popped, h1, h2, h3, h4, h5⟩ := sweep_loop_post_count now s.inflight s h.1 h.2 hnd
    refine ⟨popped, h1, ?_, ?_, fun _ => h3, ?_, ?_⟩
    · intro q hq t hp
      rw [pending_count s q hpos] at hp
      by_cases e : tag s q = 1
      · rw [if_pos e] at hp
        simp only [Option.some.injEq] at hp
        rw [← hp]
        exact h2 q hq e
      · rw [if_neg e] at hp
        exact Option.noConfusion hp
    · intro q
      rw [pending_count _ q (by rw [fargs]; exact hpos), pending_count s q hpos, h3 q, fts]
      by_cases hm : q ∈ popped <;> by_cases e : tag s q = 1 <;> simp [hm, e]
    · rw [h4]
      congr 2
      apply List.filter_congr
      intro q _
      rw [pending_count s q hpos]
      by_cases e : tag s q = 1
      · simp [e]
      · simp [e]
    · rcases h5 with h5 | ⟨f, rest, e1, e2, e3⟩
      · exact Or.inl h5
      · refine Or.inr ⟨f, rest, s.send_ts.getD f 0, e1, ?_, e3⟩
        rw [pending_count s f hpos, if_pos e2]
  · have hz := h.1.count_zero
    obtain ⟨popped, h1, h2, h3, h4, h5⟩ := sweep_loop_post_dur now s.inflight s h.1 hnd
    refine ⟨popped, h1, ?_, ?_, ?_, ?_, ?_⟩
    · intro q hq t hp
      rw [pending_dur s q hz] at hp
      exact h2 q hq t hp
    · intro q
      rw [pending_dur _ q (by rw [fargs]; exact hz), pending_dur s q hz]
      exact h3 q
    · intro hpos
      omega
    · rw [h4]
      congr 2
      apply List.filter_congr
      intro q _
      rw [pending_dur s q hz]
    · rcases h5 with h5 | ⟨f, rest, t, e1, e2, e3⟩
      · exact Or.inl h5
      · refine Or.inr ⟨f, rest, t, e1, ?_, e3⟩
        rw [pending_dur s f hz]
        exact e2

/-- The full postcondition of a timeout sweep on a state whose queue is in send order. -/
theorem sweep_post (s : Sender) (now : Int) (hq : QueueOrdered s)
    (hT : 0 < s.args.ack_timeout_ms) :
    ∃ popped, s.inflight = popped ++ (sweep s now).inflight ∧
      (∀ q ∈ popped, ∀ t, pending s q = some t → timeout_ns s.args < now - t) ∧
      (∀ q, pending (sweep s now) q = if q ∈ popped then none else pending s q) ∧
      (0 < s.args.count → ∀ q, tag (sweep s now) q
        = if q ∈ popped ∧ tag s q = 1 then 3 else tag s q) ∧
      (sweep s now).timeouts
        = s.timeouts + (popped.filter (fun q => (pending s q).isSome)).length ∧
      ((sweep s now).ack_received = s.ack_received ∧ (sweep s now).sent = s.sent ∧
        (sweep s now).rtt_us_samples = s.rtt_us_samples ∧
        (sweep s now).rtt_us_stats = s.rtt_us_stats ∧
        (sweep s now).out_of_order = s.out_of_order) ∧
      ((sweep s now).inflight = [] ∨
        ∃ f rest t, (sweep s now).inflight = f :: rest ∧
          pending (sweep s now) f = some t ∧ now - t ≤ timeout_ns s.args) ∧
      (∀ q t, pending (sweep s now) q = some t → now - t ≤ timeout_ns s.args) := by
  have hnd : s.inflight.Nodup := List.Pairwise.imp (fun h => ne_of_lt h) hq.send_order
  obtain ⟨_, fooo, _, _, fack, fstats, fsamples, fsent, _⟩ := sweep_frame now s
  have hsw : sweep s now = sweep_loop now s.inflight s := by
    unfold sweep
    rw [if_pos hT]
  obtain ⟨popped, h1, h2, h3, h4, h5, h6⟩ := sweep_loop_post now s hq.wf hnd
  rw [← hsw] at h1 h3 h4 h5 h6
  have hnotin : ∀ f rest, (sweep s now).inflight = f :: rest → f ∉ popped := by
    intro f rest e hm
    rw [h1, e] at hnd
    have := (List.nodup_append.mp hnd).2.2
    exact this hm (List.mem_cons_self f rest)
  have hfront : (sweep s now).inflight = [] ∨
      ∃ f rest t, (sweep s now).inflight = f :: rest ∧
        pending (sweep s now) f = some t ∧ now - t ≤ timeout_ns s.args := by
    rcases h6 with h6 | ⟨f, rest, t, e1, e2, e3⟩
    · exact Or.inl h6
    · refine Or.inr ⟨f, rest, t, e1, ?_, e3⟩
      rw [h3 f, if_neg (hnotin f rest e1)]
      exact e2
  refine ⟨popped, h1, h2, h3, h4, h5, ⟨fack, fsent, fsamples, fstats, fooo⟩, hfront, ?_⟩
  intro q t hp
  rw [h3 q] at hp
  by_cases hm : q ∈ popped
  · rw [if_pos hm] at hp
    exact Option.noConfusion hp
  · rw [if_neg hm] at hp
    have hin : q ∈ s.inflight :=
      hq.covers q (pending_lt_sent s hq.wf q t hp) (by rw [hp]; rfl)
    rw [h1] at hin
    rcases List.mem_append.mp hin with hin | hin
    · exact absurd hin hm
    · rcases hfront with hnil | ⟨f, rest, tf, e1, e2, e3⟩
      · rw [hnil] at hin
        simp at hin
      · have hpf : pending s f = some tf := by
          rw [h3 f, if_neg (hnotin f rest e1)] at e2
          exact e2
        rw [e1] at hin
        rcases List.mem_cons.mp hin with e | hin
        · rw [e, hpf] at hp
          simp only [Option.some.injEq] at hp
          omega
        · have hpw := hq.times
          rw [h1, e1] at hpw
          have hpw2 := (List.pairwise_append.mp hpw).2.1
          have hfq := List.rel_of_pairwise_cons hpw2 hin
          have := times_ordered_le s f q tf t hfq hpf hp
          omega

end pub_rtt

/-- C12: timeout sweep postcondition. Take a well-formed sender state whose pending queue
lists sequence numbers in send order, with non-decreasing send times and every inflight
request in it, and an enabled sweep (`ack_timeout_ms > 0`) at time `now`. The sweep removes
a front segment `popped` of the queue only. Every popped entry that was inflight had an age
above the threshold and is no longer inflight (in count mode it is tagged 3); popped entries
that were already resolved keep their tag; nothing else changes; `timeouts` grows by one for
each popped entry that was inflight and the other counters are unchanged. The sweep stops
with the queue empty or with a front entry that is inflight with age at most the threshold.
After the sweep no inflight request has an age above the threshold. -/
theorem timeout_sweep_postcondition (s : pub_rtt.Sender) (now : Int)
    (hq : pub_rtt.QueueOrdered s) (hT : 0 < s.args.ack_timeout_ms) :
    ∃ popped, s.inflight = popped ++ (pub_rtt.sweep s now).inflight ∧
      (∀ q ∈ popped, ∀ t, pub_rtt.pending s q = some t → pub_rtt.timeout_ns s.args < now - t) ∧
      (∀ q, pub_rtt.pending (pub_rtt.sweep s now) q
        = if q ∈ popped then none else pub_rtt.pending s q) ∧
      (0 < s.args.count → ∀ q, pub_rtt.tag (pub_rtt.sweep s now) q
        = if q ∈ popped ∧ pub_rtt.tag s q = 1 then 3 else pub_rtt.tag s q) ∧
      (pub_rtt.sweep s now).timeouts
        = s.timeouts + (popped.filter (fun q => (pub_rtt.pending s q).isSome)).length ∧
      ((pub_rtt.sweep s now).ack_received = s.ack_received ∧
        (pub_rtt.sweep s now).sent = s.sent ∧
        (pub_rtt.sweep s now).rtt_us_samples = s.rtt_us_samples ∧
        (pub_rtt.sweep s now).rtt_us_stats = s.rtt_us_stats ∧
        (pub_rtt.sweep s now).out_of_order = s.out_of_order) ∧
      ((pub_rtt.sweep s now).inflight = [] ∨
        ∃ f rest t, (pub_rtt.sweep s now).inflight = f :: rest ∧
          pub_rtt.pending (pub_rtt.sweep s now) f = some t ∧
          now - t ≤ pub_rtt.timeout_ns s.args) ∧
      (∀ q t, pub_rtt.pending (pub_rtt.sweep s now) q = some t →
        now - t ≤ pub_rtt.timeout_ns s.args) :=
  pub_rtt.sweep_post s now hq hT

/-- C12 on a count-mode run of four requests sent at 0, 50, 120 and 200 ms, the second
acked: a sweep at 230 ms with the 100 ms threshold pops requests 0, 1 and 2, times out 0 and
2, and leaves request 3, whose age is 30 ms, at the front. -/
theorem timeout_sweep_postcondition_witness :
    (pub_rtt.sweep (pub_rtt.run (pub_rtt.init { count := 4 })
      [.send 0, .send 50000000, .send 120000000,
       .ack 130000000 (bench.make_ack_payload 1 0 0), .send 200000000]) 230000000).timeouts
      = 2 ∧
    pub_rtt.pending (pub_rtt.sweep (pub_rtt.run (pub_rtt.init { count := 4 })
      [.send 0, .send 50000000, .send 120000000,
       .ack 130000000 (bench.make_ack_payload 1 0 0), .send 200000000]) 230000000) 3
      = some 200000000 ∧
    (230000000 : Int) - 200000000 ≤ 100000000 := by
  have hwf : pub_rtt.CountInv (pub_rtt.run (pub_rtt.init { count := 4 })
      [.send 0, .send 50000000, .send 120000000,
       .ack 130000000 (bench.make_ack_payload 1 0 0), .send 200000000]) :=
    pub_rtt.run_count _ _ (pub_rtt.init_countInv { count := 4 } (by decide) (by norm_num [U64]))
  obtain ⟨popped, h1, _, _, _, h5, _, _, h8⟩ := timeout_sweep_postcondition
    (pub_rtt.run (pub_rtt.init { count := 4 })
      [.send 0, .send 50000000, .send 120000000,
       .ack 130000000 (bench.make_ack_payload 1 0 0), .send 200000000])
    230000000
    ⟨Or.inl hwf, by decide, by decide, by decide⟩ (by decide)
  have hp : pub_rtt.pending (pub_rtt.sweep (pub_rtt.run (pub_rtt.init { count := 4 })
      [.send 0, .send 50000000, .send 120000000,
       .ack 130000000 (bench.make_ack_payload 1 0 0), .send 200000000]) 230000000) 3
      = some 200000000 := by decide
  refine ⟨by decide, hp, ?_⟩
  have := h8 3 200000000 hp
  have hto : pub_rtt.timeout_ns (pub_rtt.run (pub_rtt.init { count := 4 })
      [.send 0, .send 50000000, .send 120000000,
       .ack 130000000 (bench.make_ack_payload 1 0 0), .send 200000000]).args = 100000000 := by
    decide
  rw [hto] at this
  exact this

/-! ## Reachable states have an ordered queue -/

namespace pub_rtt

theorem times_ordered_intro (s : Sender) (a b : Nat)
    (h : ∀ ta tb, pending s a = some ta → pending s b = some tb → ta ≤ tb) :
    times_ordered s a b = true := by
  unfold times_ordered
  cases ha : pending s a with
  | none => rfl
  | some ta =>
    cases hb : pending s b with
    | none => rfl
    | some tb =>
      simp only [decide_eq_true_eq]
      exact h ta tb ha hb

/-- A state that keeps `sent`, keeps a sublist of the queue and keeps only inflight entries
that were inflight before, each still in its queue, has an ordered queue again. -/
theorem queueOrdered_shrink (s r : Sender) (hq : QueueOrdered s)
    (hwf : CountInv r ∨ DurInv r)
    (hsub : List.Sublist r.inflight s.inflight)
    (hpend : ∀ q t, pending r q = some t → pending s q = some t)
    (hcov : ∀ q t, pending r q = some t → q ∈ r.inflight) : QueueOrdered r := by
  refine ⟨hwf, List.Pairwise.sublist hsub hq.send_order, ?_, ?_⟩
  · refine List.Pairwise.imp ?_ (List.Pairwise.sublist hsub hq.times)
    intro a b hab
    apply times_ordered_intro
    intro ta tb ha hb
    exact times_ordered_le s a b ta tb hab (hpend a ta ha) (hpend b tb hb)
  · intro q _ hsome
    cases hp : pending r q with
    | none =>
      rw [hp] at hsome
      exact absurd hsome (by decide)
    | some t => exact hcov q t hp

theorem pending_some_of_isSome (s : Sender) (q : Nat) (h : (pending s q).isSome = true) :
    ∃ t, pending s q = some t := by
  cases hp : pending s q with
  | none =>
    rw [hp] at h
    exact absurd h (by decide)
  | some t => exact ⟨t, rfl⟩

theorem queueOrdered_covers (s : Sender) (hq : QueueOrdered s) (q : Nat) (t : Int)
    (hp : pending s q = some t) : q ∈ s.inflight :=
  hq.covers q (pending_lt_sent s hq.wf q t hp) (by rw [hp]; rfl)

theorem queueOrdered_sweep (s : Sender) (now : Int) (hq : QueueOrdered s) :
    QueueOrdered (sweep s now) ∧
    ∀ q t, pending (sweep s now) q = some t → pending s q = some t := by
  by_cases hT : 0 < s.args.ack_timeout_ms
  · obtain ⟨popped, h1, _, h3, _, _, _, _, _⟩ := sweep_post s now hq hT
    have hwf : CountInv (sweep s now) ∨ DurInv (sweep s now) := by
      rcases hq.wf with h | h
      · exact Or.inl (sweep_count s now h).1
      · exact Or.inr (sweep_dur s now h).1
    have hpend : ∀ q t, pending (sweep s now) q = some t → pending s q = some t := by
      intro q t hp
      rw [h3 q] at hp
      by_cases hm : q ∈ popped
      · rw [if_pos hm] at hp
        exact Option.noConfusion hp
      · rw [if_neg hm] at hp
        exact hp
    refine ⟨queueOrdered_shrink s _ hq hwf ?_ hpend ?_, hpend⟩
    · rw [h1]
      exact List.sublist_append_right _ _
    · intro q t hp
      have hin := queueOrdered_covers s hq q t (hpend q t hp)
      rw [h1] at hin
      rcases List.mem_append.mp hin with hin | hin
      · rw [h3 q, if_pos hin] at hp
        exact Option.noConfusion hp
      · exact hin
  · have : sweep s now = s := by
      unfold sweep
      rw [if_neg hT]
    rw [this]
    exact ⟨hq, fun q t h => h⟩

theorem queueOrdered_ack (s : Sender) (now : Int) (payload : List Byte) (hq : QueueOrdered s) :
    QueueOrdered (on_ack s now payload) ∧
    ∀ q t, pending (on_ack s now payload) q = some t → pending s q = some t := by
  cases hd : decode_ack payload with
  | none =>
    rw [on_ack_undecoded s now payload hd]
    exact ⟨hq, fun q t h => h⟩
  | some a =>
    have hargs := (on_ack_ooo s now payload a hd).2.2.2
    have hwf : CountInv (on_ack s now payload) ∨ DurInv (on_ack s now payload) := by
      rcases hq.wf with h | h
      · exact Or.inl (on_ack_count s now payload h).1
      · exact Or.inr (on_ack_dur s now payload h).1
    have hfacts : (on_ack s now payload).inflight = s.inflight ∧
        ∀ q t, pending (on_ack s now payload) q = some t → pending s q = some t := by
      by_cases hc : 0 < s.args.count
      · by_cases hit : a < s.args.count ∧ s.state.getD a 0 = 1
        · obtain ⟨e1, _, _, _, e5, e6, _⟩ := on_ack_count_hit s now payload a hd hc hit.1 hit.2
          refine ⟨e5, ?_⟩
          intro q t hp
          rw [pending_count _ q (by rw [hargs]; exact hc)] at hp
          rw [pending_count s q hc]
          simp only [tag, e1, e6] at hp ⊢
          rw [getD_set_nat] at hp
          by_cases e : a = q ∧ a < s.state.length
          · rw [if_pos e, if_neg (by decide)] at hp
            exact Option.noConfusion hp
          · rw [if_neg e] at hp
            exact hp
        · have hst : (0 < s.args.count ∧ (s.args.count ≤ a ∨ s.state.getD a 0 ≠ 1)) ∨
              (s.args.count = 0 ∧ map_find s.send_map a = none) := by
            refine Or.inl ⟨hc, ?_⟩
            by_cases ha : a < s.args.count
            · exact Or.inr (fun h1 => hit ⟨ha, h1⟩)
            · exact Or.inl (by omega)
          obtain ⟨_, _, _, _, e5, e6, _, e8, _⟩ := on_ack_stale s now payload a hd hst
          refine ⟨e8, ?_⟩
          intro q t hp
          rw [pending_count _ q (by rw [hargs]; exact hc)] at hp
          rw [pending_count s q hc]
          simp only [tag, e5, e6] at hp ⊢
          exact hp
      · have hz : s.args.count = 0 := by omega
        cases hf : map_find s.send_map a with
        | none =>
          obtain ⟨_, _, _, _, _, _, e7, e8, _⟩ :=
            on_ack_stale s now payload a hd (Or.inr ⟨hz, hf⟩)
          refine ⟨e8, ?_⟩
          intro q t hp
          rw [pending_dur _ q (by rw [hargs]; exact hz), e7] at hp
          rw [pending_dur s q hz]
          exact hp
        | some ts =>
          obtain ⟨e1, _, _, _, e5, _⟩ := on_ack_dur_hit s now payload a ts hd hz hf
          refine ⟨e5, ?_⟩
          intro q t hp
          rw [pending_dur _ q (by rw [hargs]; exact hz), e1, map_find_erase] at hp
          rw [pending_dur s q hz]
          by_cases e : q = a
          · rw [if_pos e] at hp
            exact Option.noConfusion hp
          · rw [if_neg e] at hp
            exact hp
    obtain ⟨hinf, hpend⟩ := hfacts
    refine ⟨queueOrdered_shrink s _ hq hwf ?_ hpend ?_, hpend⟩
    · rw [hinf]
    · intro q t hp
      rw [hinf]
      exact queueOrdered_covers s hq q t (hpend q t hp)

end pub_rtt

namespace pub_rtt

theorem getD_set_int (l : List Int) (i j : Nat) (v : Int) :
    (l.set i v).getD j 0 = if i = j ∧ i < l.length then v else l.getD j 0 := by
  simp only [List.getD_eq_getElem?_getD, List.getElem?_set]
  by_cases h : i = j
  · subst h
    by_cases h2 : i < l.length
    · simp [h2]
    · simp [h2, List.getElem?_eq_none (Nat.le_of_not_lt h2)]
  · simp [h]

theorem map_find_append_single (m : List (Nat × Int)) (k : Nat) (v : Int) (q : Nat)
    (hfresh : ∀ p ∈ m, p.1 ≠ k) :
    map_find (m ++ [(k, v)]) q = if q = k then some v else map_find m q := by
  induction m with
  | nil =>
    have e : map_find [] q = none := rfl
    rw [List.nil_append, map_find_cons, e]
    by_cases h : k = q
    · rw [if_pos h, if_pos h.symm]
    · rw [if_neg h, if_neg (fun h2 => h h2.symm)]
  | cons p t ih =>
    have hp : p.1 ≠ k := hfresh p (List.mem_cons_self p t)
    have ht := ih (fun x hx => hfresh x (List.mem_cons_of_mem p hx))
    rw [List.cons_append, map_find_cons, map_find_cons, ht]
    by_cases h : p.1 = q
    · rw [if_pos h, if_pos h, if_neg (by rw [← h]; exact hp)]
    · rw [if_neg h, if_neg h]

/-- The bookkeeping of a send that takes place: the new sequence number joins the queue
and becomes inflight with send time `tp`; nothing else changes for the other entries. -/
theorem on_send_active (s : Sender) (tp : Int) (hwf : CountInv s ∨ DurInv s)
    (hts : 0 < s.args.count → s.send_ts.length = s.args.count)
    (hb : s.args.count = 0 → s.sent + 1 < U64)
    (hact : s.args.count = 0 ∨ s.sent < s.args.count) :
    (on_send s tp).inflight = s.inflight ++ [s.sent] ∧
    (on_send s tp).sent = s.sent + 1 ∧
    (∀ q, pending (on_send s tp) q = if q = s.sent then some tp else pending s q) ∧
    (on_send s tp).send_ts.length = s.send_ts.length := by
  have hargs := (on_send_frame s tp).1
  rcases hwf with h | h
  · have hc := h.1.count_pos
    have hs : s.sent < s.args.count := by
      rcases hact with h0 | h0
      · omega
      · exact h0
    have hmod : (s.sent + 1) % U64 = s.sent + 1 := by
      apply Nat.mod_eq_of_lt
      have := h.1.count_lt
      omega
    have e1 : (on_send s tp).inflight = s.inflight ++ [s.sent] := by
      unfold on_send
      rw [if_pos hc, if_pos hs]
    have e2 : (on_send s tp).sent = (s.sent + 1) % U64 := by
      unfold on_send
      rw [if_pos hc, if_pos hs]
    have e3 : (on_send s tp).state = s.state.set s.sent 1 := by
      unfold on_send
      rw [if_pos hc, if_pos hs]
    have e4 : (on_send s tp).send_ts = s.send_ts.set s.sent tp := by
      unfold on_send
      rw [if_pos hc, if_pos hs]
    refine ⟨e1, by rw [e2, hmod], ?_, by rw [e4, List.length_set]⟩
    intro q
    rw [pending_count _ q (by rw [hargs]; exact hc), pending_count s q hc]
    simp only [tag, e3, e4]
    rw [getD_set_nat, getD_set_int]
    have hl1 : s.sent < s.state.length := by rw [h.1.state_len]; exact hs
    have hl2 : s.sent < s.send_ts.length := by rw [hts hc]; exact hs
    by_cases e : q = s.sent
    · subst e
      simp [hl1, hl2]
    · have e2 : s.sent ≠ q := fun hh => e hh.symm
      simp [e, e2]
  · have hz := h.1.count_zero
    have hn : ¬ s.args.count > 0 := by rw [hz]; decide
    have hfresh : ∀ p ∈ s.send_map, p.1 ≠ s.sent := by
      intro p hp
      have := h.1.keys_lt p hp
      omega
    have hmod : (s.sent + 1) % U64 = s.sent + 1 := Nat.mod_eq_of_lt (hb hz)
    have e1 : (on_send s tp).inflight = s.inflight ++ [s.sent] := by
      unfold on_send
      rw [if_neg hn]
    have e2 : (on_send s tp).sent = (s.sent + 1) % U64 := by
      unfold on_send
      rw [if_neg hn]
    have e3 : (on_send s tp).send_map = map_emplace s.send_map s.sent tp := by
      unfold on_send
      rw [if_neg hn]
    have e4 : (on_send s tp).send_ts = s.send_ts := by
      unfold on_send
      rw [if_neg hn]
    refine ⟨e1, by rw [e2, hmod], ?_, by rw [e4]⟩
    intro q
    rw [pending_dur _ q (by rw [hargs]; exact hz), pending_dur s q hz, e3,
      map_emplace_fresh _ _ _ hfresh, map_find_append_single _ _ _ _ hfresh]

theorem queueOrdered_send (s : Sender) (tp : Int) (hq : QueueOrdered s)
    (hts : 0 < s.args.count → s.send_ts.length = s.args.count)
    (hb : s.args.count = 0 → s.sent + 1 < U64)
    (hbound : ∀ q t, pending s q = some t → t ≤ tp) :
    QueueOrdered (on_send s tp) ∧
    (∀ q t, pending (on_send s tp) q = some t → pending s q = some t ∨ t = tp) ∧
    (on_send s tp).send_ts.length = s.send_ts.length := by
  by_cases hact : s.args.count = 0 ∨ s.sent < s.args.count
  · obtain ⟨e1, e2, e3, e4⟩ := on_send_active s tp hq.wf hts hb hact
    have hwf : CountInv (on_send s tp) ∨ DurInv (on_send s tp) := by
      rcases hq.wf with h | h
      · exact Or.inl (on_send_count s tp h).1
      · exact Or.inr (on_send_dur s tp h (hb h.1.count_zero)).1
    have hlt : ∀ q ∈ s.inflight, q < s.sent := by
      rcases hq.wf with h | h
      · exact h.2
      · exact h.2
    have hnone : pending s s.sent = none := by
      cases hp : pending s s.sent with
      | none => rfl
      | some t =>
        have := pending_lt_sent s hq.wf s.sent t hp
        omega
    have hpend : ∀ q t, pending (on_send s tp) q = some t → pending s q = some t ∨ t = tp := by
      intro q t hp
      rw [e3 q] at hp
      by_cases e : q = s.sent
      · rw [if_pos e] at hp
        simp only [Option.some.injEq] at hp
        exact Or.inr hp.symm
      · rw [if_neg e] at hp
        exact Or.inl hp
    refine ⟨⟨hwf, ?_, ?_, ?_⟩, hpend, e4⟩
    · rw [e1, List.pairwise_append]
      refine ⟨hq.send_order, List.pairwise_singleton _ _, ?_⟩
      intro a ha b hb2
      simp only [List.mem_singleton] at hb2
      rw [hb2]
      exact hlt a ha
    · rw [e1, List.pairwise_append]
      refine ⟨?_, List.pairwise_singleton _ _, ?_⟩
      · refine List.Pairwise.imp_of_mem ?_ hq.times
        intro a b ha hb2 hab
        apply times_ordered_intro
        intro ta tb hpa hpb
        rw [e3 a, if_neg (by have := hlt a ha; omega)] at hpa
        rw [e3 b, if_neg (by have := hlt b hb2; omega)] at hpb
        exact times_ordered_le s a b ta tb hab hpa hpb
      · intro a ha b hb2
        simp only [List.mem_singleton] at hb2
        rw [hb2]
        apply times_ordered_intro
        intro ta tb hpa hpb
        rw [e3 a, if_neg (by have := hlt a ha; omega)] at hpa
        rw [e3 s.sent, if_pos rfl] at hpb
        simp only [Option.some.injEq] at hpb
        rw [← hpb]
        exact hbound a ta hpa
    · intro q hq2 hsome
      rw [e2] at hq2
      rw [e1]
      by_cases e : q = s.sent
      · rw [e]
        simp
      · rw [e3 q, if_neg e] at hsome
        exact List.mem_append_left _ (hq.covers q (by omega) hsome)
  · have hnoop : on_send s tp = s := by
      have hc : 0 < s.args.count := by omega
      unfold on_send
      rw [if_pos hc, if_neg (by omega)]
    rw [hnoop]
    exact ⟨hq, fun q t h => Or.inl h, rfl⟩

end pub_rtt

namespace pub_rtt

theorem on_ack_send_ts (s : Sender) (now : Int) (payload : List Byte) :
    (on_ack s now payload).send_ts = s.send_ts := by
  cases hd : decode_ack payload with
  | none => rw [on_ack_undecoded s now payload hd]
  | some a =>
    by_cases hc : 0 < s.args.count
    · by_cases hit : a < s.args.count ∧ s.state.getD a 0 = 1
      · exact (on_ack_count_hit s now payload a hd hc hit.1 hit.2).2.2.2.2.2.1
      · have hst : (0 < s.args.count ∧ (s.args.count ≤ a ∨ s.state.getD a 0 ≠ 1)) ∨
            (s.args.count = 0 ∧ map_find s.send_map a = none) := by
          refine Or.inl ⟨hc, ?_⟩
          by_cases ha : a < s.args.count
          · exact Or.inr (fun h1 => hit ⟨ha, h1⟩)
          · exact Or.inl (by omega)
        exact (on_ack_stale s now payload a hd hst).2.2.2.2.2.1
    · have hz : s.args.count = 0 := by omega
      cases hf : map_find s.send_map a with
      | none => exact (on_ack_stale s now payload a hd (Or.inr ⟨hz, hf⟩)).2.2.2.2.2.1
      | some ts => exact (on_ack_dur_hit s now payload a ts hd hz hf).2.2.2.2.2.1

theorem init_queueOrdered (args : Args) (hcount : args.count < U64) :
    QueueOrdered (init args) := by
  have hwf : CountInv (init args) ∨ DurInv (init args) := by
    by_cases hc : 0 < args.count
    · exact Or.inl (init_countInv args hc hcount)
    · exact Or.inr (init_durInv args (by omega))
  refine ⟨hwf, ?_, ?_, ?_⟩
  · simp [init]
  · simp [init]
  · intro q hq
    have h0 : (init args).sent = 0 := rfl
    omega

/-- Along a run whose send events carry non-decreasing clock readings, none earlier than
the send time of a request already inflight, the queue stays ordered. -/
theorem run_queue_ordered (s : Sender) (es : List Event) (hq : QueueOrdered s)
    (hts : 0 < s.args.count → s.send_ts.length = s.args.count)
    (hb : s.args.count = 0 → s.sent + es.length < U64)
    (hbound : ∀ q t, pending s q = some t → ∀ tp ∈ send_times es, t ≤ tp)
    (hmono : (send_times es).Pairwise (fun a b => a ≤ b)) :
    QueueOrdered (run s es) := by
  induction es generalizing s with
  | nil => exact hq
  | cons e rest ih =>
    have hrun : run s (e :: rest) = run (step s e) rest := rfl
    rw [hrun]
    have hargs := step_args s e
    simp only [List.length_cons] at hb
    cases e with
    | send tp =>
      have hst : send_times (Event.send tp :: rest) = tp :: send_times rest := rfl
      rw [hst] at hbound hmono
      obtain ⟨hm1, hm2⟩ := List.pairwise_cons.mp hmono
      obtain ⟨h1, h2, h3⟩ := queueOrdered_send s tp hq hts (fun hz => by have := hb hz; omega)
        (fun q t hp => hbound q t hp tp (List.mem_cons_self _ _))
      refine ih (step s (Event.send tp)) h1 ?_ ?_ ?_ hm2
      · intro hc
        rw [hargs] at hc ⊢
        show (on_send s tp).send_ts.length = s.args.count
        rw [h3]
        exact hts hc
      · intro hz
        rw [hargs] at hz
        have hsent : (on_send s tp).sent = s.sent + 1 := by
          rcases hq.wf with h | h
          · have := h.1.count_pos
            omega
          · exact (on_send_dur s tp h (by have := hb hz; omega)).2.1
        show (on_send s tp).sent + rest.length < U64
        rw [hsent]
        have := hb hz
        omega
      · intro q t hp tp2 htp2
        rcases h2 q t hp with h | h
        · exact hbound q t h tp2 (List.mem_cons_of_mem _ htp2)
        · rw [h]
          exact hm1 tp2 htp2
    | ack now payload =>
      have hst : send_times (Event.ack now payload :: rest) = send_times rest := rfl
      rw [hst] at hbound hmono
      obtain ⟨h1, h2⟩ := queueOrdered_ack s now payload hq
      refine ih (step s (Event.ack now payload)) h1 ?_ ?_ ?_ hmono
      · intro hc
        rw [hargs] at hc ⊢
        show (on_ack s now payload).send_ts.length = s.args.count
        rw [on_ack_send_ts]
        exact hts hc
      · intro hz
        rw [hargs] at hz
        have hsent : (on_ack s now payload).sent = s.sent := by
          rcases hq.wf with h | h
          · have := h.1.count_pos
            omega
          · exact (on_ack_dur s now payload h).2.1
        show (on_ack s now payload).sent + rest.length < U64
        rw [hsent]
        have := hb hz
        omega
      · intro q t hp tp2 htp2
        exact hbound q t (h2 q t hp) tp2 htp2
    | sweep now =>
      have hst : send_times (Event.sweep now :: rest) = send_times rest := rfl
      rw [hst] at hbound hmono
      obtain ⟨h1, h2⟩ := queueOrdered_sweep s now hq
      obtain ⟨_, _, _, _, _, _, _, fsent, fts⟩ := sweep_frame now s
      refine ih (step s (Event.sweep now)) h1 ?_ ?_ ?_ hmono
      · intro hc
        rw [hargs] at hc ⊢
        show (sweep s now).send_ts.length = s.args.count
        rw [fts]
        exact hts hc
      · intro hz
        rw [hargs] at hz
        show (sweep s now).sent + rest.length < U64
        rw [fsent]
        have := hb hz
        omega
      · intro q t hp tp2 htp2
        exact hbound q t (h2 q t hp) tp2 htp2

/-- Every state reached from the initial state by a trace whose send events carry
non-decreasing clock readings (a steady clock) has its pending queue in send order with
non-decreasing send times, and every inflight request in it. -/
theorem reachable_queue_ordered (args : Args) (es : List Event) (hcount : args.count < U64)
    (hlen : args.count = 0 → es.length < U64)
    (hmono : (send_times es).Pairwise (fun a b => a ≤ b)) :
    QueueOrdered (run (init args) es) := by
  have hq := init_queueOrdered args hcount
  refine run_queue_ordered (init args) es hq ?_ ?_ ?_ hmono
  · intro hc
    have hc2 : 0 < args.count := hc
    simp [init, hc2]
  · intro hz
    have h0 : (init args).sent = 0 := rfl
    have := hlen hz
    omega
  · intro q t hp
    have := pending_lt_sent (init args) hq.wf q t hp
    have h0 : (init args).sent = 0 := rfl
    omega

end pub_rtt
